import Mathlib

/-!
Wu-Manber multi-pattern matcher, `wumanber_impl.c`.

A shallow embedding of the preprocessing (`wm_search_prep_pat`, `f_prep`) and of the two
scanners (`wm_bs3`, `wm_bs1`) behind `wm_search_text`, followed by theorems about them.

Conventions of the embedding.

* A byte (`unsigned char`) is a `Fin 256`; a C string is the list of its bytes before the
  terminating NUL, so `strlen` is `List.length`; reading a string at its length yields the NUL.
* The text is the list of bytes of the buffer handed to `wm_search_text`; `end` is the separate
  `int` argument (`textend = text + end`).  A read at an index outside the list yields `0`.
* Arrays are lists read with `getD` and written with `set`; a hash chain
  (`struct pat_list *`) is the list of its `index` fields, head first.
* `unsigned` hashes wrap modulo `2 ^ 32`, `n_matches` (returned as `unsigned int`) too;
  `shift_min` holds `unsigned char` values.  Lengths, indices and `end` are natural numbers:
  the inputs covered are those whose sizes fit the C type `int`.
* The callback is modelled by the list of its invocations `(idx, off)`, in order.
-/

set_option maxRecDepth 100000

namespace Wumanber

/-- A byte of a pattern or of the text (`unsigned char`). -/
abbrev Byte := Fin 256

/-- Modelled from the spec: the header `wumanber_impl.h` is not part of the sources; the
translator tables have 256 entries (`tr[256]`). -/
def N_SYMB : Nat := 256

/-- Modelled from the spec: the header `wumanber_impl.h` is not part of the sources;
`SHIFT_SZ = 4096`. -/
def SHIFT_SZ : Nat := 4096

/-- Modelled from the spec: the header `wumanber_impl.h` is not part of the sources;
`PAT_HASH_SZ = 4096`. -/
def PAT_HASH_SZ : Nat := 4096

/-- Modelled from the spec: `struct WuManber` is declared in the missing header; these are
the fields the functions of `wumanber_impl.c` read and write.  `patt` is the pattern array
shifted by one (`wm->patt = pat_p-1`): entry 0 is the reserved slot, entries `1 .. n_pat`
are the patterns.  `cb` records whether the stored callback pointer is non-null. -/
structure WuManber where
  nocase : Bool
  patt : List (List Byte)
  n_pat : Nat
  use_bs3 : Bool
  use_bs1 : Bool
  tr : List Nat
  tr1 : List Nat
  pat_len : List Nat
  p_size : Nat
  shift_min : List Nat
  pat_hash : List (List Nat)
  one_match_per_line : Bool
  one_match_per_offset : Bool
  n_matches : Nat
  cb : Bool

/-- The structure as `calloc(1, sizeof(struct WuManber))` leaves it in `wm_search_init`. -/
def wm_calloc : WuManber :=
  { nocase := false, patt := [], n_pat := 0, use_bs3 := false, use_bs1 := false,
    tr := List.replicate N_SYMB 0, tr1 := List.replicate N_SYMB 0, pat_len := [],
    p_size := 0, shift_min := List.replicate SHIFT_SZ 0,
    pat_hash := List.replicate PAT_HASH_SZ [],
    one_match_per_line := false, one_match_per_offset := false, n_matches := 0, cb := false }

/-- The outcome of `exit(2)` in `wm_search_prep_pat`. -/
inductive WmError where
  | EmptyPattern

/-- The table `tr`: `for(i=0; i< N_SYMB; i++) wm->tr[i] = i;` followed, when `nocase` is
set, by `for(i='A'; i<= 'Z'; i++) wm->tr[i] = i + 'a' - 'A';`. -/
def prep_tr (nocase : Bool) : List Nat :=
  let tr := List.range N_SYMB
  if nocase then (List.range' 65 26).foldl (fun tr i => tr.set i (i + 97 - 65)) tr else tr

/-- The table `tr1`: `for(i=0; i< N_SYMB; i++) wm->tr1[i] = wm->tr[i]&Mask;` with
`Mask = 15`. -/
def prep_tr1 (tr : List Nat) : List Nat :=
  (List.range N_SYMB).map (fun i => tr.getD i 0 &&& 15)

/-- One round of the loop `for(i=1 ; i <= wm->n_pat; i++)` of `wm_search_prep_pat` that
fills `pat_len` and lowers `p_size`; the state is `(pat_len, p_size)`. -/
def prep_len_step (patt : List (List Byte)) (st : List Nat × Nat) (i : Nat) : List Nat × Nat :=
  let l := (patt.getD i []).length
  (st.1.set i l, if l ≠ 0 ∧ l < st.2 then l else st.2)

/-- The first loop of `f_prep`: `for (i = m-1; i>=(1+wm->use_bs3); i--)`, lowering the
entries of `shift_min`.  The counter is `i + 1`. -/
def f_prep_shift (wm : WuManber) (Pattern : List Byte) : Nat → List Nat → List Nat
  | 0, shift_min => shift_min
  | i + 1, shift_min =>
    if 1 + wm.use_bs3.toNat ≤ i then
      let hash := (Pattern.getD i 0).val &&& 15
      let hash := (hash <<< 4) + ((Pattern.getD (i - 1) 0).val &&& 15)
      let hash := if wm.use_bs3 then (hash <<< 4) + ((Pattern.getD (i - 2) 0).val &&& 15) else hash
      f_prep_shift wm Pattern i
        (if wm.p_size - 1 - i ≤ shift_min.getD hash 0 then shift_min.set hash (wm.p_size - 1 - i)
         else shift_min)
    else shift_min

/-- The second loop of `f_prep`: `for(i = m-1; i>=0; i--) hash = (hash << 4) +
(wm->tr[Pattern[i]]&Mask);` on an `unsigned`.  The counter is `i + 1`. -/
def f_prep_hash (wm : WuManber) (Mask : Nat) (Pattern : List Byte) : Nat → Nat → Nat
  | 0, hash => hash
  | i + 1, hash =>
    f_prep_hash wm Mask Pattern i
      (((hash <<< 4) + (wm.tr.getD (Pattern.getD i 0).val 0 &&& Mask)) % 2 ^ 32)

/-- The function `f_prep`: lowers the shifts of the blocks of the first `p_size` bytes of the
pattern and prepends the pattern's index to the chain of its prefix hash. -/
def f_prep (wm : WuManber) (pat_index : Nat) (Pattern : List Byte) : WuManber :=
  let m := wm.p_size
  let shift_min := f_prep_shift wm Pattern m wm.shift_min
  let Mask := if wm.use_bs1 then 255 else 15
  let hash := f_prep_hash wm Mask Pattern m 0
  let hash := hash &&& (PAT_HASH_SZ - 1)
  { wm with
    shift_min := shift_min
    pat_hash := wm.pat_hash.set hash (pat_index :: wm.pat_hash.getD hash []) }

/-- The function `wm_search_prep_pat`; `n_pat` is the length of the pattern array `pat_p`.
The `exit(2)` branch is the `EmptyPattern` error. -/
def wm_search_prep_pat (wm : WuManber) (pat_p : List (List Byte)) (nocase : Bool) :
    Except WmError WuManber :=
  let n_pat := pat_p.length
  let patt := [] :: pat_p
  let tr := prep_tr nocase
  let tr1 := prep_tr1 tr
  let st := (List.range' 1 n_pat).foldl (prep_len_step patt) (List.replicate (n_pat + 2) 0, 255)
  let p_size := st.2
  if p_size = 0 then Except.error WmError.EmptyPattern
  else
    let use_bs3 := decide (100 < n_pat ∧ 2 < p_size)
    let use_bs1 := decide (p_size = 1)
    let wm1 : WuManber :=
      { wm with
        nocase := nocase, patt := patt, n_pat := n_pat, use_bs3 := use_bs3, use_bs1 := use_bs1,
        tr := tr, tr1 := tr1, pat_len := st.1, p_size := p_size,
        shift_min := List.replicate SHIFT_SZ ((p_size + 254) % 256),
        pat_hash := List.replicate PAT_HASH_SZ [] }
    Except.ok ((List.range' 1 n_pat).foldl (fun w i => f_prep w i (w.patt.getD i [])) wm1)

/-- The function `wm_search_defaults`. -/
def wm_search_defaults (wm : WuManber) : WuManber :=
  { wm with one_match_per_line := false, one_match_per_offset := false, cb := false }

/-- The function `wm_search_init`: `calloc`, `wm_search_prep_pat`, `wm_search_defaults`. -/
def wm_search_init (pat_list : List (List Byte)) (nocase : Bool) : Except WmError WuManber :=
  (wm_search_prep_pat wm_calloc pat_list nocase).map wm_search_defaults

/-- The part of the state a scan changes: the counter `wm->n_matches` and the invocations
of the callback so far. -/
structure Scan where
  n_matches : Nat
  calls : List (Nat × Nat)

/-- How a walk along a hash chain ends: whether the scanner executed `return`, where the
cursor `text` stands (as an index into the buffer), and the scan state. -/
structure Walk where
  returned : Bool
  text : Nat
  scan : Scan

/-- A report: `wm->n_matches++;` and `if (wm->cb) wm->cb(pat_index, off, wm->cb_data);`. -/
def report (wm : WuManber) (s : Scan) (pat_index off : Nat) : Scan :=
  { n_matches := (s.n_matches + 1) % 2 ^ 32
    calls := if wm.cb then s.calls ++ [(pat_index, off)] else s.calls }

/-- The loop `while (*text != '\n') text++;` run on the bytes from the cursor on.  Without a
further newline the C loop leaves the buffer; here the cursor stops right behind the last
byte. -/
def skip_line : List Byte → Nat → Nat
  | [], text => text
  | c :: rest, text => if c ≠ 10 then skip_line rest (text + 1) else text

/-- The verification loops of `wm_bs3`,
`while ((--l>=0) && (tr[wm->patt[pat_index][l]] == tr[qx[l]])) ;` when `nocase` is set and
`while ((--l>=0) && (wm->patt[pat_index][l] == qx[l])) ;` otherwise, followed by the test
`l < 0`.  The counter is the value of `l` before the decrement. -/
def bs3_verify (wm : WuManber) (T : List Byte) (pat_index qx : Nat) : Nat → Bool
  | 0 => true
  | l + 1 =>
    let a := (wm.patt.getD pat_index []).getD l 0
    let b := T.getD (qx + l) 0
    if (if wm.nocase then wm.tr.getD a.val 0 == wm.tr.getD b.val 0 else a == b) then
      bs3_verify wm T pat_index qx l
    else false

/-- The hash loop of `wm_bs3`: `for(i=0;i<=m1;i++) hash=(hash<<4)+(tr1[*(text-i)]);` on an
`unsigned`; the first argument counts the rounds left. -/
def bs3_hash (wm : WuManber) (T : List Byte) (text : Nat) : Nat → Nat → Nat → Nat
  | 0, _, hash => hash
  | n + 1, i, hash =>
    bs3_hash wm T text n (i + 1)
      (((hash <<< 4) + wm.tr1.getD (T.getD (text - i) 0).val 0) % 2 ^ 32)

/-- The chain walk `while(p != 0)` of `wm_bs3` (the safe variant, `DANGEROUS_BEANS` off),
from the chain `p`, the cursor `text` and the flag `MATCHED`. -/
def wm_bs3_chain (wm : WuManber) (T : List Byte) (e : Nat) :
    List Nat → Nat → Bool → Scan → Walk
  | [], text, _, s => { returned := false, text := text, scan := s }
  | pat_index :: p, text, MATCHED, s =>
    let m1 := wm.p_size - 1
    let qx := text - m1
    if e < text then { returned := true, text := text, scan := s }
    else
      let l := wm.pat_len.getD pat_index 0
      if qx + l ≤ e ∧ bs3_verify wm T pat_index qx l = true then
        let s := report wm s pat_index (text - m1)
        let text := if wm.one_match_per_line then skip_line (T.drop text) text else text
        if wm.one_match_per_offset then { returned := false, text := text, scan := s }
        else wm_bs3_chain wm T e p text true s
      else if wm.one_match_per_offset && MATCHED then
        { returned := false, text := text, scan := s }
      else wm_bs3_chain wm T e p text MATCHED s

/-- The loop `while (text <= textend)` of `wm_bs3`; the first argument bounds the number of
rounds. -/
def wm_bs3_loop (wm : WuManber) (T : List Byte) (e : Nat) : Nat → Nat → Scan → Scan
  | 0, _, s => s
  | fuel + 1, text, s =>
    if text ≤ e then
      let hash := wm.tr1.getD (T.getD text 0).val 0
      let hash := (hash <<< 4) + wm.tr1.getD (T.getD (text - 1) 0).val 0
      let hash := if wm.use_bs3 then (hash <<< 4) + wm.tr1.getD (T.getD (text - 2) 0).val 0 else hash
      let shift := wm.shift_min.getD hash 0
      if shift = 0 then
        let hash := bs3_hash wm T text (wm.p_size - 1 + 1) 0 0
        let hash := hash &&& (PAT_HASH_SZ - 1)
        let w := wm_bs3_chain wm T e (wm.pat_hash.getD hash []) text false s
        if w.returned then w.scan else wm_bs3_loop wm T e fuel (w.text + 1) w.scan
      else wm_bs3_loop wm T e fuel (text + shift) s
    else s

/-- The function `wm_bs3`.  The cursor starts at `m1 = m - 1` and grows in every round, so
`e + 1` rounds are enough to pass `textend`. -/
def wm_bs3 (wm : WuManber) (T : List Byte) (e : Nat) (s : Scan) : Scan :=
  wm_bs3_loop wm T e (e + 1) (wm.p_size - 1) s

/-- The comparison loop of `wm_bs1`, `while(tr[wm->patt[pat_index][j]] == tr[*(qx++)]) j++;`
with `qx` starting at the cursor.  The first argument bounds the rounds by the bytes of the
pattern and its terminator: behind them the C loop reads outside the string, and the test
that follows (`pat_len <= j`) is decided already. -/
def bs1_compare (wm : WuManber) (T : List Byte) (pat_index text : Nat) : Nat → Nat → Nat
  | 0, j => j
  | fuel + 1, j =>
    if wm.tr.getD ((wm.patt.getD pat_index []).getD j 0).val 0
        = wm.tr.getD (T.getD (text + j) 0).val 0 then
      bs1_compare wm T pat_index text fuel (j + 1)
    else j

/-- The chain walk `while(p != 0)` of `wm_bs1`.  `MATCHED` is never set in `wm_bs1`. -/
def wm_bs1_chain (wm : WuManber) (T : List Byte) (e : Nat) :
    List Nat → Nat → Bool → Scan → Walk
  | [], text, _, s => { returned := false, text := text, scan := s }
  | pat_index :: p, text, MATCHED, s =>
    let j := bs1_compare wm T pat_index text ((wm.patt.getD pat_index []).length + 1) 0
    if wm.pat_len.getD pat_index 0 ≤ j then
      if e ≤ text then { returned := true, text := text, scan := s }
      else
        let s := report wm s pat_index text
        let text := if wm.one_match_per_line then skip_line (T.drop text) text else text
        if wm.one_match_per_offset && MATCHED then { returned := false, text := text, scan := s }
        else wm_bs1_chain wm T e p text MATCHED s
    else if wm.one_match_per_offset && MATCHED then
      { returned := false, text := text, scan := s }
    else wm_bs1_chain wm T e p text MATCHED s

/-- The loop `while (++text <= textend)` of `wm_bs1`; the second argument is the cursor after
the increment, the first bounds the number of rounds. -/
def wm_bs1_loop (wm : WuManber) (T : List Byte) (e : Nat) : Nat → Nat → Scan → Scan
  | 0, _, s => s
  | fuel + 1, text, s =>
    if text ≤ e then
      let w := wm_bs1_chain wm T e (wm.pat_hash.getD (T.getD text 0).val []) text false s
      if w.returned then w.scan else wm_bs1_loop wm T e fuel (w.text + 1) w.scan
    else s

/-- The function `wm_bs1`. -/
def wm_bs1 (wm : WuManber) (T : List Byte) (e : Nat) (s : Scan) : Scan :=
  wm_bs1_loop wm T e (e + 1) 0 s

/-- What `wm_search_text` leaves behind: the handle, the returned `wm->n_matches` and the
invocations of the callback. -/
structure SearchResult where
  wm : WuManber
  n_matches : Nat
  calls : List (Nat × Nat)

/-- The function `wm_search_text`; `cb` tells whether the callback argument is non-null,
`text` is `none` for a null pointer. -/
def wm_search_text (wm : WuManber) (text : Option (List Byte)) (e : Nat) (cb : Bool) :
    SearchResult :=
  let wm := { wm with n_matches := 0 }
  let wm := if cb then { wm with cb := cb } else wm
  match text with
  | none => { wm := wm, n_matches := wm.n_matches, calls := [] }
  | some T =>
    let s := if wm.use_bs1 then wm_bs1 wm T e { n_matches := wm.n_matches, calls := [] }
             else wm_bs3 wm T e { n_matches := wm.n_matches, calls := [] }
    { wm := { wm with n_matches := s.n_matches }, n_matches := s.n_matches, calls := s.calls }

/-- The reports of a scan by a freshly initialised matcher on the text `T` with the given
`end`, through a non-null callback; `none` when `wm_search_init` fails. -/
def scan_calls (pat_list : List (List Byte)) (nocase : Bool) (T : List Byte) (e : Nat) :
    Option (List (Nat × Nat)) :=
  match wm_search_init pat_list nocase with
  | Except.ok wm => some (wm_search_text wm (some T) e true).calls
  | Except.error _ => none

/-! ## Notions used to state the properties -/

/-- The shift hash of the block of a pattern that ends at index `k`, the expression of the
first loop of `f_prep` (two nibbles, three when `use_bs3` is set). -/
def block_hash (bs3 : Bool) (P : List Byte) (k : Nat) : Nat :=
  if bs3 then
    (((((P.getD k 0).val &&& 15) <<< 4) + ((P.getD (k - 1) 0).val &&& 15)) <<< 4)
      + ((P.getD (k - 2) 0).val &&& 15)
  else (((P.getD k 0).val &&& 15) <<< 4) + ((P.getD (k - 1) 0).val &&& 15)

/-- The bucket of `pat_hash` onto whose chain `f_prep` puts the pattern `P`. -/
def pat_hash_of (wm : WuManber) (P : List Byte) : Nat :=
  f_prep_hash wm (if wm.use_bs1 then 255 else 15) P wm.p_size 0 &&& (PAT_HASH_SZ - 1)

/-- The handles `w` and `v` agree on everything but `shift_min` and `pat_hash`. -/
def same_config (w v : WuManber) : Prop :=
  v.nocase = w.nocase ∧ v.patt = w.patt ∧ v.n_pat = w.n_pat ∧ v.use_bs3 = w.use_bs3 ∧
  v.use_bs1 = w.use_bs1 ∧ v.tr = w.tr ∧ v.tr1 = w.tr1 ∧ v.pat_len = w.pat_len ∧
  v.p_size = w.p_size ∧ v.one_match_per_line = w.one_match_per_line ∧
  v.one_match_per_offset = w.one_match_per_offset ∧ v.n_matches = w.n_matches ∧ v.cb = w.cb

/-- What preprocessing the pattern list `pats` establishes about the handle `wm`: the
configuration, the window size, the variant, the shift table and the hash chains. -/
structure Prepared (pats : List (List Byte)) (nocase : Bool) (wm : WuManber) : Prop where
  nocase_eq : wm.nocase = nocase
  patt_eq : wm.patt = [] :: pats
  n_pat_eq : wm.n_pat = pats.length
  tr_eq : wm.tr = prep_tr nocase
  tr1_eq : wm.tr1 = prep_tr1 (prep_tr nocase)
  p_size_pos : 1 ≤ wm.p_size
  p_size_le : wm.p_size ≤ 255
  p_size_le_len : ∀ P ∈ pats, P ≠ [] → wm.p_size ≤ P.length
  p_size_attained : wm.p_size = 255 ∨ ∃ P ∈ pats, wm.p_size = P.length
  use_bs3_eq : wm.use_bs3 = decide (100 < pats.length ∧ 2 < wm.p_size)
  use_bs1_eq : wm.use_bs1 = decide (wm.p_size = 1)
  pat_len_eq : ∀ i, 1 ≤ i → i ≤ pats.length →
    wm.pat_len.getD i 0 = (wm.patt.getD i []).length
  shift_default : ∀ h, wm.shift_min.getD h 0 ≤ (wm.p_size + 254) % 256
  shift_block : ∀ i, 1 ≤ i → i ≤ pats.length → ∀ k, 1 + wm.use_bs3.toNat ≤ k → k < wm.p_size →
    wm.shift_min.getD (block_hash wm.use_bs3 (wm.patt.getD i []) k) 0 ≤ wm.p_size - 1 - k
  chain : ∀ h, wm.pat_hash.getD h []
    = ((List.range' 1 pats.length).filter
        (fun i => decide (pat_hash_of wm (wm.patt.getD i []) = h))).reverse

/-- The shift hash `wm_bs3` computes with the cursor at index `t`. -/
def text_block_hash (wm : WuManber) (T : List Byte) (t : Nat) : Nat :=
  if wm.use_bs3 then
    (((wm.tr1.getD (T.getD t 0).val 0 <<< 4) + wm.tr1.getD (T.getD (t - 1) 0).val 0) <<< 4)
      + wm.tr1.getD (T.getD (t - 2) 0).val 0
  else (wm.tr1.getD (T.getD t 0).val 0 <<< 4) + wm.tr1.getD (T.getD (t - 1) 0).val 0

/-- The bucket of `pat_hash` whose chain `wm_bs3` walks with the cursor at index `t`. -/
def text_pat_hash (wm : WuManber) (T : List Byte) (t : Nat) : Nat :=
  bs3_hash wm T t (wm.p_size - 1 + 1) 0 0 &&& (PAT_HASH_SZ - 1)

/-- A pattern byte `a` and a text byte `b` are equal under the case mode: after the
translation by the table `tr` on both sides when `nocase` is set, as raw bytes otherwise. -/
def mode_eq (nocase : Bool) (tr : List Nat) (a b : Byte) : Prop :=
  if nocase = true then tr.getD a.val 0 = tr.getD b.val 0 else a = b

instance (nocase : Bool) (tr : List Nat) (a b : Byte) : Decidable (mode_eq nocase tr a b) := by
  unfold mode_eq; exact inferInstance

/-- The pattern `P` occurs in the text `T` at offset `o`: `T[o + j]` equals `P[j]` under the
case mode for every `j` below the length of `P`. -/
def occurs (nocase : Bool) (tr : List Nat) (P T : List Byte) (o : Nat) : Prop :=
  ∀ j, j < P.length → mode_eq nocase tr (P.getD j 0) (T.getD (o + j) 0)

instance (nocase : Bool) (tr : List Nat) (P T : List Byte) (o : Nat) :
    Decidable (occurs nocase tr P T o) := by
  unfold occurs; exact inferInstance

/-- The handle as `wm_search_text` scans with it when given a non-null callback: the counter
reset, the callback stored. -/
def armed (wm : WuManber) : WuManber := { wm with n_matches := 0, cb := true }

/-- The test that makes `wm_bs3`, with the cursor at index `t`, report the pattern `i`:
the candidate ends before `textend` and the verification loop runs through. -/
def bs3_hit (wm : WuManber) (T : List Byte) (e t i : Nat) : Bool :=
  decide (t - (wm.p_size - 1) + wm.pat_len.getD i 0 ≤ e) &&
    bs3_verify wm T i (t - (wm.p_size - 1)) (wm.pat_len.getD i 0)

/-- The pattern with the 1-based index `i` of the list `pats` occurs in the text `T` at the
offset `o` and ends before index `e`: `o + pat_len[i] <= end`. -/
def occurrence (nocase : Bool) (tr : List Nat) (pats : List (List Byte)) (T : List Byte)
    (e i o : Nat) : Prop :=
  1 ≤ i ∧ i ≤ pats.length ∧ o + (pats.getD (i - 1) []).length ≤ e ∧
    occurs nocase tr (pats.getD (i - 1) []) T o

instance (nocase : Bool) (tr : List Nat) (pats : List (List Byte)) (T : List Byte)
    (e i o : Nat) : Decidable (occurrence nocase tr pats T e i o) := by
  unfold occurrence; exact inferInstance

/-- ASCII lowercasing of a byte: `'A' .. 'Z'` go to `'a' .. 'z'`, every other byte stays. -/
def ascii_lower (b : Byte) : Byte :=
  if 65 ≤ b.val ∧ b.val ≤ 90 then b + 32 else b

/-- The assignments `wm->one_match_per_line = ...; wm->one_match_per_offset = ...;` by which
a caller sets the two flags between `wm_search_init` and `wm_search_text` (the C source has
no function for it; the name is the one of the interface description). -/
def set_flags (wm : WuManber) (one_per_line one_per_offset : Bool) : WuManber :=
  { wm with one_match_per_line := one_per_line, one_match_per_offset := one_per_offset }

/-- The table index of the block ending at index `k` with the most recent byte first: the
low nibble of `P[k]` in the most significant place, written with shifts and bitwise or. -/
def shift_index (bs3 : Bool) (P : List Byte) (k : Nat) : Nat :=
  if bs3 then
    (((P.getD k 0).val &&& 15) <<< 8) ||| (((P.getD (k - 1) 0).val &&& 15) <<< 4)
      ||| ((P.getD (k - 2) 0).val &&& 15)
  else (((P.getD k 0).val &&& 15) <<< 4) ||| ((P.getD (k - 1) 0).val &&& 15)

/-- The table index of the block ending at index `k` as the interface description writes it:
the low nibbles with the most recent byte last, `P[k]` in the least significant nibble,
masked to `SHIFT_SZ - 1`. -/
def spec_shift_index (bs3 : Bool) (P : List Byte) (k : Nat) : Nat :=
  (if bs3 then
    (((P.getD (k - 2) 0).val &&& 15) <<< 8) ||| (((P.getD (k - 1) 0).val &&& 15) <<< 4)
      ||| ((P.getD k 0).val &&& 15)
  else (((P.getD (k - 1) 0).val &&& 15) <<< 4) ||| ((P.getD k 0).val &&& 15))
    &&& (SHIFT_SZ - 1)


/-- The bucket of `pat_hash` of the pattern `P` with the first byte in the least significant
place: the sum over `k = 0 .. m-1` of `(tr[P[k]] & Mask) << (4 * k)`, masked to
`PAT_HASH_SZ - 1`. -/
def pat_bucket (tr : List Nat) (Mask m : Nat) (P : List Byte) : Nat :=
  ((List.range m).map (fun k => (tr.getD (P.getD k 0).val 0 &&& Mask) <<< (4 * k))).sum
    &&& (PAT_HASH_SZ - 1)

/-- The bucket of `pat_hash` of the pattern `P` as the interface description writes it: the
sum over `k = 0 .. m-1` of `(tr[P[k]] & Mask) << (4 * (m - 1 - k))`, masked to
`PAT_HASH_SZ - 1`. -/
def spec_pat_bucket (tr : List Nat) (Mask m : Nat) (P : List Byte) : Nat :=
  ((List.range m).map
      (fun k => (tr.getD (P.getD k 0).val 0 &&& Mask) <<< (4 * (m - 1 - k)))).sum
    &&& (PAT_HASH_SZ - 1)


/-- The reports of a scan by a freshly initialised matcher whose two flags the caller has
set, on the text `T` with the given `end`, through a non-null callback; `none` when
`wm_search_init` fails. -/
def scan_calls_with (pat_list : List (List Byte)) (nocase : Bool)
    (one_per_line one_per_offset : Bool) (T : List Byte) (e : Nat) :
    Option (List (Nat × Nat)) :=
  match wm_search_init pat_list nocase with
  | Except.ok wm =>
    some (wm_search_text (set_flags wm one_per_line one_per_offset) (some T) e true).calls
  | Except.error _ => none


/-- The handle on which `wm_search_prep_pat` runs `f_prep` for the first pattern: the fields
as the function has set them before its loop `for(i=1; i<= wm->n_pat; i++) f_prep(wm, i,
wm->patt[i]);`, with every cell of `shift_min` at the default `p_size - 2` and every chain
of `pat_hash` empty. -/
def prep_pat_before_f_prep (wm : WuManber) (pat_p : List (List Byte)) (nocase : Bool) :
    WuManber :=
  let n_pat := pat_p.length
  let patt := [] :: pat_p
  let tr := prep_tr nocase
  let tr1 := prep_tr1 tr
  let st := (List.range' 1 n_pat).foldl (prep_len_step patt) (List.replicate (n_pat + 2) 0, 255)
  let p_size := st.2
  { wm with
    nocase := nocase, patt := patt, n_pat := n_pat,
    use_bs3 := decide (100 < n_pat ∧ 2 < p_size), use_bs1 := decide (p_size = 1),
    tr := tr, tr1 := tr1, pat_len := st.1, p_size := p_size,
    shift_min := List.replicate SHIFT_SZ ((p_size + 254) % 256),
    pat_hash := List.replicate PAT_HASH_SZ [] }

/-- A checked read of a text byte, `*(T + i)` at the integer index `i` that the pointer
expression of the source computes: the byte when `0 <= i <= hi`, and `none`, a read outside
the bounds, otherwise. -/
def read_text (T : List Byte) (hi i : Int) : Option Byte :=
  if 0 ≤ i ∧ i ≤ hi then some (T.getD i.toNat 0) else none

/-- A checked read of a pattern byte, `wm->patt[pat_index][j]`: the byte when `pat_index` is
in `[1, n_pat]` and `0 <= j <= pat_len[pat_index] - 1`, and `none` otherwise. -/
def read_patt (wm : WuManber) (pat_index : Nat) (j : Int) : Option Byte :=
  if 1 ≤ pat_index ∧ pat_index ≤ wm.n_pat ∧ 0 ≤ j ∧ j < (wm.pat_len.getD pat_index 0 : Int) then
    some ((wm.patt.getD pat_index []).getD j.toNat 0)
  else none

/-- The verification loops of `wm_bs3` (see `bs3_verify`) with every read checked: the
pattern byte `wm->patt[pat_index][l]` by `read_patt`, the text byte `qx[l]`, at the index
`qx + l`, by `read_text` with the bound `end - 1`.  The result is `none` as soon as one read
is outside its bounds. -/
def bs3_verify_checked (wm : WuManber) (T : List Byte) (e pat_index : Nat) (qx : Int) :
    Nat → Option Bool
  | 0 => some true
  | l + 1 =>
    match read_patt wm pat_index (l : Int), read_text T ((e : Int) - 1) (qx + (l : Int)) with
    | some a, some b =>
      if (if wm.nocase then wm.tr.getD a.val 0 == wm.tr.getD b.val 0 else a == b) then
        bs3_verify_checked wm T e pat_index qx l
      else some false
    | _, _ => none

/-- The hash loop of `wm_bs3` (see `bs3_hash`) with the read `*(text-i)` checked by
`read_text` with the bound `end`. -/
def bs3_hash_checked (wm : WuManber) (T : List Byte) (e text : Nat) :
    Nat → Nat → Nat → Option Nat
  | 0, _, hash => some hash
  | n + 1, i, hash =>
    match read_text T (e : Int) ((text : Int) - (i : Int)) with
    | some c =>
      bs3_hash_checked wm T e text n (i + 1) (((hash <<< 4) + wm.tr1.getD c.val 0) % 2 ^ 32)
    | none => none

/-- The loop `while (*text != '\n') text++;` with the read `*text` checked by `read_text`
with the bound `end`; the first argument bounds the rounds (a round behind `end` fails). -/
def skip_line_checked (T : List Byte) (e : Nat) : Nat → Nat → Option Nat
  | 0, _ => none
  | fuel + 1, text =>
    match read_text T (e : Int) (text : Int) with
    | some c => if c ≠ 10 then skip_line_checked T e fuel (text + 1) else some text
    | none => none

/-- The chain walk of `wm_bs3` (see `wm_bs3_chain`) with every read of the text and of the
patterns checked: `qx = text - m1` is kept as an integer, the test `qx + l <= textend` comes
before the verification as in the source, and the walk is `none` as soon as one read is
outside its bounds. -/
def wm_bs3_chain_checked (wm : WuManber) (T : List Byte) (e : Nat) :
    List Nat → Nat → Bool → Scan → Option Walk
  | [], text, _, s => some { returned := false, text := text, scan := s }
  | pat_index :: p, text, MATCHED, s =>
    let m1 := wm.p_size - 1
    let qx : Int := (text : Int) - (m1 : Int)
    if e < text then some { returned := true, text := text, scan := s }
    else
      let l := wm.pat_len.getD pat_index 0
      if qx + (l : Int) ≤ (e : Int) then
        match bs3_verify_checked wm T e pat_index qx l with
        | none => none
        | some true =>
          let s := report wm s pat_index (qx.toNat)
          match (if wm.one_match_per_line then skip_line_checked T e (e + 2 - text) text
                 else some text) with
          | none => none
          | some text =>
            if wm.one_match_per_offset then some { returned := false, text := text, scan := s }
            else wm_bs3_chain_checked wm T e p text true s
        | some false =>
          if wm.one_match_per_offset && MATCHED then
            some { returned := false, text := text, scan := s }
          else wm_bs3_chain_checked wm T e p text MATCHED s
      else if wm.one_match_per_offset && MATCHED then
        some { returned := false, text := text, scan := s }
      else wm_bs3_chain_checked wm T e p text MATCHED s

/-- The loop `while (text <= textend)` of `wm_bs3` (see `wm_bs3_loop`) with every read of the
text checked: `*text`, `*(text-1)` and, with `Long`, `*(text-2)` for the block hash by
`read_text` with the bound `end`, then the checked hash loop and the checked chain walk. -/
def wm_bs3_loop_checked (wm : WuManber) (T : List Byte) (e : Nat) :
    Nat → Nat → Scan → Option Scan
  | 0, _, s => some s
  | fuel + 1, text, s =>
    if text ≤ e then
      match read_text T (e : Int) (text : Int), read_text T (e : Int) ((text : Int) - 1),
        (if wm.use_bs3 then read_text T (e : Int) ((text : Int) - 2) else some 0) with
      | some c0, some c1, some c2 =>
        let hash := wm.tr1.getD c0.val 0
        let hash := (hash <<< 4) + wm.tr1.getD c1.val 0
        let hash := if wm.use_bs3 then (hash <<< 4) + wm.tr1.getD c2.val 0 else hash
        let shift := wm.shift_min.getD hash 0
        if shift = 0 then
          match bs3_hash_checked wm T e text (wm.p_size - 1 + 1) 0 0 with
          | none => none
          | some hash =>
            let hash := hash &&& (PAT_HASH_SZ - 1)
            match wm_bs3_chain_checked wm T e (wm.pat_hash.getD hash []) text false s with
            | none => none
            | some w =>
              if w.returned then some w.scan
              else wm_bs3_loop_checked wm T e fuel (w.text + 1) w.scan
        else wm_bs3_loop_checked wm T e fuel (text + shift) s
      | _, _, _ => none
    else some s

/-- The function `wm_bs3` with every read of the text and of the patterns checked: `none`
when some read is outside its bounds, and the scan state at the end otherwise. -/
def wm_bs3_checked (wm : WuManber) (T : List Byte) (e : Nat) (s : Scan) : Option Scan :=
  wm_bs3_loop_checked wm T e (e + 1) (wm.p_size - 1) s

/-! ## Translator tables -/

theorem prep_tr_eq (nocase : Bool) :
    prep_tr nocase
      = (List.range 256).map (fun b => if nocase = true ∧ 65 ≤ b ∧ b ≤ 90 then b + 32 else b) := by
  cases nocase <;> decide!

theorem prep_tr1_eq (nocase : Bool) :
    prep_tr1 (prep_tr nocase) = (List.range 256).map (fun b => b &&& 15) := by
  cases nocase <;> decide!

theorem getD_map_range (f : Nat → Nat) (n b : Nat) (h : b < n) :
    ((List.range n).map f).getD b 0 = f b := by
  simp [List.getD_eq_getElem?_getD, h]

theorem prep_tr_getD (nocase : Bool) (b : Byte) :
    (prep_tr nocase).getD b.val 0
      = if nocase = true ∧ 65 ≤ b.val ∧ b.val ≤ 90 then b.val + 32 else b.val := by
  rw [prep_tr_eq, getD_map_range _ _ _ b.isLt]

theorem prep_tr1_getD (nocase : Bool) (b : Byte) :
    (prep_tr1 (prep_tr nocase)).getD b.val 0 = b.val &&& 15 := by
  rw [prep_tr1_eq, getD_map_range _ _ _ b.isLt]

theorem prep_tr_false (b : Byte) : (prep_tr false).getD b.val 0 = b.val := by
  rw [prep_tr_getD]; simp

theorem prep_tr_nibble (nocase : Bool) (b : Byte) :
    (prep_tr nocase).getD b.val 0 &&& 15 = b.val &&& 15 := by
  rw [prep_tr_getD]
  split
  · rename_i h
    obtain ⟨_, h1, h2⟩ := h
    have hb : ∀ n, 65 ≤ n → n ≤ 90 → (n + 32) &&& 15 = n &&& 15 := by decide
    exact hb _ h1 h2
  · rfl

/-! ## Lists as arrays -/

theorem getD_set_eq {α : Type} (l : List α) (i : Nat) (a d : α) (h : i < l.length) :
    (l.set i a).getD i d = a := by
  simp [List.getD_eq_getElem?_getD, List.getElem?_set, h]

theorem getD_set_ne {α : Type} (l : List α) (i j : Nat) (a d : α) (h : i ≠ j) :
    (l.set i a).getD j d = l.getD j d := by
  simp [List.getD_eq_getElem?_getD, List.getElem?_set, h]

theorem getD_replicate {α : Type} (n i : Nat) (a d : α) (h : i < n) :
    (List.replicate n a).getD i d = a := by
  simp [List.getD_eq_getElem?_getD, List.getElem?_replicate, h]

theorem getD_replicate_self {α : Type} (n i : Nat) (a : α) :
    (List.replicate n a).getD i a = a := by
  by_cases h : i < n <;> simp [List.getD_eq_getElem?_getD, List.getElem?_replicate, h]

/-! ## The lengths and the window size -/

theorem prep_len_fold (patt : List (List Byte)) (is : List Nat) :
    ∀ st : List Nat × Nat,
      (is.foldl (prep_len_step patt) st).1.length = st.1.length ∧
      (is.foldl (prep_len_step patt) st).2 ≤ st.2 ∧
      (1 ≤ st.2 → 1 ≤ (is.foldl (prep_len_step patt) st).2) ∧
      (∀ i ∈ is, (patt.getD i []).length ≠ 0 →
        (is.foldl (prep_len_step patt) st).2 ≤ (patt.getD i []).length) ∧
      ((is.foldl (prep_len_step patt) st).2 = st.2 ∨
        ∃ i ∈ is, (is.foldl (prep_len_step patt) st).2 = (patt.getD i []).length) ∧
      (∀ i, i < st.1.length → (is.foldl (prep_len_step patt) st).1.getD i 0
        = if i ∈ is then (patt.getD i []).length else st.1.getD i 0) := by
  induction is with
  | nil => intro st; simp
  | cons a is ih =>
    intro st
    obtain ⟨h1, h2, h3, h4, h5, h6⟩ := ih (prep_len_step patt st a)
    have e1 : (prep_len_step patt st a).1 = st.1.set a (patt.getD a []).length := rfl
    have e2 : (prep_len_step patt st a).2
        = if (patt.getD a []).length ≠ 0 ∧ (patt.getD a []).length < st.2
          then (patt.getD a []).length else st.2 := rfl
    simp only [List.foldl_cons]
    refine ⟨?_, ?_, ?_, ?_, ?_, ?_⟩
    · rw [h1, e1, List.length_set]
    · refine le_trans h2 ?_
      rw [e2]; split <;> omega
    · intro hst
      apply h3
      rw [e2]; split <;> omega
    · intro i hi hne
      rcases List.mem_cons.1 hi with rfl | hi
      · refine le_trans h2 ?_
        rw [e2]; split <;> omega
      · exact h4 i hi hne
    · rcases h5 with h5 | ⟨i, hi, h5⟩
      · rw [h5, e2]
        split
        · exact Or.inr ⟨a, List.mem_cons_self _ _, rfl⟩
        · exact Or.inl rfl
      · exact Or.inr ⟨i, List.mem_cons_of_mem _ hi, h5⟩
    · intro i hi
      rw [h6 i (by rw [e1, List.length_set]; exact hi), e1]
      by_cases hmem : i ∈ is
      · rw [if_pos hmem, if_pos (List.mem_cons_of_mem _ hmem)]
      · rw [if_neg hmem]
        by_cases hia : i = a
        · subst hia
          rw [getD_set_eq _ _ _ _ hi, if_pos (List.mem_cons_self _ _)]
        · rw [getD_set_ne _ _ _ _ _ (Ne.symm hia), if_neg]
          simp [hia, hmem]

/-! ## The shift table built by `f_prep` -/

theorem nibble_le (x : Nat) : x &&& 15 ≤ 15 := Nat.and_le_right

theorem block_hash_lt (bs3 : Bool) (P : List Byte) (k : Nat) : block_hash bs3 P k < SHIFT_SZ := by
  have h1 := nibble_le (P.getD k 0).val
  have h2 := nibble_le (P.getD (k - 1) 0).val
  have h3 := nibble_le (P.getD (k - 2) 0).val
  unfold block_hash SHIFT_SZ
  simp only [Nat.shiftLeft_eq]
  split <;> omega

theorem lower_getD_le (sm : List Nat) (h v h' : Nat) :
    (if v ≤ sm.getD h 0 then sm.set h v else sm).getD h' 0 ≤ sm.getD h' 0 := by
  split
  · rename_i hv
    by_cases hh : h = h'
    · subst hh
      by_cases hl : h < sm.length
      · rw [getD_set_eq _ _ _ _ hl]; exact hv
      · rw [List.set_eq_of_length_le (by omega)]
    · rw [getD_set_ne _ _ _ _ _ hh]
  · exact le_refl _

theorem lower_getD_self (sm : List Nat) (h v : Nat) (hl : h < sm.length) :
    (if v ≤ sm.getD h 0 then sm.set h v else sm).getD h 0 ≤ v := by
  split
  · rw [getD_set_eq _ _ _ _ hl]
  · omega

theorem lower_length (sm : List Nat) (h v : Nat) :
    (if v ≤ sm.getD h 0 then sm.set h v else sm).length = sm.length := by
  split <;> simp

theorem f_prep_shift_step (wm : WuManber) (P : List Byte) (i : Nat) (sm : List Nat) :
    f_prep_shift wm P (i + 1) sm
      = if 1 + wm.use_bs3.toNat ≤ i then
          f_prep_shift wm P i
            (if wm.p_size - 1 - i ≤ sm.getD (block_hash wm.use_bs3 P i) 0
             then sm.set (block_hash wm.use_bs3 P i) (wm.p_size - 1 - i) else sm)
        else sm := by
  cases hb : wm.use_bs3 <;> simp [f_prep_shift, block_hash, hb]

theorem f_prep_shift_length (wm : WuManber) (P : List Byte) (n : Nat) :
    ∀ sm : List Nat, (f_prep_shift wm P n sm).length = sm.length := by
  induction n with
  | zero => intro sm; rfl
  | succ i ih =>
    intro sm
    rw [f_prep_shift_step]
    split
    · rw [ih, lower_length]
    · rfl

theorem f_prep_shift_le (wm : WuManber) (P : List Byte) (n : Nat) :
    ∀ (sm : List Nat) (h : Nat), (f_prep_shift wm P n sm).getD h 0 ≤ sm.getD h 0 := by
  induction n with
  | zero => intro sm h; exact le_refl _
  | succ i ih =>
    intro sm h
    rw [f_prep_shift_step]
    split
    · exact le_trans (ih _ h) (lower_getD_le _ _ _ _)
    · exact le_refl _

theorem f_prep_shift_block (wm : WuManber) (P : List Byte) (n : Nat) :
    ∀ (sm : List Nat), sm.length = SHIFT_SZ →
      ∀ k, 1 + wm.use_bs3.toNat ≤ k → k < n →
        (f_prep_shift wm P n sm).getD (block_hash wm.use_bs3 P k) 0 ≤ wm.p_size - 1 - k := by
  induction n with
  | zero => intro sm _ k _ hk; omega
  | succ i ih =>
    intro sm hlen k hk1 hk2
    have hi : 1 + wm.use_bs3.toNat ≤ i := by omega
    rw [f_prep_shift_step, if_pos hi]
    by_cases hki : k = i
    · subst hki
      refine le_trans (f_prep_shift_le _ _ _ _ _) ?_
      exact lower_getD_self _ _ _ (by rw [hlen]; exact block_hash_lt _ _ _)
    · exact ih _ (by rw [lower_length]; exact hlen) k hk1 (by omega)

/-! ## The effect of `f_prep` and of the loop over the patterns -/

theorem f_prep_same (w : WuManber) (i : Nat) (P : List Byte) : same_config w (f_prep w i P) := by
  simp [same_config, f_prep]

theorem same_config_refl (w : WuManber) : same_config w w := by
  simp [same_config]

theorem same_config_trans {u v w : WuManber} (h1 : same_config u v) (h2 : same_config v w) :
    same_config u w := by
  obtain ⟨a1, a2, a3, a4, a5, a6, a7, a8, a9, a10, a11, a12, a13⟩ := h1
  obtain ⟨b1, b2, b3, b4, b5, b6, b7, b8, b9, b10, b11, b12, b13⟩ := h2
  exact ⟨b1.trans a1, b2.trans a2, b3.trans a3, b4.trans a4, b5.trans a5, b6.trans a6,
    b7.trans a7, b8.trans a8, b9.trans a9, b10.trans a10, b11.trans a11, b12.trans a12,
    b13.trans a13⟩

theorem f_prep_shift_congr {w v : WuManber} (h : same_config w v) (P : List Byte) (n : Nat) :
    ∀ sm, f_prep_shift v P n sm = f_prep_shift w P n sm := by
  obtain ⟨_, _, _, h4, _, _, _, _, h9, _⟩ := h
  induction n with
  | zero => intro sm; rfl
  | succ i ih =>
    intro sm
    rw [f_prep_shift_step, f_prep_shift_step, h4, h9, ih]

theorem f_prep_hash_congr {w v : WuManber} (h : v.tr = w.tr) (Mask : Nat) (P : List Byte)
    (n : Nat) : ∀ hash, f_prep_hash v Mask P n hash = f_prep_hash w Mask P n hash := by
  induction n with
  | zero => intro hash; rfl
  | succ i ih => intro hash; simp only [f_prep_hash, h, ih]

theorem pat_hash_of_congr' {w v : WuManber} (h5 : v.use_bs1 = w.use_bs1) (h6 : v.tr = w.tr)
    (h9 : v.p_size = w.p_size) (P : List Byte) : pat_hash_of v P = pat_hash_of w P := by
  unfold pat_hash_of
  rw [h5, h9, f_prep_hash_congr h6]

theorem pat_hash_of_congr {w v : WuManber} (h : same_config w v) (P : List Byte) :
    pat_hash_of v P = pat_hash_of w P := by
  obtain ⟨_, _, _, _, h5, h6, _, _, h9, _⟩ := h
  exact pat_hash_of_congr' h5 h6 h9 P

theorem pat_hash_of_lt (w : WuManber) (P : List Byte) : pat_hash_of w P < PAT_HASH_SZ := by
  unfold pat_hash_of PAT_HASH_SZ
  have := Nat.and_pow_two_sub_one_eq_mod
    (f_prep_hash w (if w.use_bs1 then 255 else 15) P w.p_size 0) 12
  norm_num at this
  rw [this]
  exact Nat.mod_lt _ (by norm_num)

theorem f_prep_shift_min (w : WuManber) (i : Nat) (P : List Byte) :
    (f_prep w i P).shift_min = f_prep_shift w P w.p_size w.shift_min := rfl

theorem f_prep_pat_hash (w : WuManber) (i : Nat) (P : List Byte) :
    (f_prep w i P).pat_hash
      = w.pat_hash.set (pat_hash_of w P) (i :: w.pat_hash.getD (pat_hash_of w P) []) := rfl

theorem fold_f_prep_same (is : List Nat) :
    ∀ w : WuManber, same_config w (is.foldl (fun w i => f_prep w i (w.patt.getD i [])) w) := by
  induction is with
  | nil => intro w; exact same_config_refl w
  | cons a is ih =>
    intro w
    exact same_config_trans (f_prep_same w a _) (ih _)

theorem fold_f_prep_shift (is : List Nat) :
    ∀ w : WuManber, w.shift_min.length = SHIFT_SZ →
      (is.foldl (fun w i => f_prep w i (w.patt.getD i [])) w).shift_min.length = SHIFT_SZ ∧
      (∀ h, (is.foldl (fun w i => f_prep w i (w.patt.getD i [])) w).shift_min.getD h 0
          ≤ w.shift_min.getD h 0) ∧
      (∀ i ∈ is, ∀ k, 1 + w.use_bs3.toNat ≤ k → k < w.p_size →
        (is.foldl (fun w i => f_prep w i (w.patt.getD i [])) w).shift_min.getD
          (block_hash w.use_bs3 (w.patt.getD i []) k) 0 ≤ w.p_size - 1 - k) := by
  induction is with
  | nil => intro w hw; simp [hw]
  | cons a is ih =>
    intro w hw
    have hs := f_prep_same w a (w.patt.getD a [])
    have hl : (f_prep w a (w.patt.getD a [])).shift_min.length = SHIFT_SZ := by
      rw [f_prep_shift_min, f_prep_shift_length, hw]
    obtain ⟨h1, h2, h3⟩ := ih (f_prep w a (w.patt.getD a [])) hl
    obtain ⟨_, c2, _, c4, _, _, _, _, c9, _⟩ := hs
    simp only [List.foldl_cons]
    refine ⟨h1, ?_, ?_⟩
    · intro h
      refine le_trans (h2 h) ?_
      rw [f_prep_shift_min]
      exact f_prep_shift_le _ _ _ _ _
    · intro i hi k hk1 hk2
      rcases List.mem_cons.1 hi with rfl | hi
      · refine le_trans (h2 _) ?_
        rw [f_prep_shift_min]
        exact f_prep_shift_block w _ _ _ hw k hk1 hk2
      · have := h3 i hi k (by rw [c4]; exact hk1) (by rw [c9]; exact hk2)
        rw [c2, c4, c9] at this
        exact this

theorem fold_f_prep_chain (is : List Nat) :
    ∀ w : WuManber, w.pat_hash.length = PAT_HASH_SZ →
      (is.foldl (fun w i => f_prep w i (w.patt.getD i [])) w).pat_hash.length = PAT_HASH_SZ ∧
      ∀ h, (is.foldl (fun w i => f_prep w i (w.patt.getD i [])) w).pat_hash.getD h []
        = (is.filter (fun i => decide (pat_hash_of w (w.patt.getD i []) = h))).reverse
            ++ w.pat_hash.getD h [] := by
  induction is with
  | nil => intro w hw; simp [hw]
  | cons a is ih =>
    intro w hw
    have hs := f_prep_same w a (w.patt.getD a [])
    have hl : (f_prep w a (w.patt.getD a [])).pat_hash.length = PAT_HASH_SZ := by
      rw [f_prep_pat_hash, List.length_set, hw]
    obtain ⟨h1, h2⟩ := ih (f_prep w a (w.patt.getD a [])) hl
    simp only [List.foldl_cons]
    refine ⟨h1, ?_⟩
    intro h
    rw [h2 h]
    have e1 : ∀ i, pat_hash_of (f_prep w a (w.patt.getD a []))
        ((f_prep w a (w.patt.getD a [])).patt.getD i []) = pat_hash_of w (w.patt.getD i []) := by
      intro i
      rw [pat_hash_of_congr hs, hs.2.1]
    simp only [e1]
    rw [f_prep_pat_hash, List.filter_cons]
    by_cases hh : pat_hash_of w (w.patt.getD a []) = h
    · subst hh
      rw [getD_set_eq _ _ _ _ (by rw [hw]; exact pat_hash_of_lt _ _)]
      simp
    · rw [getD_set_ne _ _ _ _ _ hh, if_neg (by simpa using hh)]

/-! ## What `wm_search_prep_pat` establishes -/

theorem patt_getD_mem (pats : List (List Byte)) (i : Nat) (h1 : 1 ≤ i) (h2 : i ≤ pats.length) :
    (([] : List Byte) :: pats).getD i [] ∈ pats := by
  obtain ⟨j, rfl⟩ : ∃ j, i = j + 1 := ⟨i - 1, by omega⟩
  have hj : j < pats.length := by omega
  simp [List.getD_eq_getElem?_getD, List.getElem?_eq_getElem hj]

theorem mem_patt_getD (pats : List (List Byte)) (P : List Byte) (h : P ∈ pats) :
    ∃ i, 1 ≤ i ∧ i ≤ pats.length ∧ (([] : List Byte) :: pats).getD i [] = P := by
  obtain ⟨j, hj, rfl⟩ := List.getElem_of_mem h
  refine ⟨j + 1, by omega, by omega, ?_⟩
  simp [List.getD_eq_getElem?_getD, List.getElem?_eq_getElem hj]

theorem mem_range'_one (n i : Nat) : i ∈ List.range' 1 n ↔ 1 ≤ i ∧ i ≤ n := by
  rw [List.mem_range'_1]; omega

theorem prep_pat_ok (w0 : WuManber) (pats : List (List Byte)) (nocase : Bool) :
    ∃ wm, wm_search_prep_pat w0 pats nocase = Except.ok wm ∧ Prepared pats nocase wm ∧
      wm.one_match_per_line = w0.one_match_per_line ∧
      wm.one_match_per_offset = w0.one_match_per_offset ∧ wm.cb = w0.cb := by
  obtain ⟨l1, l2, l3, l4, l5, l6⟩ := prep_len_fold ([] :: pats) (List.range' 1 pats.length)
    (List.replicate (pats.length + 2) 0, 255)
  have hp : ((List.range' 1 pats.length).foldl (prep_len_step ([] :: pats))
      (List.replicate (pats.length + 2) 0, 255)).2 ≠ 0 := by
    have := l3 (by norm_num)
    omega
  unfold wm_search_prep_pat
  simp only [if_neg hp]
  refine ⟨_, rfl, ?_⟩
  generalize hw1 : ({ w0 with
        nocase := nocase, patt := [] :: pats, n_pat := pats.length,
        use_bs3 := decide (100 < pats.length ∧ 2 < ((List.range' 1 pats.length).foldl
          (prep_len_step ([] :: pats)) (List.replicate (pats.length + 2) 0, 255)).2),
        use_bs1 := decide (((List.range' 1 pats.length).foldl
          (prep_len_step ([] :: pats)) (List.replicate (pats.length + 2) 0, 255)).2 = 1),
        tr := prep_tr nocase, tr1 := prep_tr1 (prep_tr nocase),
        pat_len := ((List.range' 1 pats.length).foldl
          (prep_len_step ([] :: pats)) (List.replicate (pats.length + 2) 0, 255)).1,
        p_size := ((List.range' 1 pats.length).foldl
          (prep_len_step ([] :: pats)) (List.replicate (pats.length + 2) 0, 255)).2,
        shift_min := List.replicate SHIFT_SZ ((((List.range' 1 pats.length).foldl
          (prep_len_step ([] :: pats)) (List.replicate (pats.length + 2) 0, 255)).2 + 254) % 256),
        pat_hash := List.replicate PAT_HASH_SZ [] } : WuManber) = w1
  have hs := fold_f_prep_same (List.range' 1 pats.length) w1
  obtain ⟨s1, s2, s3⟩ := fold_f_prep_shift (List.range' 1 pats.length) w1
    (by rw [← hw1]; simp)
  obtain ⟨c1, c2⟩ := fold_f_prep_chain (List.range' 1 pats.length) w1
    (by rw [← hw1]; simp)
  obtain ⟨a1, a2, a3, a4, a5, a6, a7, a8, a9, a10, a11, a12, a13⟩ := hs
  have b1 : w1.nocase = nocase := by rw [← hw1]
  have b2 : w1.patt = [] :: pats := by rw [← hw1]
  have b3 : w1.n_pat = pats.length := by rw [← hw1]
  have b4 : w1.use_bs3 = decide (100 < pats.length ∧ 2 < w1.p_size) := by rw [← hw1]
  have b5 : w1.use_bs1 = decide (w1.p_size = 1) := by rw [← hw1]
  have b6 : w1.tr = prep_tr nocase := by rw [← hw1]
  have b7 : w1.tr1 = prep_tr1 (prep_tr nocase) := by rw [← hw1]
  have b8 : w1.pat_len = ((List.range' 1 pats.length).foldl
          (prep_len_step ([] :: pats)) (List.replicate (pats.length + 2) 0, 255)).1 := by
    rw [← hw1]
  have b9 : w1.p_size = ((List.range' 1 pats.length).foldl
          (prep_len_step ([] :: pats)) (List.replicate (pats.length + 2) 0, 255)).2 := by
    rw [← hw1]
  have b10 : w1.shift_min = List.replicate SHIFT_SZ ((w1.p_size + 254) % 256) := by rw [← hw1]
  have b11 : w1.pat_hash = List.replicate PAT_HASH_SZ [] := by rw [← hw1]
  have b12 : w1.one_match_per_line = w0.one_match_per_line := by rw [← hw1]
  have b13 : w1.one_match_per_offset = w0.one_match_per_offset := by rw [← hw1]
  have b14 : w1.cb = w0.cb := by rw [← hw1]
  refine ⟨?_, a10.trans b12, a11.trans b13, a13.trans b14⟩
  constructor
  · exact a1.trans b1
  · exact a2.trans b2
  · exact a3.trans b3
  · exact a6.trans b6
  · exact a7.trans b7
  · rw [a9, b9]; exact l3 (by norm_num)
  · rw [a9, b9]; exact l2
  · intro P hP hne
    obtain ⟨i, h1, h2, rfl⟩ := mem_patt_getD pats P hP
    rw [a9, b9]
    exact l4 i ((mem_range'_one _ _).2 ⟨h1, h2⟩) (by simpa using hne)
  · rw [a9, b9]
    rcases l5 with h | ⟨i, hi, h⟩
    · exact Or.inl h
    · obtain ⟨h1, h2⟩ := (mem_range'_one _ _).1 hi
      exact Or.inr ⟨_, patt_getD_mem pats i h1 h2, h⟩
  · rw [a4, a9, b4]
  · rw [a5, a9, b5]
  · intro i h1 h2
    rw [a8, a2, b8, b2, l6 i (by simp; omega), if_pos ((mem_range'_one _ _).2 ⟨h1, h2⟩)]
  · intro h
    refine le_trans (s2 h) ?_
    rw [b10, a9]
    by_cases hh : h < SHIFT_SZ
    · rw [getD_replicate _ _ _ _ hh]
    · rw [List.getD_eq_default _ _ (by simp; omega)]; exact Nat.zero_le _
  · intro i h1 h2 k hk1 hk2
    rw [a4, a2, a9]
    exact s3 i ((mem_range'_one _ _).2 ⟨h1, h2⟩) k (by rw [← a4]; exact hk1)
      (by rw [← a9]; exact hk2)
  · intro h
    rw [c2 h, b11, getD_replicate_self, List.append_nil, a2]
    congr 2
    funext i
    rw [pat_hash_of_congr' a5 a6 a9]

/-! ## The scanners under every setting of the flags -/

theorem skip_line_ge (l : List Byte) : ∀ t, t ≤ skip_line l t := by
  induction l with
  | nil => intro t; exact le_refl _
  | cons c rest ih =>
    intro t
    simp only [skip_line]
    split
    · exact le_trans (Nat.le_succ t) (ih (t + 1))
    · exact le_refl _

theorem report_calls (wm : WuManber) (hcb : wm.cb = true) (s : Scan) (i o : Nat) :
    (report wm s i o).calls = s.calls ++ [(i, o)] := by
  simp [report, hcb]

theorem report_n_matches (wm : WuManber) (s : Scan) (i o : Nat) :
    (report wm s i o).n_matches = (s.n_matches + 1) % 2 ^ 32 := rfl

theorem wm_bs3_chain_cons (wm : WuManber) (T : List Byte) (e idx : Nat) (p : List Nat)
    (t : Nat) (M : Bool) (s : Scan) :
    wm_bs3_chain wm T e (idx :: p) t M s
      = if e < t then { returned := true, text := t, scan := s }
        else if t - (wm.p_size - 1) + wm.pat_len.getD idx 0 ≤ e ∧
            bs3_verify wm T idx (t - (wm.p_size - 1)) (wm.pat_len.getD idx 0) = true then
          if wm.one_match_per_offset then
            { returned := false,
              text := if wm.one_match_per_line then skip_line (T.drop t) t else t,
              scan := report wm s idx (t - (wm.p_size - 1)) }
          else wm_bs3_chain wm T e p
            (if wm.one_match_per_line then skip_line (T.drop t) t else t) true
            (report wm s idx (t - (wm.p_size - 1)))
        else if (wm.one_match_per_offset && M) = true then
          { returned := false, text := t, scan := s }
        else wm_bs3_chain wm T e p t M s := by
  rfl

theorem wm_bs3_chain_spec (wm : WuManber) (T : List Byte) (e : Nat) (hcb : wm.cb = true) :
    ∀ (chain : List Nat) (t : Nat) (M : Bool) (s : Scan), s.n_matches < 2 ^ 32 →
      ∃ new : List (Nat × Nat),
        (wm_bs3_chain wm T e chain t M s).scan.calls = s.calls ++ new ∧
        (wm_bs3_chain wm T e chain t M s).scan.n_matches
          = (s.n_matches + new.length) % 2 ^ 32 ∧
        t ≤ (wm_bs3_chain wm T e chain t M s).text ∧
        (∀ r ∈ new, r.1 ∈ chain ∧ t - (wm.p_size - 1) ≤ r.2 ∧
          r.2 ≤ (wm_bs3_chain wm T e chain t M s).text - (wm.p_size - 1) ∧
          r.2 + wm.pat_len.getD r.1 0 ≤ e ∧
          bs3_verify wm T r.1 r.2 (wm.pat_len.getD r.1 0) = true) ∧
        new.Pairwise (fun a b => a.2 ≤ b.2) := by
  intro chain
  induction chain with
  | nil =>
    intro t M s hs
    exact ⟨[], by simp [wm_bs3_chain],
      by simp only [wm_bs3_chain, List.length_nil, Nat.add_zero]; exact (Nat.mod_eq_of_lt hs).symm,
      by simp [wm_bs3_chain], by simp, List.Pairwise.nil⟩
  | cons idx p ih =>
    intro t M s hs
    rw [wm_bs3_chain_cons]
    have hnil : ∃ new : List (Nat × Nat),
        s.calls = s.calls ++ new ∧ s.n_matches = (s.n_matches + new.length) % 2 ^ 32 ∧
        t ≤ t ∧
        (∀ r ∈ new, r.1 ∈ idx :: p ∧ t - (wm.p_size - 1) ≤ r.2 ∧
          r.2 ≤ t - (wm.p_size - 1) ∧ r.2 + wm.pat_len.getD r.1 0 ≤ e ∧
          bs3_verify wm T r.1 r.2 (wm.pat_len.getD r.1 0) = true) ∧
        new.Pairwise (fun a b => a.2 ≤ b.2) :=
      ⟨[], by simp, by simp only [List.length_nil, Nat.add_zero]; exact (Nat.mod_eq_of_lt hs).symm,
        le_refl _, by simp, List.Pairwise.nil⟩
    have hskip : t ≤ (if wm.one_match_per_line then skip_line (T.drop t) t else t) := by
      split
      · exact skip_line_ge _ _
      · exact le_refl _
    split
    · exact hnil
    · split
      · rename_i hhit
        split
        · refine ⟨[(idx, t - (wm.p_size - 1))], report_calls wm hcb _ _ _, ?_, hskip, ?_,
            List.pairwise_singleton _ _⟩
          · simp [report_n_matches]
          · intro r hr
            rw [List.mem_singleton] at hr
            subst hr
            exact ⟨List.mem_cons_self _ _, le_refl _, Nat.sub_le_sub_right hskip _,
              hhit.1, hhit.2⟩
        · obtain ⟨new, h1, h2, h3, h4, h5⟩ := ih
            (if wm.one_match_per_line then skip_line (T.drop t) t else t) true
            (report wm s idx (t - (wm.p_size - 1)))
            (by rw [report_n_matches]; exact Nat.mod_lt _ (by norm_num))
          refine ⟨(idx, t - (wm.p_size - 1)) :: new, ?_, ?_, le_trans hskip h3, ?_, ?_⟩
          · rw [h1, report_calls wm hcb]; simp
          · rw [h2, report_n_matches]
            simp only [List.length_cons]
            omega
          · intro r hr
            rcases List.mem_cons.1 hr with rfl | hr
            · exact ⟨List.mem_cons_self _ _, le_refl _,
                Nat.sub_le_sub_right (le_trans hskip h3) _, hhit.1, hhit.2⟩
            · obtain ⟨g1, g2, g3, g4, g5⟩ := h4 r hr
              exact ⟨List.mem_cons_of_mem _ g1,
                le_trans (Nat.sub_le_sub_right hskip _) g2, g3, g4, g5⟩
          · refine List.Pairwise.cons ?_ h5
            intro r hr
            exact le_trans (Nat.sub_le_sub_right hskip _) (h4 r hr).2.1
      · split
        · exact hnil
        · obtain ⟨new, h1, h2, h3, h4, h5⟩ := ih t M s hs
          refine ⟨new, h1, h2, h3, ?_, h5⟩
          intro r hr
          obtain ⟨g1, g2⟩ := h4 r hr
          exact ⟨List.mem_cons_of_mem _ g1, g2⟩

theorem wm_bs3_loop_succ (wm : WuManber) (T : List Byte) (e fuel t : Nat) (s : Scan) :
    wm_bs3_loop wm T e (fuel + 1) t s
      = if t ≤ e then
          if wm.shift_min.getD (text_block_hash wm T t) 0 = 0 then
            if (wm_bs3_chain wm T e (wm.pat_hash.getD (text_pat_hash wm T t) []) t false
                s).returned = true then
              (wm_bs3_chain wm T e (wm.pat_hash.getD (text_pat_hash wm T t) []) t false s).scan
            else
              wm_bs3_loop wm T e fuel
                ((wm_bs3_chain wm T e (wm.pat_hash.getD (text_pat_hash wm T t) []) t false
                  s).text + 1)
                (wm_bs3_chain wm T e (wm.pat_hash.getD (text_pat_hash wm T t) []) t false s).scan
          else wm_bs3_loop wm T e fuel (t + wm.shift_min.getD (text_block_hash wm T t) 0) s
        else s := by
  cases hb : wm.use_bs3 <;> simp [wm_bs3_loop, text_block_hash, text_pat_hash, hb]

theorem wm_bs3_loop_spec (wm : WuManber) (T : List Byte) (e : Nat) (hcb : wm.cb = true) :
    ∀ (fuel t : Nat) (s : Scan), s.n_matches < 2 ^ 32 →
      ∃ new : List (Nat × Nat),
        (wm_bs3_loop wm T e fuel t s).calls = s.calls ++ new ∧
        (wm_bs3_loop wm T e fuel t s).n_matches = (s.n_matches + new.length) % 2 ^ 32 ∧
        (∀ r ∈ new, (∃ h, r.1 ∈ wm.pat_hash.getD h []) ∧ t - (wm.p_size - 1) ≤ r.2 ∧
          r.2 + wm.pat_len.getD r.1 0 ≤ e ∧
          bs3_verify wm T r.1 r.2 (wm.pat_len.getD r.1 0) = true) ∧
        new.Pairwise (fun a b => a.2 ≤ b.2) := by
  intro fuel
  induction fuel with
  | zero =>
    intro t s hs
    exact ⟨[], by simp [wm_bs3_loop],
      by simp only [wm_bs3_loop, List.length_nil, Nat.add_zero]; exact (Nat.mod_eq_of_lt hs).symm,
      by simp, List.Pairwise.nil⟩
  | succ fuel ih =>
    intro t s hs
    rw [wm_bs3_loop_succ]
    obtain ⟨new1, c1, c2, c3, c4, c5⟩ := wm_bs3_chain_spec wm T e hcb
      (wm.pat_hash.getD (text_pat_hash wm T t) []) t false s hs
    have hw : (wm_bs3_chain wm T e (wm.pat_hash.getD (text_pat_hash wm T t) []) t false
        s).scan.n_matches < 2 ^ 32 := by
      rw [c2]; exact Nat.mod_lt _ (by norm_num)
    split
    · split
      · split
        · refine ⟨new1, c1, c2, ?_, c5⟩
          intro r hr
          obtain ⟨g1, g2, _, g4, g5⟩ := c4 r hr
          exact ⟨⟨_, g1⟩, g2, g4, g5⟩
        · obtain ⟨new2, d1, d2, d3, d4⟩ := ih
            ((wm_bs3_chain wm T e (wm.pat_hash.getD (text_pat_hash wm T t) []) t false s).text + 1)
            (wm_bs3_chain wm T e (wm.pat_hash.getD (text_pat_hash wm T t) []) t false s).scan hw
          refine ⟨new1 ++ new2, ?_, ?_, ?_, ?_⟩
          · rw [d1, c1, List.append_assoc]
          · rw [d2, c2, List.length_append]
            omega
          · intro r hr
            rcases List.mem_append.1 hr with hr | hr
            · obtain ⟨g1, g2, _, g4, g5⟩ := c4 r hr
              exact ⟨⟨_, g1⟩, g2, g4, g5⟩
            · obtain ⟨g1, g2, g3⟩ := d3 r hr
              exact ⟨g1, by omega, g3⟩
          · rw [List.pairwise_append]
            refine ⟨c5, d4, ?_⟩
            intro a ha b hb
            have := (c4 a ha).2.2.1
            have := (d3 b hb).2.1
            omega
      · obtain ⟨new2, d1, d2, d3, d4⟩ := ih
          (t + wm.shift_min.getD (text_block_hash wm T t) 0) s hs
        refine ⟨new2, d1, d2, ?_, d4⟩
        intro r hr
        obtain ⟨g1, g2, g3⟩ := d3 r hr
        exact ⟨g1, by omega, g3⟩
    · exact ⟨[], by simp,
        by simp only [List.length_nil, Nat.add_zero]; exact (Nat.mod_eq_of_lt hs).symm,
        by simp, List.Pairwise.nil⟩

/-! ### The single-byte scanner -/

theorem wm_bs1_chain_cons (wm : WuManber) (T : List Byte) (e idx : Nat) (p : List Nat)
    (t : Nat) (M : Bool) (s : Scan) :
    wm_bs1_chain wm T e (idx :: p) t M s
      = if wm.pat_len.getD idx 0
            ≤ bs1_compare wm T idx t ((wm.patt.getD idx []).length + 1) 0 then
          if e ≤ t then { returned := true, text := t, scan := s }
          else if (wm.one_match_per_offset && M) = true then
            { returned := false,
              text := if wm.one_match_per_line then skip_line (T.drop t) t else t,
              scan := report wm s idx t }
          else wm_bs1_chain wm T e p
            (if wm.one_match_per_line then skip_line (T.drop t) t else t) M
            (report wm s idx t)
        else if (wm.one_match_per_offset && M) = true then
          { returned := false, text := t, scan := s }
        else wm_bs1_chain wm T e p t M s := by
  rfl

theorem wm_bs1_chain_spec (wm : WuManber) (T : List Byte) (e : Nat) (hcb : wm.cb = true) :
    ∀ (chain : List Nat) (t : Nat) (M : Bool) (s : Scan), s.n_matches < 2 ^ 32 →
      ∃ new : List (Nat × Nat),
        (wm_bs1_chain wm T e chain t M s).scan.calls = s.calls ++ new ∧
        (wm_bs1_chain wm T e chain t M s).scan.n_matches
          = (s.n_matches + new.length) % 2 ^ 32 ∧
        t ≤ (wm_bs1_chain wm T e chain t M s).text ∧
        (∀ r ∈ new, r.1 ∈ chain ∧ t ≤ r.2 ∧
          r.2 ≤ (wm_bs1_chain wm T e chain t M s).text ∧ r.2 < e ∧
          wm.pat_len.getD r.1 0
            ≤ bs1_compare wm T r.1 r.2 ((wm.patt.getD r.1 []).length + 1) 0) ∧
        new.Pairwise (fun a b => a.2 ≤ b.2) := by
  intro chain
  induction chain with
  | nil =>
    intro t M s hs
    exact ⟨[], by simp [wm_bs1_chain],
      by simp only [wm_bs1_chain, List.length_nil, Nat.add_zero]; exact (Nat.mod_eq_of_lt hs).symm,
      by simp [wm_bs1_chain], by simp, List.Pairwise.nil⟩
  | cons idx p ih =>
    intro t M s hs
    rw [wm_bs1_chain_cons]
    have hnil : ∃ new : List (Nat × Nat),
        s.calls = s.calls ++ new ∧ s.n_matches = (s.n_matches + new.length) % 2 ^ 32 ∧
        t ≤ t ∧
        (∀ r ∈ new, r.1 ∈ idx :: p ∧ t ≤ r.2 ∧ r.2 ≤ t ∧ r.2 < e ∧
          wm.pat_len.getD r.1 0
            ≤ bs1_compare wm T r.1 r.2 ((wm.patt.getD r.1 []).length + 1) 0) ∧
        new.Pairwise (fun a b => a.2 ≤ b.2) :=
      ⟨[], by simp, by simp only [List.length_nil, Nat.add_zero]; exact (Nat.mod_eq_of_lt hs).symm,
        le_refl _, by simp, List.Pairwise.nil⟩
    have hskip : t ≤ (if wm.one_match_per_line then skip_line (T.drop t) t else t) := by
      split
      · exact skip_line_ge _ _
      · exact le_refl _
    split
    · rename_i hhit
      split
      · exact hnil
      · rename_i hlt
        split
        · refine ⟨[(idx, t)], report_calls wm hcb _ _ _, ?_, hskip, ?_,
            List.pairwise_singleton _ _⟩
          · simp [report_n_matches]
          · intro r hr
            rw [List.mem_singleton] at hr
            subst hr
            exact ⟨List.mem_cons_self _ _, le_refl _, hskip, by omega, hhit⟩
        · obtain ⟨new, h1, h2, h3, h4, h5⟩ := ih
            (if wm.one_match_per_line then skip_line (T.drop t) t else t) M
            (report wm s idx t)
            (by rw [report_n_matches]; exact Nat.mod_lt _ (by norm_num))
          refine ⟨(idx, t) :: new, ?_, ?_, le_trans hskip h3, ?_, ?_⟩
          · rw [h1, report_calls wm hcb]; simp
          · rw [h2, report_n_matches]
            simp only [List.length_cons]
            omega
          · intro r hr
            rcases List.mem_cons.1 hr with rfl | hr
            · exact ⟨List.mem_cons_self _ _, le_refl _, le_trans hskip h3, by omega, hhit⟩
            · obtain ⟨g1, g2, g3, g4, g5⟩ := h4 r hr
              exact ⟨List.mem_cons_of_mem _ g1, le_trans hskip g2, g3, g4, g5⟩
          · refine List.Pairwise.cons ?_ h5
            intro r hr
            exact le_trans hskip (h4 r hr).2.1
    · split
      · exact hnil
      · obtain ⟨new, h1, h2, h3, h4, h5⟩ := ih t M s hs
        refine ⟨new, h1, h2, h3, ?_, h5⟩
        intro r hr
        obtain ⟨g1, g2⟩ := h4 r hr
        exact ⟨List.mem_cons_of_mem _ g1, g2⟩

theorem wm_bs1_loop_succ (wm : WuManber) (T : List Byte) (e fuel t : Nat) (s : Scan) :
    wm_bs1_loop wm T e (fuel + 1) t s
      = if t ≤ e then
          if (wm_bs1_chain wm T e (wm.pat_hash.getD (T.getD t 0).val []) t false
              s).returned = true then
            (wm_bs1_chain wm T e (wm.pat_hash.getD (T.getD t 0).val []) t false s).scan
          else
            wm_bs1_loop wm T e fuel
              ((wm_bs1_chain wm T e (wm.pat_hash.getD (T.getD t 0).val []) t false s).text + 1)
              (wm_bs1_chain wm T e (wm.pat_hash.getD (T.getD t 0).val []) t false s).scan
        else s := by
  rfl

theorem wm_bs1_loop_spec (wm : WuManber) (T : List Byte) (e : Nat) (hcb : wm.cb = true) :
    ∀ (fuel t : Nat) (s : Scan), s.n_matches < 2 ^ 32 →
      ∃ new : List (Nat × Nat),
        (wm_bs1_loop wm T e fuel t s).calls = s.calls ++ new ∧
        (wm_bs1_loop wm T e fuel t s).n_matches = (s.n_matches + new.length) % 2 ^ 32 ∧
        (∀ r ∈ new, (∃ h, r.1 ∈ wm.pat_hash.getD h []) ∧ t ≤ r.2 ∧ r.2 < e ∧
          wm.pat_len.getD r.1 0
            ≤ bs1_compare wm T r.1 r.2 ((wm.patt.getD r.1 []).length + 1) 0) ∧
        new.Pairwise (fun a b => a.2 ≤ b.2) := by
  intro fuel
  induction fuel with
  | zero =>
    intro t s hs
    exact ⟨[], by simp [wm_bs1_loop],
      by simp only [wm_bs1_loop, List.length_nil, Nat.add_zero]; exact (Nat.mod_eq_of_lt hs).symm,
      by simp, List.Pairwise.nil⟩
  | succ fuel ih =>
    intro t s hs
    rw [wm_bs1_loop_succ]
    obtain ⟨new1, c1, c2, c3, c4, c5⟩ := wm_bs1_chain_spec wm T e hcb
      (wm.pat_hash.getD (T.getD t 0).val []) t false s hs
    have hw : (wm_bs1_chain wm T e (wm.pat_hash.getD (T.getD t 0).val []) t false
        s).scan.n_matches < 2 ^ 32 := by
      rw [c2]; exact Nat.mod_lt _ (by norm_num)
    split
    · split
      · refine ⟨new1, c1, c2, ?_, c5⟩
        intro r hr
        obtain ⟨g1, g2, _, g4, g5⟩ := c4 r hr
        exact ⟨⟨_, g1⟩, g2, g4, g5⟩
      · obtain ⟨new2, d1, d2, d3, d4⟩ := ih
          ((wm_bs1_chain wm T e (wm.pat_hash.getD (T.getD t 0).val []) t false s).text + 1)
          (wm_bs1_chain wm T e (wm.pat_hash.getD (T.getD t 0).val []) t false s).scan hw
        refine ⟨new1 ++ new2, ?_, ?_, ?_, ?_⟩
        · rw [d1, c1, List.append_assoc]
        · rw [d2, c2, List.length_append]
          omega
        · intro r hr
          rcases List.mem_append.1 hr with hr | hr
          · obtain ⟨g1, g2, _, g4, g5⟩ := c4 r hr
            exact ⟨⟨_, g1⟩, g2, g4, g5⟩
          · obtain ⟨g1, g2, g3⟩ := d3 r hr
            exact ⟨g1, by omega, g3⟩
        · rw [List.pairwise_append]
          refine ⟨c5, d4, ?_⟩
          intro a ha b hb
          have := (c4 a ha).2.2.1
          have := (d3 b hb).2.1
          omega
    · exact ⟨[], by simp,
        by simp only [List.length_nil, Nat.add_zero]; exact (Nat.mod_eq_of_lt hs).symm,
        by simp, List.Pairwise.nil⟩

/-! ### The bound on the number of rounds is never reached -/

theorem wm_bs1_chain_text_ge (wm : WuManber) (T : List Byte) (e : Nat) :
    ∀ (chain : List Nat) (t : Nat) (M : Bool) (s : Scan),
      t ≤ (wm_bs1_chain wm T e chain t M s).text := by
  intro chain
  induction chain with
  | nil => intro t M s; exact le_refl _
  | cons idx p ih =>
    intro t M s
    rw [wm_bs1_chain_cons]
    have hskip : t ≤ (if wm.one_match_per_line then skip_line (T.drop t) t else t) := by
      split
      · exact skip_line_ge _ _
      · exact le_refl _
    split
    · split
      · exact le_refl _
      · split
        · exact hskip
        · exact le_trans hskip (ih _ _ _)
    · split
      · exact le_refl _
      · exact ih _ _ _

/-- The loop of `wm_bs1` ends by its own test: any two bounds of at least `e + 1 - t` rounds
give the same result. -/
theorem wm_bs1_loop_fuel (wm : WuManber) (T : List Byte) (e : Nat) :
    ∀ (fuel fuel' t : Nat) (s : Scan), e + 1 ≤ t + fuel → e + 1 ≤ t + fuel' →
      wm_bs1_loop wm T e fuel t s = wm_bs1_loop wm T e fuel' t s := by
  intro fuel
  induction fuel with
  | zero =>
    intro fuel' t s h1 _
    cases fuel' with
    | zero => rfl
    | succ f => rw [wm_bs1_loop_succ, if_neg (by omega)]; rfl
  | succ fuel ih =>
    intro fuel' t s h1 h2
    cases fuel' with
    | zero => rw [wm_bs1_loop_succ, if_neg (by omega)]; rfl
    | succ f =>
      rw [wm_bs1_loop_succ, wm_bs1_loop_succ]
      have hge := wm_bs1_chain_text_ge wm T e (wm.pat_hash.getD (T.getD t 0).val []) t false s
      split
      · split
        · rfl
        · exact ih _ _ _ (by omega) (by omega)
      · rfl

/-! ## Verification and hashing against an occurrence -/

theorem verify_cond_iff (wm : WuManber) (a b : Byte) :
    (if wm.nocase then wm.tr.getD a.val 0 == wm.tr.getD b.val 0 else a == b) = true
      ↔ mode_eq wm.nocase wm.tr a b := by
  unfold mode_eq
  cases wm.nocase <;> simp

theorem bs3_verify_iff (wm : WuManber) (T : List Byte) (i qx : Nat) :
    ∀ l, bs3_verify wm T i qx l = true ↔
      ∀ k, k < l → mode_eq wm.nocase wm.tr ((wm.patt.getD i []).getD k 0) (T.getD (qx + k) 0) := by
  intro l
  induction l with
  | zero => simp [bs3_verify]
  | succ l ih =>
    have hstep : bs3_verify wm T i qx (l + 1)
        = if (if wm.nocase then
                wm.tr.getD ((wm.patt.getD i []).getD l 0).val 0
                  == wm.tr.getD (T.getD (qx + l) 0).val 0
              else (wm.patt.getD i []).getD l 0 == T.getD (qx + l) 0) = true
          then bs3_verify wm T i qx l else false := rfl
    rw [hstep]
    by_cases hc : (if wm.nocase then
                wm.tr.getD ((wm.patt.getD i []).getD l 0).val 0
                  == wm.tr.getD (T.getD (qx + l) 0).val 0
              else (wm.patt.getD i []).getD l 0 == T.getD (qx + l) 0) = true
    · rw [if_pos hc, ih]
      constructor
      · intro h k hk
        rcases Nat.lt_succ_iff_lt_or_eq.1 hk with hk | rfl
        · exact h k hk
        · exact (verify_cond_iff wm _ _).1 hc
      · intro h k hk
        exact h k (Nat.lt_succ_of_lt hk)
    · rw [if_neg hc]
      constructor
      · intro h; exact absurd h (by simp)
      · intro h
        exact absurd ((verify_cond_iff wm _ _).2 (h l (Nat.lt_succ_self l))) hc

theorem bs1_compare_spec (wm : WuManber) (T : List Byte) (i t : Nat) :
    ∀ fuel j, j ≤ bs1_compare wm T i t fuel j ∧ bs1_compare wm T i t fuel j ≤ j + fuel ∧
      (∀ k, j ≤ k → k < bs1_compare wm T i t fuel j →
        wm.tr.getD ((wm.patt.getD i []).getD k 0).val 0 = wm.tr.getD (T.getD (t + k) 0).val 0) ∧
      (bs1_compare wm T i t fuel j < j + fuel →
        wm.tr.getD ((wm.patt.getD i []).getD (bs1_compare wm T i t fuel j) 0).val 0
          ≠ wm.tr.getD (T.getD (t + bs1_compare wm T i t fuel j) 0).val 0) := by
  intro fuel
  induction fuel with
  | zero => intro j; simp [bs1_compare]; intro k h1 h2; omega
  | succ fuel ih =>
    intro j
    simp only [bs1_compare]
    split
    · rename_i hc
      obtain ⟨h1, h2, h3, h4⟩ := ih (j + 1)
      refine ⟨by omega, by omega, ?_, fun h => h4 (by omega)⟩
      intro k hk1 hk2
      rcases Nat.eq_or_lt_of_le hk1 with rfl | hk
      · exact hc
      · exact h3 k hk hk2
    · rename_i hc
      exact ⟨le_refl _, by omega, fun k h1 h2 => by omega, fun _ => hc⟩

theorem mode_eq_nibble {nocase : Bool} {wm : WuManber} (htr : wm.tr = prep_tr nocase)
    (_hn : wm.nocase = nocase) {a b : Byte} (h : mode_eq wm.nocase wm.tr a b) :
    a.val &&& 15 = b.val &&& 15 := by
  unfold mode_eq at h
  split at h
  · rw [htr] at h
    rw [← prep_tr_nibble nocase a, ← prep_tr_nibble nocase b, h]
  · rw [h]

theorem mode_eq_of_tr {nocase : Bool} {wm : WuManber} (htr : wm.tr = prep_tr nocase)
    (hn : wm.nocase = nocase) {a b : Byte}
    (h : wm.tr.getD a.val 0 = wm.tr.getD b.val 0) : mode_eq wm.nocase wm.tr a b := by
  unfold mode_eq
  split
  · exact h
  · rename_i hc
    have hf : nocase = false := by rw [← hn]; simpa using hc
    subst hf
    rw [htr, prep_tr_false, prep_tr_false] at h
    exact Fin.ext h

theorem patt_getD_succ (pats : List (List Byte)) (i : Nat) (h1 : 1 ≤ i) :
    (([] : List Byte) :: pats).getD i [] = pats.getD (i - 1) [] := by
  obtain ⟨j, rfl⟩ : ∃ j, i = j + 1 := ⟨i - 1, by omega⟩
  simp [List.getD_eq_getElem?_getD]

theorem text_block_hash_eq {pats : List (List Byte)} {nocase : Bool} {wm : WuManber}
    (hp : Prepared pats nocase wm) (P T : List Byte) (o k : Nat)
    (hk1 : 1 + wm.use_bs3.toNat ≤ k) (hk2 : k < P.length) (hocc : occurs wm.nocase wm.tr P T o) :
    text_block_hash wm T (o + k) = block_hash wm.use_bs3 P k := by
  have n0 := mode_eq_nibble hp.tr_eq hp.nocase_eq (hocc k hk2)
  have n1 := mode_eq_nibble hp.tr_eq hp.nocase_eq (hocc (k - 1) (by omega))
  have n2 := mode_eq_nibble hp.tr_eq hp.nocase_eq (hocc (k - 2) (by omega))
  have e1 : o + k - 1 = o + (k - 1) := by
    cases hb : wm.use_bs3 <;> simp [hb] at hk1 <;> omega
  unfold text_block_hash block_hash
  rw [hp.tr1_eq, prep_tr1_getD, prep_tr1_getD, prep_tr1_getD, e1, n0, n1]
  cases hb : wm.use_bs3
  · simp
  · have e2 : o + k - 2 = o + (k - 2) := by simp [hb] at hk1; omega
    rw [e2, n2]

theorem bs3_hash_eq {pats : List (List Byte)} {nocase : Bool} {wm : WuManber}
    (hp : Prepared pats nocase wm) (P T : List Byte) (o m : Nat)
    (hocc : ∀ j, j < m → mode_eq wm.nocase wm.tr (P.getD j 0) (T.getD (o + j) 0)) :
    ∀ n i hash, i + n = m →
      bs3_hash wm T (o + (m - 1)) n i hash = f_prep_hash wm 15 P n hash := by
  intro n
  induction n with
  | zero => intro i hash _; rfl
  | succ n ih =>
    intro i hash hin
    simp only [bs3_hash, f_prep_hash]
    have e1 : o + (m - 1) - i = o + n := by omega
    rw [ih (i + 1) _ (by omega), e1, hp.tr1_eq, prep_tr1_getD, hp.tr_eq, prep_tr_nibble,
      mode_eq_nibble hp.tr_eq hp.nocase_eq (hocc n (by omega))]

theorem text_pat_hash_eq {pats : List (List Byte)} {nocase : Bool} {wm : WuManber}
    (hp : Prepared pats nocase wm) (h2 : 2 ≤ wm.p_size) (P T : List Byte) (o : Nat)
    (hlen : wm.p_size ≤ P.length) (hocc : occurs wm.nocase wm.tr P T o) :
    text_pat_hash wm T (o + (wm.p_size - 1)) = pat_hash_of wm P := by
  unfold text_pat_hash pat_hash_of
  have hb1 : wm.use_bs1 = false := by rw [hp.use_bs1_eq]; simp; omega
  have e : wm.p_size - 1 + 1 = wm.p_size := by omega
  rw [hb1, e, bs3_hash_eq hp P T o wm.p_size (fun j hj => hocc j (by omega)) wm.p_size 0 0
    (by omega)]
  rfl

/-! ## The multi-byte scanner with both flags off -/

theorem wm_bs3_chain_off (wm : WuManber) (T : List Byte) (e : Nat) (hcb : wm.cb = true)
    (hl : wm.one_match_per_line = false) (ho : wm.one_match_per_offset = false)
    (t : Nat) (ht : t ≤ e) :
    ∀ (chain : List Nat) (M : Bool) (s : Scan),
      (wm_bs3_chain wm T e chain t M s).returned = false ∧
      (wm_bs3_chain wm T e chain t M s).text = t ∧
      (wm_bs3_chain wm T e chain t M s).scan.calls
        = s.calls ++ (chain.filter (bs3_hit wm T e t)).map (fun i => (i, t - (wm.p_size - 1))) := by
  intro chain
  induction chain with
  | nil => intro M s; simp [wm_bs3_chain]
  | cons idx p ih =>
    intro M s
    rw [wm_bs3_chain_cons, if_neg (by omega), hl, ho]
    by_cases hhit : t - (wm.p_size - 1) + wm.pat_len.getD idx 0 ≤ e ∧
        bs3_verify wm T idx (t - (wm.p_size - 1)) (wm.pat_len.getD idx 0) = true
    · have hb : bs3_hit wm T e t idx = true := by
        unfold bs3_hit
        rw [Bool.and_eq_true, decide_eq_true_eq]
        exact hhit
      rw [if_pos hhit]
      simp only [Bool.false_eq_true, if_false]
      obtain ⟨h1, h2, h3⟩ := ih true (report wm s idx (t - (wm.p_size - 1)))
      refine ⟨h1, h2, ?_⟩
      rw [h3, report_calls wm hcb, List.filter_cons_of_pos hb]
      simp
    · have hb : ¬ bs3_hit wm T e t idx = true := by
        unfold bs3_hit
        intro h
        rw [Bool.and_eq_true, decide_eq_true_eq] at h
        exact hhit h
      rw [if_neg hhit]
      simp only [Bool.false_and, Bool.false_eq_true, if_false]
      obtain ⟨h1, h2, h3⟩ := ih M s
      refine ⟨h1, h2, ?_⟩
      rw [h3, List.filter_cons_of_neg hb]

theorem count_map_pair (l : List Nat) (q i o : Nat) (hnd : l.Nodup) :
    List.count (i, o) (l.map (fun i => (i, q))) = if o = q ∧ i ∈ l then 1 else 0 := by
  induction l with
  | nil => simp
  | cons x l ih =>
    obtain ⟨hx, hl⟩ := List.nodup_cons.1 hnd
    rw [List.map_cons, List.count_cons, ih hl]
    by_cases hq : o = q
    · by_cases hxi : x = i
      · subst hxi; subst hq
        simp [hx]
      · have hix : ¬ i = x := fun h => hxi h.symm
        simp [hq, hxi, hix]
    · simp [hq]
      intro _ h; exact hq h.symm

theorem prepared_patt {pats : List (List Byte)} {nocase : Bool} {wm : WuManber}
    (hp : Prepared pats nocase wm) (i : Nat) (h1 : 1 ≤ i) :
    wm.patt.getD i [] = pats.getD (i - 1) [] := by
  rw [hp.patt_eq, patt_getD_succ _ _ h1]

theorem prepared_mem {pats : List (List Byte)} (i : Nat) (h1 : 1 ≤ i) (h2 : i ≤ pats.length) :
    pats.getD (i - 1) [] ∈ pats := by
  rw [← patt_getD_succ _ _ h1]; exact patt_getD_mem pats i h1 h2

theorem shift_safe {pats : List (List Byte)} {nocase : Bool} {wm : WuManber}
    (hp : Prepared pats nocase wm) (h2 : 2 ≤ wm.p_size) (hne : ∀ P ∈ pats, P ≠ [])
    (T : List Byte) (e i o t : Nat) (hocc : occurrence wm.nocase wm.tr pats T e i o)
    (ht2 : t ≤ o + (wm.p_size - 1)) :
    wm.shift_min.getD (text_block_hash wm T t) 0 ≤ o + (wm.p_size - 1) - t := by
  obtain ⟨i1, i2, _, hoc⟩ := hocc
  have hmem := prepared_mem i i1 i2
  have hlen := hp.p_size_le_len _ hmem (hne _ hmem)
  have hle := hp.p_size_le
  have hb : wm.use_bs3.toNat ≤ 1 := by cases wm.use_bs3 <;> simp
  by_cases hd : o + (wm.p_size - 1) - t + 1 + wm.use_bs3.toNat ≤ wm.p_size - 1
  · have hk := text_block_hash_eq hp (pats.getD (i - 1) []) T o (t - o) (by omega) (by omega) hoc
    have e1 : o + (t - o) = t := by omega
    rw [e1] at hk
    rw [hk, ← prepared_patt hp i i1]
    refine le_trans (hp.shift_block i i1 i2 (t - o) (by omega) (by omega)) ?_
    omega
  · refine le_trans (hp.shift_default _) ?_
    omega

theorem wm_bs3_loop_count {pats : List (List Byte)} {nocase : Bool} {wm : WuManber}
    (hp : Prepared pats nocase wm) (hcb : wm.cb = true)
    (hl : wm.one_match_per_line = false) (ho : wm.one_match_per_offset = false)
    (h2 : 2 ≤ wm.p_size) (hne : ∀ P ∈ pats, P ≠ []) (T : List Byte) (e i o : Nat) :
    ∀ (fuel t : Nat) (s : Scan), wm.p_size - 1 ≤ t → e + 1 ≤ t + fuel →
      List.count (i, o) (wm_bs3_loop wm T e fuel t s).calls
        = List.count (i, o) s.calls
          + if occurrence wm.nocase wm.tr pats T e i o ∧ t ≤ o + (wm.p_size - 1) then 1 else 0 := by
  have hpast : ∀ t, e < t → ¬ (occurrence wm.nocase wm.tr pats T e i o ∧ t ≤ o + (wm.p_size - 1)) := by
    intro t ht ⟨⟨i1, i2, i3, _⟩, h⟩
    have hmem := prepared_mem i i1 i2
    have hlen := hp.p_size_le_len _ hmem (hne _ hmem)
    omega
  intro fuel
  induction fuel with
  | zero =>
    intro t s _ hf
    rw [if_neg (hpast t (by omega))]
    rfl
  | succ fuel ih =>
    intro t s ht hf
    rw [wm_bs3_loop_succ]
    by_cases hte : t ≤ e
    · rw [if_pos hte]
      by_cases hs : wm.shift_min.getD (text_block_hash wm T t) 0 = 0
      · rw [if_pos hs]
        obtain ⟨c1, c2, c3⟩ := wm_bs3_chain_off wm T e hcb hl ho t hte
          (wm.pat_hash.getD (text_pat_hash wm T t) []) false s
        rw [c1, c2]
        simp only [Bool.false_eq_true, if_false]
        rw [ih (t + 1) _ (by omega) (by omega), c3, List.count_append, hp.chain]
        have hnd : (((List.range' 1 pats.length).filter (fun i =>
            decide (pat_hash_of wm (wm.patt.getD i []) = text_pat_hash wm T t))).reverse.filter
            (bs3_hit wm T e t)).Nodup :=
          ((List.nodup_reverse.2 ((List.nodup_range' 1 pats.length).filter _)).filter _)
        rw [count_map_pair _ _ _ _ hnd, Nat.add_assoc]
        congr 1
        by_cases hocc : occurrence wm.nocase wm.tr pats T e i o
        · obtain ⟨i1, i2, i3, hoc⟩ := hocc
          have hmem := prepared_mem i i1 i2
          have hlen := hp.p_size_le_len _ hmem (hne _ hmem)
          by_cases hot : o + (wm.p_size - 1) = t
          · have hin : o = t - (wm.p_size - 1) ∧ i ∈ ((List.range' 1 pats.length).filter (fun i =>
                decide (pat_hash_of wm (wm.patt.getD i []) = text_pat_hash wm T t))).reverse.filter
                (bs3_hit wm T e t) := by
              refine ⟨by omega, ?_⟩
              rw [List.mem_filter, List.mem_reverse, List.mem_filter, mem_range'_one]
              refine ⟨⟨⟨i1, i2⟩, ?_⟩, ?_⟩
              · rw [decide_eq_true_eq, ← hot, text_pat_hash_eq hp h2 _ T o hlen hoc,
                  prepared_patt hp i i1]
              · unfold bs3_hit
                have eo : t - (wm.p_size - 1) = o := by omega
                rw [Bool.and_eq_true, decide_eq_true_eq, eo, hp.pat_len_eq i i1 i2,
                  prepared_patt hp i i1]
                refine ⟨i3, ?_⟩
                rw [bs3_verify_iff, prepared_patt hp i i1]
                exact hoc
            rw [if_pos hin, if_neg (by omega), if_pos ⟨⟨i1, i2, i3, hoc⟩, by omega⟩]
          · have hnin : ¬ (o = t - (wm.p_size - 1) ∧ i ∈ ((List.range' 1 pats.length).filter
                (fun i => decide (pat_hash_of wm (wm.patt.getD i []) = text_pat_hash wm T t))
                ).reverse.filter (bs3_hit wm T e t)) := by
              intro h; omega
            rw [if_neg hnin]
            by_cases hto : t ≤ o + (wm.p_size - 1)
            · rw [if_pos ⟨⟨i1, i2, i3, hoc⟩, by omega⟩, if_pos ⟨⟨i1, i2, i3, hoc⟩, hto⟩]
            · rw [if_neg (fun h => hto (by omega)), if_neg (fun h => hto h.2)]
        · have hnin : ¬ (o = t - (wm.p_size - 1) ∧ i ∈ ((List.range' 1 pats.length).filter
              (fun i => decide (pat_hash_of wm (wm.patt.getD i []) = text_pat_hash wm T t))
              ).reverse.filter (bs3_hit wm T e t)) := by
            intro ⟨ho1, hm⟩
            rw [List.mem_filter, List.mem_reverse, List.mem_filter, mem_range'_one] at hm
            obtain ⟨⟨⟨i1, i2⟩, _⟩, hh⟩ := hm
            unfold bs3_hit at hh
            rw [Bool.and_eq_true, decide_eq_true_eq, ← ho1, hp.pat_len_eq i i1 i2,
              prepared_patt hp i i1, bs3_verify_iff, prepared_patt hp i i1] at hh
            exact hocc ⟨i1, i2, hh.1, hh.2⟩
          rw [if_neg hnin, if_neg (fun h => hocc h.1), if_neg (fun h => hocc h.1)]
      · rw [if_neg hs, ih _ s (by omega) (by omega)]
        congr 1
        by_cases hc : occurrence wm.nocase wm.tr pats T e i o ∧ t ≤ o + (wm.p_size - 1)
        · have := shift_safe hp h2 hne T e i o t hc.1 hc.2
          rw [if_pos hc, if_pos ⟨hc.1, by omega⟩]
        · rw [if_neg hc, if_neg (fun h => hc ⟨h.1, by omega⟩)]
    · rw [if_neg hte, if_neg (hpast t (by omega))]
      rfl

/-! ## From the handle to the scan -/

theorem prepared_congr {pats : List (List Byte)} {nocase : Bool} {w v : WuManber}
    (hp : Prepared pats nocase w)
    (h1 : v.nocase = w.nocase) (h2 : v.patt = w.patt) (h3 : v.n_pat = w.n_pat)
    (h4 : v.use_bs3 = w.use_bs3) (h5 : v.use_bs1 = w.use_bs1) (h6 : v.tr = w.tr)
    (h7 : v.tr1 = w.tr1) (h8 : v.pat_len = w.pat_len) (h9 : v.p_size = w.p_size)
    (h10 : v.shift_min = w.shift_min) (h11 : v.pat_hash = w.pat_hash) :
    Prepared pats nocase v := by
  have hph : ∀ P, pat_hash_of v P = pat_hash_of w P := pat_hash_of_congr' h5 h6 h9
  constructor
  · rw [h1]; exact hp.nocase_eq
  · rw [h2]; exact hp.patt_eq
  · rw [h3]; exact hp.n_pat_eq
  · rw [h6]; exact hp.tr_eq
  · rw [h7]; exact hp.tr1_eq
  · rw [h9]; exact hp.p_size_pos
  · rw [h9]; exact hp.p_size_le
  · rw [h9]; exact hp.p_size_le_len
  · rw [h9]; exact hp.p_size_attained
  · rw [h4, h9]; exact hp.use_bs3_eq
  · rw [h5, h9]; exact hp.use_bs1_eq
  · rw [h8, h2]; exact hp.pat_len_eq
  · rw [h10, h9]; exact hp.shift_default
  · rw [h10, h4, h2, h9]; exact hp.shift_block
  · intro h
    rw [h11, h2, hp.chain h]
    congr 2
    funext i
    rw [hph]

theorem init_ok (pats : List (List Byte)) (nocase : Bool) :
    ∃ wm, wm_search_init pats nocase = Except.ok wm ∧ Prepared pats nocase wm ∧
      wm.one_match_per_line = false ∧ wm.one_match_per_offset = false := by
  obtain ⟨w, hw, hp, _⟩ := prep_pat_ok wm_calloc pats nocase
  refine ⟨wm_search_defaults w, ?_, ?_, rfl, rfl⟩
  · unfold wm_search_init
    rw [hw]
    rfl
  · exact prepared_congr hp rfl rfl rfl rfl rfl rfl rfl rfl rfl rfl rfl

theorem prepared_set_flags {pats : List (List Byte)} {nocase : Bool} {wm : WuManber}
    (hp : Prepared pats nocase wm) (a b : Bool) : Prepared pats nocase (set_flags wm a b) :=
  prepared_congr hp rfl rfl rfl rfl rfl rfl rfl rfl rfl rfl rfl

theorem search_text_calls (wm : WuManber) (T : List Byte) (e : Nat) :
    (wm_search_text wm (some T) e true).calls
      = (if wm.use_bs1 = true then wm_bs1 (armed wm) T e { n_matches := 0, calls := [] }
         else wm_bs3 (armed wm) T e { n_matches := 0, calls := [] }).calls := by
  unfold wm_search_text armed
  simp only [if_true]

theorem search_text_n_matches (wm : WuManber) (T : List Byte) (e : Nat) :
    (wm_search_text wm (some T) e true).n_matches
      = (if wm.use_bs1 = true then wm_bs1 (armed wm) T e { n_matches := 0, calls := [] }
         else wm_bs3 (armed wm) T e { n_matches := 0, calls := [] }).n_matches := by
  unfold wm_search_text armed
  simp only [if_true]

theorem chain_mem_range {pats : List (List Byte)} {nocase : Bool} {wm : WuManber}
    (hp : Prepared pats nocase wm) {i : Nat} (h : ∃ b, i ∈ wm.pat_hash.getD b []) :
    1 ≤ i ∧ i ≤ pats.length := by
  obtain ⟨b, hb⟩ := h
  rw [hp.chain, List.mem_reverse, List.mem_filter, mem_range'_one] at hb
  exact hb.1

/-- Every setting of the flags, either variant: what a scan through `wm_search_text` with a
non-null callback reports and returns. -/
theorem search_text_spec {pats : List (List Byte)} {nocase : Bool} {wm : WuManber}
    (hp : Prepared pats nocase wm) (T : List Byte) (e : Nat) :
    (wm_search_text wm (some T) e true).n_matches
        = (wm_search_text wm (some T) e true).calls.length % 2 ^ 32 ∧
      (∀ r ∈ (wm_search_text wm (some T) e true).calls,
        1 ≤ r.1 ∧ r.1 ≤ pats.length ∧
        occurs nocase (prep_tr nocase) (pats.getD (r.1 - 1) []) T r.2 ∧
        (wm.use_bs1 = false → r.2 + (pats.getD (r.1 - 1) []).length ≤ e) ∧
        (wm.use_bs1 = true → r.2 < e)) ∧
      (wm_search_text wm (some T) e true).calls.Pairwise (fun a b => a.2 ≤ b.2) := by
  have hpa : Prepared pats nocase (armed wm) :=
    prepared_congr hp rfl rfl rfl rfl rfl rfl rfl rfl rfl rfl rfl
  rw [search_text_calls, search_text_n_matches]
  by_cases hb : wm.use_bs1 = true
  · rw [if_pos hb]
    obtain ⟨new, h1, h2, h3, h4⟩ := wm_bs1_loop_spec (armed wm) T e rfl (e + 1) 0
      { n_matches := 0, calls := [] } (by norm_num)
    have hc : (wm_bs1 (armed wm) T e { n_matches := 0, calls := [] }).calls = new := by
      unfold wm_bs1; rw [h1]; rfl
    have hn : (wm_bs1 (armed wm) T e { n_matches := 0, calls := [] }).n_matches
        = new.length % 2 ^ 32 := by
      unfold wm_bs1; rw [h2]; simp
    rw [hc, hn]
    refine ⟨rfl, ?_, h4⟩
    intro r hr
    obtain ⟨g1, _, g3, g4⟩ := h3 r hr
    obtain ⟨i1, i2⟩ := chain_mem_range hpa g1
    refine ⟨i1, i2, ?_, fun h => absurd hb (by rw [h]; simp), fun _ => g3⟩
    rw [hpa.pat_len_eq r.1 i1 i2, prepared_patt hpa r.1 i1] at g4
    intro j hj
    have hcmp := (bs1_compare_spec (armed wm) T r.1 r.2
      ((pats.getD (r.1 - 1) []).length + 1) 0).2.2.1 j (Nat.zero_le _) (by omega)
    rw [prepared_patt hpa r.1 i1] at hcmp
    have := mode_eq_of_tr hpa.tr_eq hpa.nocase_eq hcmp
    rw [hpa.nocase_eq, hpa.tr_eq] at this
    exact this
  · rw [if_neg hb]
    obtain ⟨new, h1, h2, h3, h4⟩ := wm_bs3_loop_spec (armed wm) T e rfl (e + 1)
      ((armed wm).p_size - 1) { n_matches := 0, calls := [] } (by norm_num)
    have hc : (wm_bs3 (armed wm) T e { n_matches := 0, calls := [] }).calls = new := by
      unfold wm_bs3; rw [h1]; rfl
    have hn : (wm_bs3 (armed wm) T e { n_matches := 0, calls := [] }).n_matches
        = new.length % 2 ^ 32 := by
      unfold wm_bs3; rw [h2]; simp
    rw [hc, hn]
    refine ⟨rfl, ?_, h4⟩
    intro r hr
    obtain ⟨g1, _, g3, g4⟩ := h3 r hr
    obtain ⟨i1, i2⟩ := chain_mem_range hpa g1
    rw [hpa.pat_len_eq r.1 i1 i2, prepared_patt hpa r.1 i1] at g3 g4
    refine ⟨i1, i2, ?_, fun _ => g3, fun h => absurd h hb⟩
    have := (bs3_verify_iff (armed wm) T r.1 r.2 _).1 g4
    rw [prepared_patt hpa r.1 i1, hpa.nocase_eq, hpa.tr_eq] at this
    exact this

/-- Both flags off, every pattern of length 2 at least: the pair `(i, o)` is reported once
when it is an occurrence that ends before index `e`, and not at all otherwise. -/
theorem search_text_count {pats : List (List Byte)} {nocase : Bool} {wm : WuManber}
    (hp : Prepared pats nocase wm)
    (hl : wm.one_match_per_line = false) (ho : wm.one_match_per_offset = false)
    (hlen : ∀ P ∈ pats, 2 ≤ P.length) (T : List Byte) (e i o : Nat) :
    List.count (i, o) (wm_search_text wm (some T) e true).calls
      = if occurrence nocase (prep_tr nocase) pats T e i o then 1 else 0 := by
  have hpa : Prepared pats nocase (armed wm) :=
    prepared_congr hp rfl rfl rfl rfl rfl rfl rfl rfl rfl rfl rfl
  have h2 : 2 ≤ (armed wm).p_size := by
    rcases hpa.p_size_attained with h | ⟨P, hP, h⟩
    · omega
    · rw [h]; exact hlen P hP
  have hne : ∀ P ∈ pats, P ≠ [] := by
    intro P hP h
    have := hlen P hP
    rw [h] at this
    simp at this
  have hb : ¬ wm.use_bs1 = true := by
    have : wm.use_bs1 = (armed wm).use_bs1 := rfl
    rw [this, hpa.use_bs1_eq]
    simp
    omega
  rw [search_text_calls, if_neg hb]
  unfold wm_bs3
  have := wm_bs3_loop_count hpa rfl hl ho h2 hne T e i o (e + 1) ((armed wm).p_size - 1)
    { n_matches := 0, calls := [] } (le_refl _) (by omega)
  rw [this, hpa.nocase_eq, hpa.tr_eq]
  simp

/-! ## The claims -/

/-- C1: completeness of the multi-byte scanner.  For every pattern list whose patterns all
have at least two bytes (so `wm_search_text` dispatches to `wm_bs3`, with two- or three-byte
blocks), either case mode, both flags off as `wm_search_init` leaves them, and every text:
each pattern index `i` in `[1, n_pat]` and offset `o` with `o + pat_len[i] <= end` at which
the pattern occurs (under `tr` when `nocase` is set, raw otherwise) is reported exactly once. -/
theorem wm_bs3_reports_every_occurrence (pats : List (List Byte)) (nocase : Bool)
    (T : List Byte) (e : Nat) (hlen : ∀ P ∈ pats, 2 ≤ P.length) :
    ∃ wm, wm_search_init pats nocase = Except.ok wm ∧ wm.use_bs1 = false ∧
      wm.tr = prep_tr nocase ∧
      ∀ i o, 1 ≤ i → i ≤ pats.length → o + (pats.getD (i - 1) []).length ≤ e →
        occurs nocase (prep_tr nocase) (pats.getD (i - 1) []) T o →
        List.count (i, o) (wm_search_text wm (some T) e true).calls = 1 := by
  obtain ⟨wm, h1, hp, hl, ho⟩ := init_ok pats nocase
  refine ⟨wm, h1, ?_, hp.tr_eq, ?_⟩
  · rw [hp.use_bs1_eq]
    rcases hp.p_size_attained with h | ⟨P, hP, h⟩
    · simp [h]
    · have := hlen P hP
      simp
      omega
  · intro i o i1 i2 i3 hocc
    rw [search_text_count hp hl ho hlen T e i o, if_pos ⟨i1, i2, i3, hocc⟩]

/-- C1 at the pattern list `["aa"]` and the NUL-terminated text `"aaaa"` with `end = 4`. -/
theorem wm_bs3_reports_every_occurrence_witness :
    (∀ P ∈ ([[97, 97]] : List (List Byte)), 2 ≤ P.length) ∧
    ∃ wm, wm_search_init [[97, 97]] false = Except.ok wm ∧ wm.use_bs1 = false ∧
      wm.tr = prep_tr false ∧
      ∀ i o, 1 ≤ i → i ≤ ([[97, 97]] : List (List Byte)).length →
        o + (([[97, 97]] : List (List Byte)).getD (i - 1) []).length ≤ 4 →
        occurs false (prep_tr false) (([[97, 97]] : List (List Byte)).getD (i - 1) [])
          [97, 97, 97, 97, 0] o →
        List.count (i, o)
          (wm_search_text wm (some [97, 97, 97, 97, 0]) 4 true).calls = 1 :=
  ⟨by decide, wm_bs3_reports_every_occurrence [[97, 97]] false [97, 97, 97, 97, 0] 4 (by decide)⟩

/-- C2: soundness of every report.  For every pattern list, either scanner variant, either
case mode and every setting of the two flags: a pair `(i, o)` handed to the callback has
`i` in `[1, n_pat]`, and the text bytes from offset `o` on equal the bytes of pattern `i`
under the active case mode (after `tr` on both sides when `nocase` is set, raw otherwise). -/
theorem wm_search_text_reports_are_occurrences (pats : List (List Byte)) (nocase : Bool)
    (one_match_per_line one_match_per_offset : Bool) (T : List Byte) (e : Nat) :
    ∃ wm, wm_search_init pats nocase = Except.ok wm ∧ wm.tr = prep_tr nocase ∧
      ∀ i o, (i, o) ∈ (wm_search_text (set_flags wm one_match_per_line one_match_per_offset)
          (some T) e true).calls →
        1 ≤ i ∧ i ≤ pats.length ∧
        ∀ j, j < (pats.getD (i - 1) []).length →
          mode_eq nocase wm.tr ((pats.getD (i - 1) []).getD j 0) (T.getD (o + j) 0) := by
  obtain ⟨wm, h1, hp, _, _⟩ := init_ok pats nocase
  refine ⟨wm, h1, hp.tr_eq, ?_⟩
  intro i o hio
  have hp' : Prepared pats nocase (set_flags wm one_match_per_line one_match_per_offset) :=
    prepared_congr hp rfl rfl rfl rfl rfl rfl rfl rfl rfl rfl rfl
  obtain ⟨g1, g2, g3, _⟩ := (search_text_spec hp' T e).2.1 (i, o) hio
  rw [hp.tr_eq]
  exact ⟨g1, g2, g3⟩

/-- C6: reports are ordered by offset.  For every pattern list, either scanner variant,
either case mode, every setting of the two flags and every text: of two invocations of the
callback during one call of `wm_search_text`, the earlier one carries the smaller or equal
offset. -/
theorem wm_search_text_offsets_ordered (pats : List (List Byte)) (nocase : Bool)
    (one_match_per_line one_match_per_offset : Bool) (T : List Byte) (e : Nat) :
    ∃ wm, wm_search_init pats nocase = Except.ok wm ∧
      (wm_search_text (set_flags wm one_match_per_line one_match_per_offset)
          (some T) e true).calls.Pairwise
        (fun r1 r2 => r1.2 ≤ r2.2) := by
  obtain ⟨wm, h1, hp, _, _⟩ := init_ok pats nocase
  refine ⟨wm, h1, ?_⟩
  have hp' : Prepared pats nocase (set_flags wm one_match_per_line one_match_per_offset) :=
    prepared_congr hp rfl rfl rfl rfl rfl rfl rfl rfl rfl rfl rfl
  exact (search_text_spec hp' T e).2.2

/-- C9: variant selection.  After `wm_search_prep_pat` on any pattern list: `use_bs1` is set
exactly when `p_size = 1`, `use_bs3` exactly when `n_pat > 100` and `p_size >= 3`, and the
two are never both set. -/
theorem wm_search_prep_pat_variant (w0 : WuManber) (pats : List (List Byte)) (nocase : Bool) :
    ∃ wm, wm_search_prep_pat w0 pats nocase = Except.ok wm ∧ wm.n_pat = pats.length ∧
      (wm.use_bs1 = true ↔ wm.p_size = 1) ∧
      (wm.use_bs3 = true ↔ 100 < wm.n_pat ∧ 3 ≤ wm.p_size) ∧
      ¬ (wm.use_bs1 = true ∧ wm.use_bs3 = true) := by
  obtain ⟨wm, h1, hp, _⟩ := prep_pat_ok w0 pats nocase
  refine ⟨wm, h1, hp.n_pat_eq, ?_, ?_, ?_⟩
  · rw [hp.use_bs1_eq]; simp
  · rw [hp.use_bs3_eq, hp.n_pat_eq]; simp; intro _; omega
  · rw [hp.use_bs1_eq, hp.use_bs3_eq]; simp; intro h _; omega

/-- C10: translator tables.  After `wm_search_prep_pat`, for every byte `b`: `tr[b]` is
`b + 32` when `nocase` is set and `'A' <= b <= 'Z'`, and `b` otherwise; `tr1[b]` is
`tr[b] & 0x0F`; `tr` is idempotent; and `tr1[b]` is `b & 0x0F` in both case modes. -/
theorem wm_search_prep_pat_tables (w0 : WuManber) (pats : List (List Byte)) (nocase : Bool) :
    ∃ wm, wm_search_prep_pat w0 pats nocase = Except.ok wm ∧
      ∀ b : Byte,
        wm.tr.getD b.val 0
          = (if nocase = true ∧ 65 ≤ b.val ∧ b.val ≤ 90 then b.val + 32 else b.val) ∧
        wm.tr1.getD b.val 0 = wm.tr.getD b.val 0 &&& 15 ∧
        wm.tr.getD (wm.tr.getD b.val 0) 0 = wm.tr.getD b.val 0 ∧
        wm.tr1.getD b.val 0 = b.val &&& 15 := by
  obtain ⟨wm, h1, hp, _⟩ := prep_pat_ok w0 pats nocase
  refine ⟨wm, h1, ?_⟩
  intro b
  rw [hp.tr_eq, hp.tr1_eq, prep_tr1_getD, prep_tr_nibble, prep_tr_getD]
  refine ⟨rfl, rfl, ?_, rfl⟩
  have hb := b.isLt
  split
  · rename_i h
    obtain ⟨hn, h1, h2⟩ := h
    have hlt : b.val + 32 < 256 := by omega
    have := prep_tr_getD nocase ⟨b.val + 32, hlt⟩
    simp only at this
    rw [this, if_neg (by omega)]
  · rename_i h
    rw [prep_tr_getD, if_neg h]

/-- C3: the single-byte variant indexes `pat_hash` with the raw text byte.  The pattern
`"a"` preprocessed with `nocase` set occurs in the NUL-terminated text `"A"` (end = 1) at
offset 0 under `tr`, one byte before index `end`, and the scan of `wm_bs1` reports nothing:
the chain consulted is the one of bucket `'A'`, not of bucket `tr['A']`. -/
theorem wm_bs1_misses_uppercase_text :
    occurrence true (prep_tr true) [[97]] [65, 0] 1 1 0 ∧
      scan_calls [[97]] true [65, 0] 1 = some [] := by
  decide

/-- C4: case-mode equivalence fails for a pattern list whose shortest pattern has length 1.
The pattern `"a"` preprocessed with `nocase` set reports nothing on the text `"A"`, while the
lowercased pattern preprocessed case-sensitively reports `(1, 0)` on the lowercased text. -/
theorem nocase_scan_differs_from_lowercased_scan :
    scan_calls [[97]] true [65, 0] 1 = some [] ∧
      scan_calls (List.map (List.map ascii_lower) [[97]]) false
        (List.map ascii_lower [65, 0]) 1 = some [(1, 0)] := by
  decide

/-- C5, as stated, fails: in the buffer `"ab"` with `end = 1` the pattern `"ab"` occurs at
offset 0 with its last byte at index `end`, and the scan reports nothing. -/
theorem match_with_last_byte_at_end_not_reported :
    occurs false (prep_tr false) [97, 98] [97, 98] 0 ∧
      0 + ([97, 98] : List Byte).length - 1 = 1 ∧
      scan_calls [[97, 98]] false [97, 98] 1 = some [] := by
  decide

/-- C5, amended: for every pattern list whose patterns all have at least two bytes, both flags
off, and every text: an occurrence of pattern `i` at offset `o` with `o + pat_len[i] = end`
(its last byte at index `end - 1`) is reported, an occurrence at offset 0 that ends before
index `end` is reported, and every report `(i, o)` has `o + pat_len[i] <= end`, so that no
match whose last byte is at index `end` is reported. -/
theorem wm_bs3_boundary_matches (pats : List (List Byte)) (nocase : Bool)
    (T : List Byte) (e : Nat) (hlen : ∀ P ∈ pats, 2 ≤ P.length) :
    ∃ wm, wm_search_init pats nocase = Except.ok wm ∧
      (∀ i o, 1 ≤ i → i ≤ pats.length →
        occurs nocase (prep_tr nocase) (pats.getD (i - 1) []) T o →
        o + (pats.getD (i - 1) []).length = e →
        (i, o) ∈ (wm_search_text wm (some T) e true).calls) ∧
      (∀ i, 1 ≤ i → i ≤ pats.length →
        occurs nocase (prep_tr nocase) (pats.getD (i - 1) []) T 0 →
        (pats.getD (i - 1) []).length ≤ e →
        (i, 0) ∈ (wm_search_text wm (some T) e true).calls) ∧
      (∀ i o, (i, o) ∈ (wm_search_text wm (some T) e true).calls →
        o + (pats.getD (i - 1) []).length ≤ e) := by
  obtain ⟨wm, h1, hp, hl, ho⟩ := init_ok pats nocase
  refine ⟨wm, h1, ?_, ?_, ?_⟩
  · intro i o i1 i2 hocc he
    rw [← List.count_pos_iff,
      search_text_count hp hl ho hlen T e i o, if_pos ⟨i1, i2, by omega, hocc⟩]
    exact Nat.one_pos
  · intro i i1 i2 hocc he
    rw [← List.count_pos_iff,
      search_text_count hp hl ho hlen T e i 0, if_pos ⟨i1, i2, by omega, hocc⟩]
    exact Nat.one_pos
  · intro i o hio
    rw [← List.count_pos_iff, search_text_count hp hl ho hlen T e i o] at hio
    split at hio
    · rename_i h; exact h.2.2.1
    · exact absurd hio (by simp)

/-- C5, amended, at the pattern list `["ab"]` and the NUL-terminated text `"ab"` with
`end = 2`. -/
theorem wm_bs3_boundary_matches_witness :
    (∀ P ∈ ([[97, 98]] : List (List Byte)), 2 ≤ P.length) ∧
    ∃ wm, wm_search_init [[97, 98]] false = Except.ok wm ∧
      (∀ i o, 1 ≤ i → i ≤ ([[97, 98]] : List (List Byte)).length →
        occurs false (prep_tr false) (([[97, 98]] : List (List Byte)).getD (i - 1) [])
          [97, 98, 0] o →
        o + (([[97, 98]] : List (List Byte)).getD (i - 1) []).length = 2 →
        (i, o) ∈ (wm_search_text wm (some [97, 98, 0]) 2 true).calls) ∧
      (∀ i, 1 ≤ i → i ≤ ([[97, 98]] : List (List Byte)).length →
        occurs false (prep_tr false) (([[97, 98]] : List (List Byte)).getD (i - 1) [])
          [97, 98, 0] 0 →
        (([[97, 98]] : List (List Byte)).getD (i - 1) []).length ≤ 2 →
        (i, 0) ∈ (wm_search_text wm (some [97, 98, 0]) 2 true).calls) ∧
      (∀ i o, (i, o) ∈ (wm_search_text wm (some [97, 98, 0]) 2 true).calls →
        o + (([[97, 98]] : List (List Byte)).getD (i - 1) []).length ≤ 2) :=
  ⟨by decide, wm_bs3_boundary_matches [[97, 98]] false [97, 98, 0] 2 (by decide)⟩

/-- C7: an empty pattern is not rejected.  For the pattern list `["", "ab"]` the function
`wm_search_prep_pat` does not take the `exit(2)` branch: it returns a handle with
`pat_len[1] = 0` and `p_size = 2`. -/
theorem empty_pattern_not_rejected :
    ∃ wm, wm_search_prep_pat wm_calloc [[], [97, 98]] false = Except.ok wm ∧
      wm.pat_len.getD 1 0 = 0 ∧ wm.p_size = 2 := by
  obtain ⟨wm, h1, hp, _⟩ := prep_pat_ok wm_calloc [[], [97, 98]] false
  refine ⟨wm, h1, ?_, ?_⟩
  · rw [hp.pat_len_eq 1 (by decide) (by decide), hp.patt_eq]
    rfl
  · have h2 := hp.p_size_le_len [97, 98] (by simp) (by simp)
    have h3 := hp.p_size_pos
    rcases hp.p_size_attained with h | ⟨P, hP, h⟩
    · rw [h] at h2; simp at h2
    · simp at hP
      rcases hP with rfl | rfl
      · rw [h] at h3; simp at h3
      · exact h

/-! ### The returned count -/

theorem getD_replicate_append (N k : Nat) (h : k < N) :
    (List.replicate N (97 : Byte) ++ [0]).getD k 0 = 97 := by
  rw [List.getD_eq_getElem?_getD, List.getElem?_append_left (by simpa using h)]
  simp [List.getElem?_replicate, h]

theorem many_reports (N : Nat) :
    ∃ wm, wm_search_init [[97, 97], [97, 97], [97, 97]] false = Except.ok wm ∧
      3 * (N - 1)
        ≤ (wm_search_text wm (some (List.replicate N 97 ++ [0])) N true).calls.length := by
  obtain ⟨wm, h1, hp, hl, ho⟩ := init_ok [[97, 97], [97, 97], [97, 97]] false
  refine ⟨wm, h1, ?_⟩
  have hlen : ∀ P ∈ ([[97, 97], [97, 97], [97, 97]] : List (List Byte)), 2 ≤ P.length := by
    decide
  have hsub : ([1, 2, 3] ×ˢ List.range (N - 1) : List (Nat × Nat))
      ⊆ (wm_search_text wm (some (List.replicate N 97 ++ [0])) N true).calls := by
    intro r hr
    obtain ⟨i, o⟩ := r
    rw [List.mem_product, List.mem_range] at hr
    obtain ⟨hi, ho'⟩ := hr
    rw [← List.count_pos_iff, search_text_count hp hl ho hlen _ N i o, if_pos]
    · exact Nat.one_pos
    · have hP : ([[97, 97], [97, 97], [97, 97]] : List (List Byte)).getD (i - 1) []
          = [97, 97] := by
        simp at hi
        rcases hi with rfl | rfl | rfl <;> rfl
      refine ⟨?_, ?_, ?_, ?_⟩
      · simp at hi; omega
      · simp at hi; simp; omega
      · rw [hP]; simp; omega
      · rw [hP]
        intro j hj
        have hj2 : j < 2 := hj
        unfold mode_eq
        rw [if_neg (by simp), getD_replicate_append N (o + j) (by omega)]
        rcases Nat.lt_succ_iff_lt_or_eq.1 hj2 with h | rfl
        · have : j = 0 := by omega
          subst this; rfl
        · rfl
  have hnd : ([1, 2, 3] ×ˢ List.range (N - 1) : List (Nat × Nat)).Nodup :=
    List.Nodup.product (by decide) (List.nodup_range _)
  have := (List.subperm_of_subset hnd hsub).length_le
  rw [List.length_product, List.length_range] at this
  simpa using this

/-- C8, as stated, fails: the counter `n_matches` is returned as an `unsigned int`.  With the
three patterns `"aa"`, `"aa"`, `"aa"` and a text of `2 ^ 31 - 1` bytes `'a'` followed by a
NUL (`end = 2 ^ 31 - 1`) the callback is invoked more than `2 ^ 32` times, and the value
returned differs from the number of invocations. -/
theorem n_matches_wraps_around :
    ∃ wm, wm_search_init [[97, 97], [97, 97], [97, 97]] false = Except.ok wm ∧
      (wm_search_text wm (some (List.replicate 2147483647 97 ++ [0])) 2147483647 true).n_matches
        ≠ (wm_search_text wm (some (List.replicate 2147483647 97 ++ [0])) 2147483647
            true).calls.length := by
  obtain ⟨wm, h1, h2⟩ := many_reports 2147483647
  obtain ⟨w, g1, hp, _, _⟩ := init_ok [[97, 97], [97, 97], [97, 97]] false
  have hw : w = wm := by
    rw [g1] at h1
    exact Except.ok.inj h1
  subst hw
  refine ⟨w, g1, ?_⟩
  have h3 := (search_text_spec hp (List.replicate 2147483647 97 ++ [0]) 2147483647).1
  rw [h3]
  have h4 := Nat.mod_lt (wm_search_text w (some (List.replicate 2147483647 97 ++ [0]))
    2147483647 true).calls.length (show 0 < 2 ^ 32 by norm_num)
  omega

/-- C8, amended: for every pattern list, every setting of the flags, every text and a non-null
callback, whatever `n_matches` and the stored callback were before the call: the value
`wm_search_text` returns is the number of invocations of the callback modulo `2 ^ 32` (the
number itself below `2 ^ 32` invocations), the reports do not depend on the earlier
`n_matches`, and a second scan of the same text with the handle the first scan left
returns the same count and the same sequence of reports. -/
theorem wm_search_text_returns_count (pats : List (List Byte)) (nocase : Bool)
    (one_match_per_line one_match_per_offset : Bool) (T : List Byte) (e k : Nat) (c : Bool) :
    ∃ wm, wm_search_init pats nocase = Except.ok wm ∧
      (wm_search_text { set_flags wm one_match_per_line one_match_per_offset with
          n_matches := k, cb := c } (some T) e true).n_matches
        = (wm_search_text { set_flags wm one_match_per_line one_match_per_offset with
            n_matches := k, cb := c } (some T) e true).calls.length % 2 ^ 32 ∧
      (wm_search_text { set_flags wm one_match_per_line one_match_per_offset with
          n_matches := k, cb := c } (some T) e true).calls
        = (wm_search_text (set_flags wm one_match_per_line one_match_per_offset)
            (some T) e true).calls ∧
      (wm_search_text (wm_search_text { set_flags wm one_match_per_line one_match_per_offset with
          n_matches := k, cb := c } (some T) e true).wm (some T) e true).n_matches
        = (wm_search_text { set_flags wm one_match_per_line one_match_per_offset with
            n_matches := k, cb := c } (some T) e true).n_matches ∧
      (wm_search_text (wm_search_text { set_flags wm one_match_per_line one_match_per_offset with
          n_matches := k, cb := c } (some T) e true).wm (some T) e true).calls
        = (wm_search_text { set_flags wm one_match_per_line one_match_per_offset with
            n_matches := k, cb := c } (some T) e true).calls := by
  obtain ⟨wm, h1, hp, _, _⟩ := init_ok pats nocase
  refine ⟨wm, h1, ?_, rfl, rfl, rfl⟩
  have hp' : Prepared pats nocase { set_flags wm one_match_per_line one_match_per_offset with
      n_matches := k, cb := c } :=
    prepared_congr hp rfl rfl rfl rfl rfl rfl rfl rfl rfl rfl rfl
  exact (search_text_spec hp' T e).1

/-! ## Scenario 1 and the window size -/

/-- C13, as stated, fails: scanning `"ushers"` (NUL-terminated, `end = 6`) for the patterns
`["he", "she", "his", "hers"]` also reports `(1, 2)`, the pattern `"he"` at offset 2, which
is neither `(2, 1)` nor `(4, 2)`. -/
theorem ushers_scan_reports_he :
    ∃ l, scan_calls [[104, 101], [115, 104, 101], [104, 105, 115], [104, 101, 114, 115]] false
        [117, 115, 104, 101, 114, 115, 0] 6 = some l ∧
      (1, 2) ∈ l ∧ ((1, 2) : Nat × Nat) ≠ (2, 1) ∧ ((1, 2) : Nat × Nat) ≠ (4, 2) :=
  ⟨[(2, 1), (4, 2), (1, 2)], by decide, by decide, by decide, by decide⟩

/-- C13, amended: preprocessing the patterns `["he", "she", "his", "hers"]` case-sensitively
and scanning the text `"ushers"` (`end = 6`, NUL-terminated) with both flags off produces
exactly the reports `(2, 1)`, `(4, 2)`, `(1, 2)`, in this order. -/
theorem ushers_scan_reports :
    scan_calls [[104, 101], [115, 104, 101], [104, 105, 115], [104, 101, 114, 115]] false
      [117, 115, 104, 101, 114, 115, 0] 6 = some [(2, 1), (4, 2), (1, 2)] := by
  decide

theorem foldl_min_le (L : List Nat) : ∀ a, L.foldl min a ≤ a ∧ (∀ x ∈ L, L.foldl min a ≤ x) ∧
    (L.foldl min a = a ∨ L.foldl min a ∈ L) := by
  induction L with
  | nil => intro a; simp
  | cons y L ih =>
    intro a
    obtain ⟨h1, h2, h3⟩ := ih (min a y)
    simp only [List.foldl_cons]
    refine ⟨le_trans h1 (Nat.min_le_left _ _), ?_, ?_⟩
    · intro x hx
      rcases List.mem_cons.1 hx with rfl | hx
      · exact le_trans h1 (Nat.min_le_right _ _)
      · exact h2 x hx
    · rcases h3 with h | h
      · rw [h]
        rcases Nat.le_total a y with hay | hay
        · left; exact Nat.min_eq_left hay
        · right; rw [Nat.min_eq_right hay]; exact List.mem_cons_self _ _
      · right; exact List.mem_cons_of_mem _ h

theorem eq_foldl_min (L : List Nat) (a x : Nat) (h1 : x ≤ a) (h2 : ∀ y ∈ L, x ≤ y)
    (h3 : x = a ∨ x ∈ L) : x = L.foldl min a := by
  obtain ⟨g1, g2, g3⟩ := foldl_min_le L a
  apply Nat.le_antisymm
  · rcases g3 with g | g
    · rw [g]; exact h1
    · exact h2 _ g
  · rcases h3 with h | h
    · rw [h]; exact g1
    · exact g2 _ h

theorem p_size_eq_foldl_min {pats : List (List Byte)} {nocase : Bool} {wm : WuManber}
    (hp : Prepared pats nocase wm) (hne : ∀ P ∈ pats, P ≠ []) :
    wm.p_size = (pats.map List.length).foldl min 255 := by
  apply eq_foldl_min
  · exact hp.p_size_le
  · intro y hy
    rw [List.mem_map] at hy
    obtain ⟨P, hP, rfl⟩ := hy
    exact hp.p_size_le_len P hP (hne P hP)
  · rcases hp.p_size_attained with h | ⟨P, hP, h⟩
    · exact Or.inl h
    · exact Or.inr (by rw [h]; exact List.mem_map_of_mem _ hP)

/-- C17, as stated, fails: the window size is capped at 255.  For the single pattern of 256
bytes `'a'` the function `wm_search_prep_pat` stores `pat_len[1] = 256` and `p_size = 255`. -/
theorem p_size_capped_at_255 :
    ∃ wm, wm_search_prep_pat wm_calloc [List.replicate 256 97] false = Except.ok wm ∧
      wm.pat_len.getD 1 0 = 256 ∧ wm.p_size = 255 := by
  obtain ⟨wm, h1, hp, _⟩ := prep_pat_ok wm_calloc [List.replicate 256 97] false
  refine ⟨wm, h1, ?_, ?_⟩
  · rw [hp.pat_len_eq 1 (by decide) (by decide), hp.patt_eq]
    simp
  · have h2 := hp.p_size_le
    rcases hp.p_size_attained with h | ⟨P, hP, h⟩
    · exact h
    · simp at hP
      subst hP
      simp at h
      omega

/-- C17, amended: after `wm_search_prep_pat` on any list of non-empty patterns, `pat_len[i]`
is the byte length of pattern `i` for every `i` in `[1, n_pat]`, and `p_size` is the minimum
of 255 and of all the lengths: the shortest length when that is at most 255, and 255 when
every pattern is longer. -/
theorem wm_search_prep_pat_window (w0 : WuManber) (pats : List (List Byte)) (nocase : Bool)
    (hne : ∀ P ∈ pats, P ≠ []) :
    ∃ wm, wm_search_prep_pat w0 pats nocase = Except.ok wm ∧
      (∀ i, 1 ≤ i → i ≤ pats.length → wm.pat_len.getD i 0 = (pats.getD (i - 1) []).length) ∧
      wm.p_size = (pats.map List.length).foldl min 255 ∧
      wm.p_size ≤ 255 ∧ (∀ P ∈ pats, wm.p_size ≤ P.length) ∧
      (wm.p_size = 255 ∨ ∃ P ∈ pats, wm.p_size = P.length) := by
  obtain ⟨wm, h1, hp, _⟩ := prep_pat_ok w0 pats nocase
  refine ⟨wm, h1, ?_, p_size_eq_foldl_min hp hne, hp.p_size_le,
    fun P hP => hp.p_size_le_len P hP (hne P hP), hp.p_size_attained⟩
  intro i i1 i2
  rw [hp.pat_len_eq i i1 i2, prepared_patt hp i i1]

/-- C17, amended, at the pattern list `["ab", "a"]`. -/
theorem wm_search_prep_pat_window_witness :
    (∀ P ∈ ([[97, 98], [97]] : List (List Byte)), P ≠ []) ∧
    ∃ wm, wm_search_prep_pat wm_calloc [[97, 98], [97]] false = Except.ok wm ∧
      (∀ i, 1 ≤ i → i ≤ ([[97, 98], [97]] : List (List Byte)).length →
        wm.pat_len.getD i 0 = (([[97, 98], [97]] : List (List Byte)).getD (i - 1) []).length) ∧
      wm.p_size = (([[97, 98], [97]] : List (List Byte)).map List.length).foldl min 255 ∧
      wm.p_size ≤ 255 ∧ (∀ P ∈ ([[97, 98], [97]] : List (List Byte)), wm.p_size ≤ P.length) ∧
      (wm.p_size = 255 ∨ ∃ P ∈ ([[97, 98], [97]] : List (List Byte)), wm.p_size = P.length) :=
  ⟨by decide, wm_search_prep_pat_window wm_calloc [[97, 98], [97]] false (by decide)⟩

/-! ## The exact content of the shift table -/

theorem prep_pat_fold (w0 : WuManber) (pats : List (List Byte)) (nocase : Bool) :
    ∃ w1 : WuManber,
      wm_search_prep_pat w0 pats nocase
        = Except.ok ((List.range' 1 pats.length).foldl
            (fun w i => f_prep w i (w.patt.getD i [])) w1) ∧
      w1.patt = [] :: pats ∧ w1.tr = prep_tr nocase ∧
      w1.shift_min = List.replicate SHIFT_SZ ((w1.p_size + 254) % 256) ∧
      w1.pat_hash = List.replicate PAT_HASH_SZ [] := by
  obtain ⟨_, _, l3, _⟩ := prep_len_fold ([] :: pats) (List.range' 1 pats.length)
    (List.replicate (pats.length + 2) 0, 255)
  have hp : ((List.range' 1 pats.length).foldl (prep_len_step ([] :: pats))
      (List.replicate (pats.length + 2) 0, 255)).2 ≠ 0 := by
    have := l3 (by norm_num)
    omega
  unfold wm_search_prep_pat
  simp only [if_neg hp]
  exact ⟨_, rfl, rfl, rfl, rfl, rfl⟩

theorem lower_getD_cases (sm : List Nat) (h v h' : Nat) :
    (if v ≤ sm.getD h 0 then sm.set h v else sm).getD h' 0 = sm.getD h' 0 ∨
      (h = h' ∧ (if v ≤ sm.getD h 0 then sm.set h v else sm).getD h' 0 = v) := by
  split
  · by_cases hh : h = h'
    · subst hh
      by_cases hl : h < sm.length
      · right; exact ⟨rfl, getD_set_eq _ _ _ _ hl⟩
      · left; rw [List.set_eq_of_length_le (by omega)]
    · left; exact getD_set_ne _ _ _ _ _ hh
  · left; rfl

theorem f_prep_shift_attained (wm : WuManber) (P : List Byte) (n : Nat) :
    ∀ (sm : List Nat) (h : Nat),
      (f_prep_shift wm P n sm).getD h 0 = sm.getD h 0 ∨
      ∃ k, 1 + wm.use_bs3.toNat ≤ k ∧ k < n ∧ block_hash wm.use_bs3 P k = h ∧
        (f_prep_shift wm P n sm).getD h 0 = wm.p_size - 1 - k := by
  induction n with
  | zero => intro sm h; left; rfl
  | succ i ih =>
    intro sm h
    rw [f_prep_shift_step]
    split
    · rename_i hi
      rcases ih (if wm.p_size - 1 - i ≤ sm.getD (block_hash wm.use_bs3 P i) 0
          then sm.set (block_hash wm.use_bs3 P i) (wm.p_size - 1 - i) else sm) h with g | g
      · rcases lower_getD_cases sm (block_hash wm.use_bs3 P i) (wm.p_size - 1 - i) h
          with c | ⟨c1, c2⟩
        · left; rw [g, c]
        · right; exact ⟨i, hi, Nat.lt_succ_self i, c1, by rw [g, c2]⟩
      · obtain ⟨k, k1, k2, k3, k4⟩ := g
        right; exact ⟨k, k1, Nat.lt_succ_of_lt k2, k3, k4⟩
    · left; rfl

theorem fold_f_prep_shift_attained (is : List Nat) :
    ∀ (w : WuManber) (h : Nat),
      (is.foldl (fun w i => f_prep w i (w.patt.getD i [])) w).shift_min.getD h 0
          = w.shift_min.getD h 0 ∨
      ∃ i ∈ is, ∃ k, 1 + w.use_bs3.toNat ≤ k ∧ k < w.p_size ∧
        block_hash w.use_bs3 (w.patt.getD i []) k = h ∧
        (is.foldl (fun w i => f_prep w i (w.patt.getD i [])) w).shift_min.getD h 0
          = w.p_size - 1 - k := by
  induction is with
  | nil => intro w h; left; rfl
  | cons a is ih =>
    intro w h
    obtain ⟨_, c2, _, c4, _, _, _, _, c9, _⟩ := f_prep_same w a (w.patt.getD a [])
    simp only [List.foldl_cons]
    rcases ih (f_prep w a (w.patt.getD a [])) h with g | ⟨i, hi, k, k1, k2, k3, k4⟩
    · rw [g, f_prep_shift_min]
      rcases f_prep_shift_attained w (w.patt.getD a []) w.p_size w.shift_min h
        with c | ⟨k, k1, k2, k3, k4⟩
      · left; exact c
      · right; exact ⟨a, List.mem_cons_self _ _, k, k1, k2, k3, k4⟩
    · right
      rw [c2, c4] at k3
      rw [c4] at k1
      rw [c9] at k2 k4
      exact ⟨i, List.mem_cons_of_mem _ hi, k, k1, k2, k3, k4⟩

theorem prep_pat_shift_attained (w0 : WuManber) (pats : List (List Byte)) (nocase : Bool) :
    ∃ wm, wm_search_prep_pat w0 pats nocase = Except.ok wm ∧
      ∀ h, h < SHIFT_SZ →
        wm.shift_min.getD h 0 = (wm.p_size + 254) % 256 ∨
        ∃ i, 1 ≤ i ∧ i ≤ pats.length ∧ ∃ k, 1 + wm.use_bs3.toNat ≤ k ∧ k < wm.p_size ∧
          block_hash wm.use_bs3 (pats.getD (i - 1) []) k = h ∧
          wm.shift_min.getD h 0 = wm.p_size - 1 - k := by
  obtain ⟨w1, h1, b2, _, b10, _⟩ := prep_pat_fold w0 pats nocase
  refine ⟨_, h1, ?_⟩
  intro h hh
  obtain ⟨_, _, _, a4, _, _, _, _, a9, _⟩ := fold_f_prep_same (List.range' 1 pats.length) w1
  rcases fold_f_prep_shift_attained (List.range' 1 pats.length) w1 h
    with g | ⟨i, hi, k, k1, k2, k3, k4⟩
  · left
    rw [g, b10, a9, getD_replicate _ _ _ _ hh]
  · right
    obtain ⟨i1, i2⟩ := (mem_range'_one _ _).1 hi
    rw [b2, patt_getD_succ _ _ i1] at k3
    exact ⟨i, i1, i2, k, by rw [a4]; exact k1, by rw [a9]; exact k2, by rw [a4]; exact k3,
      by rw [a9]; exact k4⟩

theorem prep_ok_unique {w0 : WuManber} {pats : List (List Byte)} {nocase : Bool}
    {w v : WuManber} (h1 : wm_search_prep_pat w0 pats nocase = Except.ok w)
    (h2 : wm_search_prep_pat w0 pats nocase = Except.ok v) : w = v := by
  rw [h1] at h2
  exact Except.ok.inj h2

theorem p_size_eq_shortest {pats : List (List Byte)} {nocase : Bool} {wm : WuManber}
    (hp : Prepared pats nocase wm) (m : Nat) (hmin : ∀ P ∈ pats, m ≤ P.length)
    (hatt : ∃ P ∈ pats, P.length = m) (h1 : 1 ≤ m) (h255 : m ≤ 255) : wm.p_size = m := by
  obtain ⟨P, hP, hPm⟩ := hatt
  have hne : P ≠ [] := by
    intro h; rw [h] at hPm; simp at hPm; omega
  have hle := hp.p_size_le_len P hP hne
  rcases hp.p_size_attained with h | ⟨Q, hQ, h⟩
  · omega
  · have := hmin Q hQ
    omega

theorem text_block_hash_of_block {pats : List (List Byte)} {nocase : Bool} {wm : WuManber}
    (hp : Prepared pats nocase wm) (P T : List Byte) (k t : Nat)
    (hblock : ∀ j, j ≤ 1 + wm.use_bs3.toNat →
      mode_eq nocase wm.tr (P.getD (k - j) 0) (T.getD (t - j) 0)) :
    text_block_hash wm T t = block_hash wm.use_bs3 P k := by
  have hb : ∀ j, j ≤ 1 + wm.use_bs3.toNat →
      (P.getD (k - j) 0).val &&& 15 = (T.getD (t - j) 0).val &&& 15 := by
    intro j hj
    have := hblock j hj
    rw [← hp.nocase_eq] at this
    exact mode_eq_nibble hp.tr_eq hp.nocase_eq this
  have n0 := hb 0 (Nat.zero_le _)
  have n1 := hb 1 (by omega)
  simp only [Nat.sub_zero] at n0
  unfold text_block_hash block_hash
  rw [hp.tr1_eq, prep_tr1_getD, prep_tr1_getD, prep_tr1_getD, n0, n1]
  cases hbs : wm.use_bs3
  · simp
  · have n2 := hb 2 (by rw [hbs]; decide)
    rw [n2]

/-- C11: shift-table safety.  After `wm_search_prep_pat` on a pattern list with shortest
length `m`, `2 <= m <= 255`, with block size `B = 3` if `use_bs3` else `2`: for every pattern
`i`, every block end `k` in `[B-1, m-1]` and every text window ending at index `t` whose last
`B` bytes equal `patterns[i][k-B+1..k]` under the active case mode, the block hash `H` that
`wm_bs3` computes there satisfies `shift_min[H] <= m - 1 - k`; for `k = m - 1` it is 0. -/
theorem shift_table_safe (w0 : WuManber) (pats : List (List Byte)) (nocase : Bool) (m : Nat)
    (hmin : ∀ P ∈ pats, m ≤ P.length) (hatt : ∃ P ∈ pats, P.length = m)
    (h2 : 2 ≤ m) (h255 : m ≤ 255) :
    ∃ wm, wm_search_prep_pat w0 pats nocase = Except.ok wm ∧ wm.p_size = m ∧
      ∀ i, 1 ≤ i → i ≤ pats.length → ∀ k, 1 + wm.use_bs3.toNat ≤ k → k ≤ m - 1 →
        ∀ (T : List Byte) (t : Nat), 1 + wm.use_bs3.toNat ≤ t →
          (∀ j, j ≤ 1 + wm.use_bs3.toNat →
            mode_eq nocase wm.tr ((pats.getD (i - 1) []).getD (k - j) 0) (T.getD (t - j) 0)) →
          wm.shift_min.getD (text_block_hash wm T t) 0 ≤ m - 1 - k ∧
          (k = m - 1 → wm.shift_min.getD (text_block_hash wm T t) 0 = 0) := by
  obtain ⟨wm, h1, hp, _⟩ := prep_pat_ok w0 pats nocase
  have hm := p_size_eq_shortest hp m hmin hatt (by omega) h255
  refine ⟨wm, h1, hm, ?_⟩
  intro i i1 i2 k k1 k2 T t _ hblock
  have hle : wm.shift_min.getD (text_block_hash wm T t) 0 ≤ m - 1 - k := by
    rw [text_block_hash_of_block hp (pats.getD (i - 1) []) T k t hblock,
      ← prepared_patt hp i i1, ← hm]
    exact hp.shift_block i i1 i2 k k1 (by omega)
  refine ⟨hle, ?_⟩
  intro hk
  omega

/-- C11 at the pattern list `["abc"]` with `m = 3`. -/
theorem shift_table_safe_witness :
    (∀ P ∈ ([[97, 98, 99]] : List (List Byte)), 3 ≤ P.length) ∧
    (∃ P ∈ ([[97, 98, 99]] : List (List Byte)), P.length = 3) ∧ 2 ≤ 3 ∧ 3 ≤ 255 ∧
    ∃ wm, wm_search_prep_pat wm_calloc [[97, 98, 99]] false = Except.ok wm ∧ wm.p_size = 3 ∧
      ∀ i, 1 ≤ i → i ≤ ([[97, 98, 99]] : List (List Byte)).length →
        ∀ k, 1 + wm.use_bs3.toNat ≤ k → k ≤ 3 - 1 →
        ∀ (T : List Byte) (t : Nat), 1 + wm.use_bs3.toNat ≤ t →
          (∀ j, j ≤ 1 + wm.use_bs3.toNat →
            mode_eq false wm.tr ((([[97, 98, 99]] : List (List Byte)).getD (i - 1) []).getD
              (k - j) 0) (T.getD (t - j) 0)) →
          wm.shift_min.getD (text_block_hash wm T t) 0 ≤ 3 - 1 - k ∧
          (k = 3 - 1 → wm.shift_min.getD (text_block_hash wm T t) 0 = 0) :=
  ⟨by decide, by decide, by decide, by decide,
    shift_table_safe wm_calloc [[97, 98, 99]] false 3 (by decide) (by decide) (by decide)
      (by decide)⟩

/-- C16: the exact content of the shift table.  After `wm_search_prep_pat` on a pattern list
with shortest length `m`, `2 <= m <= 255`: for every table index `H` below `SHIFT_SZ`,
`shift_min[H]` is the minimum of `m - 2` and of the values `m - 1 - k` over the patterns `i`
and the block ends `k` in `[B-1, m-1]` whose block `f_prep` hashes to `H`: it is at most
`m - 2`, at most each such value, and equal to `m - 2` or to one of them. -/
theorem shift_table_exact (w0 : WuManber) (pats : List (List Byte)) (nocase : Bool) (m : Nat)
    (hmin : ∀ P ∈ pats, m ≤ P.length) (hatt : ∃ P ∈ pats, P.length = m)
    (h2 : 2 ≤ m) (h255 : m ≤ 255) :
    ∃ wm, wm_search_prep_pat w0 pats nocase = Except.ok wm ∧ wm.p_size = m ∧
      ∀ H, H < SHIFT_SZ →
        wm.shift_min.getD H 0 ≤ m - 2 ∧
        (∀ i, 1 ≤ i → i ≤ pats.length → ∀ k, 1 + wm.use_bs3.toNat ≤ k → k ≤ m - 1 →
          block_hash wm.use_bs3 (pats.getD (i - 1) []) k = H →
          wm.shift_min.getD H 0 ≤ m - 1 - k) ∧
        (wm.shift_min.getD H 0 = m - 2 ∨
          ∃ i, 1 ≤ i ∧ i ≤ pats.length ∧ ∃ k, 1 + wm.use_bs3.toNat ≤ k ∧ k ≤ m - 1 ∧
            block_hash wm.use_bs3 (pats.getD (i - 1) []) k = H ∧
            wm.shift_min.getD H 0 = m - 1 - k) := by
  obtain ⟨wm, h1, hp, _⟩ := prep_pat_ok w0 pats nocase
  obtain ⟨v, g1, hatt'⟩ := prep_pat_shift_attained w0 pats nocase
  have hv := prep_ok_unique g1 h1
  subst hv
  have hm := p_size_eq_shortest hp m hmin hatt (by omega) h255
  refine ⟨v, h1, hm, ?_⟩
  intro H hH
  have hdef : (v.p_size + 254) % 256 = m - 2 := by rw [hm]; omega
  refine ⟨?_, ?_, ?_⟩
  · rw [← hdef]; exact hp.shift_default H
  · intro i i1 i2 k k1 k2 hk
    rw [← hk, ← prepared_patt hp i i1, ← hm]
    exact hp.shift_block i i1 i2 k k1 (by omega)
  · rcases hatt' H hH with g | ⟨i, i1, i2, k, k1, k2, k3, k4⟩
    · left; rw [g, hdef]
    · right
      exact ⟨i, i1, i2, k, k1, by omega, k3, by rw [k4, hm]⟩

/-- C16 at the pattern list `["abc"]` with `m = 3`. -/
theorem shift_table_exact_witness :
    (∀ P ∈ ([[97, 98, 99]] : List (List Byte)), 3 ≤ P.length) ∧
    (∃ P ∈ ([[97, 98, 99]] : List (List Byte)), P.length = 3) ∧ 2 ≤ 3 ∧ 3 ≤ 255 ∧
    ∃ wm, wm_search_prep_pat wm_calloc [[97, 98, 99]] false = Except.ok wm ∧ wm.p_size = 3 ∧
      ∀ H, H < SHIFT_SZ →
        wm.shift_min.getD H 0 ≤ 3 - 2 ∧
        (∀ i, 1 ≤ i → i ≤ ([[97, 98, 99]] : List (List Byte)).length →
          ∀ k, 1 + wm.use_bs3.toNat ≤ k → k ≤ 3 - 1 →
          block_hash wm.use_bs3 (([[97, 98, 99]] : List (List Byte)).getD (i - 1) []) k = H →
          wm.shift_min.getD H 0 ≤ 3 - 1 - k) ∧
        (wm.shift_min.getD H 0 = 3 - 2 ∨
          ∃ i, 1 ≤ i ∧ i ≤ ([[97, 98, 99]] : List (List Byte)).length ∧
            ∃ k, 1 + wm.use_bs3.toNat ≤ k ∧ k ≤ 3 - 1 ∧
            block_hash wm.use_bs3 (([[97, 98, 99]] : List (List Byte)).getD (i - 1) []) k = H ∧
            wm.shift_min.getD H 0 = 3 - 1 - k) :=
  ⟨by decide, by decide, by decide, by decide,
    shift_table_exact wm_calloc [[97, 98, 99]] false 3 (by decide) (by decide) (by decide)
      (by decide)⟩

/-! ## The index of the shift hash -/

theorem nibbles_or_two (a b : Nat) (hb : b < 16) : (a <<< 4) ||| b = (a <<< 4) + b := by
  have h := Nat.mul_add_lt_is_or (i := 4) (b := b) (by norm_num; exact hb) a
  rw [Nat.shiftLeft_eq, Nat.mul_comm a (2 ^ 4), h]

theorem nibbles_or_three (a b c : Nat) (hb : b < 16) (hc : c < 16) :
    (a <<< 8) ||| (b <<< 4) ||| c = (((a <<< 4) + b) <<< 4) + c := by
  have h1 := Nat.mul_add_lt_is_or (i := 8) (b := b * 2 ^ 4) (by norm_num; omega) a
  have h2 := Nat.mul_add_lt_is_or (i := 4) (b := c) (by norm_num; exact hc) (a * 2 ^ 4 + b)
  have e1 : 2 ^ 8 * a + b * 2 ^ 4 = 2 ^ 4 * (a * 2 ^ 4 + b) := by ring
  simp only [Nat.shiftLeft_eq]
  rw [Nat.mul_comm a (2 ^ 8), ← h1, e1, ← h2]
  ring

theorem shift_index_eq (bs3 : Bool) (P : List Byte) (k : Nat) :
    shift_index bs3 P k = block_hash bs3 P k := by
  have h1 : (P.getD (k - 1) 0).val &&& 15 < 16 := Nat.lt_succ_of_le (nibble_le _)
  have h2 : (P.getD (k - 2) 0).val &&& 15 < 16 := Nat.lt_succ_of_le (nibble_le _)
  unfold shift_index block_hash
  cases bs3
  · simp only [Bool.false_eq_true, if_false]
    exact nibbles_or_two _ _ h1
  · simp only [if_true]
    exact nibbles_or_three _ _ _ h1 h2

/-- C14, as stated, fails: for the single pattern `"abc"` (`m = 3`, two-byte blocks) the
block ending at `k = 2` has the index `0x23 = 35` by the formula with the most recent byte
last, and `f_prep` records nothing there (the cell keeps the default 1); the shift
`m - 1 - k = 0` is recorded at the index `0x32 = 50`, the most recent byte first. -/
theorem shift_not_recorded_at_spec_index :
    ∃ wm, wm_search_prep_pat wm_calloc [[97, 98, 99]] false = Except.ok wm ∧
      wm.p_size = 3 ∧ wm.use_bs3 = false ∧
      spec_shift_index false [97, 98, 99] 2 = 35 ∧ wm.shift_min.getD 35 0 = 1 ∧
      shift_index false [97, 98, 99] 2 = 50 ∧ wm.shift_min.getD 50 0 = 0 := by
  obtain ⟨wm, h1, _⟩ := prep_pat_ok wm_calloc [[97, 98, 99]] false
  have hev : (match wm_search_prep_pat wm_calloc [[97, 98, 99]] false with
      | Except.ok wm => (wm.p_size, wm.use_bs3, wm.shift_min.getD 35 0, wm.shift_min.getD 50 0)
      | Except.error _ => (0, true, 0, 0)) = (3, false, 1, 0) := by decide
  rw [h1] at hev
  simp only [Prod.mk.injEq] at hev
  obtain ⟨e1, e2, e3, e4⟩ := hev
  exact ⟨wm, h1, e1, e2, by decide, e3, by decide, e4⟩

/-- C14, amended: for every pattern `P` and every block end `k` in `[B-1, m-1]` (`B = 3` if
`use_bs3` else `2`, `m = p_size`), the table index at which `f_prep` records the shift
`m - 1 - k` is the concatenation of the low nibbles of the `B` block bytes with the most
recent byte first, `((P[k] & 0x0F) << 4(B-1)) | ... | (P[k-B+1] & 0x0F)`, so that `P[k]`
occupies the most significant nibble; the index is below `SHIFT_SZ` without masking, and
`f_prep` changes no other cell of `shift_min`. -/
theorem f_prep_records_shift_at (wm : WuManber) (pat_index : Nat) (P : List Byte)
    (hlen : wm.shift_min.length = SHIFT_SZ) :
    (∀ k, 1 + wm.use_bs3.toNat ≤ k → k < wm.p_size →
      shift_index wm.use_bs3 P k < SHIFT_SZ ∧
      (f_prep wm pat_index P).shift_min.getD (shift_index wm.use_bs3 P k) 0
        ≤ wm.p_size - 1 - k) ∧
    (∀ h, (f_prep wm pat_index P).shift_min.getD h 0 = wm.shift_min.getD h 0 ∨
      ∃ k, 1 + wm.use_bs3.toNat ≤ k ∧ k < wm.p_size ∧ h = shift_index wm.use_bs3 P k ∧
        (f_prep wm pat_index P).shift_min.getD h 0 = wm.p_size - 1 - k) := by
  refine ⟨?_, ?_⟩
  · intro k k1 k2
    rw [shift_index_eq, f_prep_shift_min]
    exact ⟨block_hash_lt _ _ _, f_prep_shift_block wm P wm.p_size wm.shift_min hlen k k1 k2⟩
  · intro h
    rw [f_prep_shift_min]
    rcases f_prep_shift_attained wm P wm.p_size wm.shift_min h with g | ⟨k, k1, k2, k3, k4⟩
    · left; exact g
    · right; exact ⟨k, k1, k2, by rw [shift_index_eq, k3], k4⟩

/-- C14, amended, at the handle on which `wm_search_prep_pat` runs `f_prep` for the pattern
list `["abcd"]` (`m = 4`, two-byte blocks, every cell of `shift_min` at the default 2), and
the pattern `"abcd"`: the result of `f_prep` there is the result of `wm_search_prep_pat`; the
shifts 1 and 0 of the blocks `"bc"` and `"cd"` are recorded at the indices `0x32 = 50` and
`0x43 = 67`, the most recent byte first, and the cells `0x23 = 35` and `0x34 = 52` keep the
default 2. -/
theorem f_prep_records_shift_at_witness :
    (prep_pat_before_f_prep wm_calloc [[97, 98, 99, 100]] false).shift_min.length = SHIFT_SZ ∧
    ((∀ k, 1 + (prep_pat_before_f_prep wm_calloc [[97, 98, 99, 100]] false).use_bs3.toNat ≤ k →
        k < (prep_pat_before_f_prep wm_calloc [[97, 98, 99, 100]] false).p_size →
      shift_index (prep_pat_before_f_prep wm_calloc [[97, 98, 99, 100]] false).use_bs3
          [97, 98, 99, 100] k < SHIFT_SZ ∧
      (f_prep (prep_pat_before_f_prep wm_calloc [[97, 98, 99, 100]] false) 1
          [97, 98, 99, 100]).shift_min.getD
          (shift_index (prep_pat_before_f_prep wm_calloc [[97, 98, 99, 100]] false).use_bs3
            [97, 98, 99, 100] k) 0
        ≤ (prep_pat_before_f_prep wm_calloc [[97, 98, 99, 100]] false).p_size - 1 - k) ∧
    (∀ h, (f_prep (prep_pat_before_f_prep wm_calloc [[97, 98, 99, 100]] false) 1
          [97, 98, 99, 100]).shift_min.getD h 0
        = (prep_pat_before_f_prep wm_calloc [[97, 98, 99, 100]] false).shift_min.getD h 0 ∨
      ∃ k, 1 + (prep_pat_before_f_prep wm_calloc [[97, 98, 99, 100]] false).use_bs3.toNat ≤ k ∧
        k < (prep_pat_before_f_prep wm_calloc [[97, 98, 99, 100]] false).p_size ∧
        h = shift_index (prep_pat_before_f_prep wm_calloc [[97, 98, 99, 100]] false).use_bs3
          [97, 98, 99, 100] k ∧
        (f_prep (prep_pat_before_f_prep wm_calloc [[97, 98, 99, 100]] false) 1
            [97, 98, 99, 100]).shift_min.getD h 0
          = (prep_pat_before_f_prep wm_calloc [[97, 98, 99, 100]] false).p_size - 1 - k)) ∧
    wm_search_prep_pat wm_calloc [[97, 98, 99, 100]] false
      = Except.ok (f_prep (prep_pat_before_f_prep wm_calloc [[97, 98, 99, 100]] false) 1
          [97, 98, 99, 100]) ∧
    (prep_pat_before_f_prep wm_calloc [[97, 98, 99, 100]] false).p_size = 4 ∧
    (prep_pat_before_f_prep wm_calloc [[97, 98, 99, 100]] false).use_bs3 = false ∧
    (prep_pat_before_f_prep wm_calloc [[97, 98, 99, 100]] false).shift_min.getD 50 0 = 2 ∧
    (prep_pat_before_f_prep wm_calloc [[97, 98, 99, 100]] false).shift_min.getD 67 0 = 2 ∧
    shift_index false [97, 98, 99, 100] 2 = 50 ∧
    shift_index false [97, 98, 99, 100] 3 = 67 ∧
    spec_shift_index false [97, 98, 99, 100] 2 = 35 ∧
    spec_shift_index false [97, 98, 99, 100] 3 = 52 ∧
    (f_prep (prep_pat_before_f_prep wm_calloc [[97, 98, 99, 100]] false) 1
      [97, 98, 99, 100]).shift_min.getD 50 0 = 1 ∧
    (f_prep (prep_pat_before_f_prep wm_calloc [[97, 98, 99, 100]] false) 1
      [97, 98, 99, 100]).shift_min.getD 67 0 = 0 ∧
    (f_prep (prep_pat_before_f_prep wm_calloc [[97, 98, 99, 100]] false) 1
      [97, 98, 99, 100]).shift_min.getD 35 0 = 2 ∧
    (f_prep (prep_pat_before_f_prep wm_calloc [[97, 98, 99, 100]] false) 1
      [97, 98, 99, 100]).shift_min.getD 52 0 = 2 :=
  ⟨List.length_replicate _ _,
    f_prep_records_shift_at (prep_pat_before_f_prep wm_calloc [[97, 98, 99, 100]] false) 1
      [97, 98, 99, 100] (List.length_replicate _ _),
    rfl, by decide, by decide, by decide, by decide, by decide, by decide, by decide, by decide,
    by decide, by decide, by decide, by decide⟩

theorem prep_pat_before_f_prep_fold (wm : WuManber) (pats : List (List Byte)) (nocase : Bool)
    (h : (prep_pat_before_f_prep wm pats nocase).p_size ≠ 0) :
    wm_search_prep_pat wm pats nocase
      = Except.ok ((List.range' 1 pats.length).foldl (fun w i => f_prep w i (w.patt.getD i []))
          (prep_pat_before_f_prep wm pats nocase)) := by
  unfold wm_search_prep_pat
  unfold prep_pat_before_f_prep at h
  simp only at h
  simp only [if_neg h]
  rfl

/-! ## The hash chains -/

theorem f_prep_hash_mod (wm : WuManber) (Mask : Nat) (P : List Byte) (n : Nat) :
    ∀ hash, f_prep_hash wm Mask P n hash % 4096
      = (hash * 16 ^ n + ((List.range n).map
          (fun k => (wm.tr.getD (P.getD k 0).val 0 &&& Mask) <<< (4 * k))).sum) % 4096 := by
  induction n with
  | zero => intro hash; simp [f_prep_hash]
  | succ n ih =>
    intro hash
    simp only [f_prep_hash]
    rw [ih, List.range_succ, List.map_append, List.sum_append]
    simp only [List.map_cons, List.map_nil, List.sum_cons, List.sum_nil, Nat.add_zero,
      Nat.shiftLeft_eq]
    have hmod : ((hash * 2 ^ 4 + (wm.tr.getD (P.getD n 0).val 0 &&& Mask)) % 2 ^ 32) % 4096
        = (hash * 2 ^ 4 + (wm.tr.getD (P.getD n 0).val 0 &&& Mask)) % 4096 :=
      Nat.mod_mod_of_dvd _ (by norm_num)
    have hpow : (2 : Nat) ^ (4 * n) = 16 ^ n := by
      rw [pow_mul]; norm_num
    rw [hpow]
    have e : hash * 16 ^ (n + 1)
        + (((List.range n).map
            (fun k => (wm.tr.getD (P.getD k 0).val 0 &&& Mask) * 2 ^ (4 * k))).sum
          + (wm.tr.getD (P.getD n 0).val 0 &&& Mask) * 16 ^ n)
        = (hash * 2 ^ 4 + (wm.tr.getD (P.getD n 0).val 0 &&& Mask)) * 16 ^ n
          + ((List.range n).map
            (fun k => (wm.tr.getD (P.getD k 0).val 0 &&& Mask) * 2 ^ (4 * k))).sum := by
      ring
    rw [e]
    exact Nat.ModEq.add_right _ (Nat.ModEq.mul_right _ hmod)

theorem and_mask_eq_mod (x : Nat) : x &&& (4096 - 1) = x % 4096 := by
  have h := Nat.and_pow_two_sub_one_eq_mod x 12
  norm_num at h
  exact h

theorem pat_hash_of_eq_bucket (wm : WuManber) (P : List Byte) :
    pat_hash_of wm P = pat_bucket wm.tr (if wm.use_bs1 then 255 else 15) wm.p_size P := by
  unfold pat_hash_of pat_bucket PAT_HASH_SZ
  rw [and_mask_eq_mod, and_mask_eq_mod, f_prep_hash_mod]
  simp

/-- C15, as stated, fails: for the single pattern `"ab"` (`m = 2`, `Mask = 0x0F`) the bucket
by the formula with the shift `4 * (m - 1 - k)` is `0x12 = 18`, and the chain there is empty;
the index 1 lies in the chain of bucket `0x21 = 33`, the first byte in the lowest nibble. -/
theorem pattern_not_in_spec_bucket :
    ∃ wm, wm_search_prep_pat wm_calloc [[97, 98]] false = Except.ok wm ∧
      wm.p_size = 2 ∧ wm.use_bs1 = false ∧
      spec_pat_bucket wm.tr 15 2 [97, 98] = 18 ∧ wm.pat_hash.getD 18 [] = [] ∧
      pat_bucket wm.tr 15 2 [97, 98] = 33 ∧ wm.pat_hash.getD 33 [] = [1] := by
  obtain ⟨wm, h1, hp, _⟩ := prep_pat_ok wm_calloc [[97, 98]] false
  have hev : (match wm_search_prep_pat wm_calloc [[97, 98]] false with
      | Except.ok wm => (wm.p_size, wm.use_bs1, wm.pat_hash.getD 18 [], wm.pat_hash.getD 33 [])
      | Except.error _ => (0, true, [], [])) = (2, false, [], [1]) := by decide
  rw [h1] at hev
  simp only [Prod.mk.injEq] at hev
  obtain ⟨e1, e2, e3, e4⟩ := hev
  refine ⟨wm, h1, e1, e2, ?_, e3, ?_, e4⟩
  · rw [hp.tr_eq]; decide
  · rw [hp.tr_eq]; decide

/-- C15, amended: after `wm_search_prep_pat` on any pattern list with window size `m`, every
index `i` in `[1, n_pat]` occurs in exactly one chain of `pat_hash`, exactly once, no other
index occurs in any chain, and the chain of index `i` is the one of the bucket
`H' = (sum over k = 0 .. m-1 of (tr[p_i[k]] & Mask) << (4 * k)) & (PAT_HASH_SZ - 1)`, the
first byte in the least significant place, with `Mask = 0x0F` for the 2- and 3-byte variants
and `Mask = 0xFF` when `use_bs1` is set. -/
theorem pat_hash_chains (w0 : WuManber) (pats : List (List Byte)) (nocase : Bool) :
    ∃ wm, wm_search_prep_pat w0 pats nocase = Except.ok wm ∧
      (∀ i, 1 ≤ i → i ≤ pats.length →
        pat_bucket wm.tr (if wm.use_bs1 then 255 else 15) wm.p_size (pats.getD (i - 1) [])
          < PAT_HASH_SZ ∧
        List.count i (wm.pat_hash.getD
          (pat_bucket wm.tr (if wm.use_bs1 then 255 else 15) wm.p_size (pats.getD (i - 1) []))
          []) = 1 ∧
        ∀ h, h ≠ pat_bucket wm.tr (if wm.use_bs1 then 255 else 15) wm.p_size
            (pats.getD (i - 1) []) → i ∉ wm.pat_hash.getD h []) ∧
      (∀ h x, x ∈ wm.pat_hash.getD h [] → 1 ≤ x ∧ x ≤ pats.length) := by
  obtain ⟨wm, h1, hp, _⟩ := prep_pat_ok w0 pats nocase
  refine ⟨wm, h1, ?_, ?_⟩
  · intro i i1 i2
    have hb : pat_hash_of wm (wm.patt.getD i [])
        = pat_bucket wm.tr (if wm.use_bs1 then 255 else 15) wm.p_size (pats.getD (i - 1) []) := by
      rw [pat_hash_of_eq_bucket, prepared_patt hp i i1]
    refine ⟨?_, ?_, ?_⟩
    · rw [← hb]; exact pat_hash_of_lt _ _
    · rw [← hb, hp.chain]
      have hnd : ((List.range' 1 pats.length).filter (fun j =>
          decide (pat_hash_of wm (wm.patt.getD j []) = pat_hash_of wm (wm.patt.getD i [])))
          ).reverse.Nodup :=
        List.nodup_reverse.2 ((List.nodup_range' 1 pats.length).filter _)
      rw [List.count_eq_of_nodup hnd, if_pos]
      rw [List.mem_reverse, List.mem_filter, mem_range'_one]
      exact ⟨⟨i1, i2⟩, by simp⟩
    · intro h hh hmem
      rw [hp.chain, List.mem_reverse, List.mem_filter, decide_eq_true_eq] at hmem
      exact hh (by rw [← hb]; exact hmem.2.symm)
  · intro h x hx
    exact chain_mem_range hp ⟨h, hx⟩

/-! ## Reports at one offset -/

/-- C12: `one_match_per_offset` has no effect in the single-byte variant.  With the flag set
(and `one_match_per_line` off), the patterns `["a", "ab"]` and the NUL-terminated text `"ab"`
(`end = 2`), the scan of `wm_bs1` reports both `(2, 0)` and `(1, 0)`: two reports with the
same offset. -/
theorem wm_bs1_reports_twice_at_one_offset :
    scan_calls_with [[97], [97, 98]] false false true [97, 98, 0] 2
      = some [(2, 0), (1, 0)] := by
  decide

theorem wm_bs3_chain_desc (wm : WuManber) (T : List Byte) (e : Nat) (hcb : wm.cb = true) :
    ∀ (chain : List Nat) (t : Nat) (M : Bool) (s : Scan), chain.Pairwise (fun a b => b < a) →
      ∃ new : List (Nat × Nat),
        (wm_bs3_chain wm T e chain t M s).scan.calls = s.calls ++ new ∧
        t ≤ (wm_bs3_chain wm T e chain t M s).text ∧
        (∀ r ∈ new, r.1 ∈ chain ∧ t - (wm.p_size - 1) ≤ r.2 ∧
          r.2 ≤ (wm_bs3_chain wm T e chain t M s).text - (wm.p_size - 1)) ∧
        new.Pairwise (fun a b => a.2 ≤ b.2 ∧ b.1 < a.1) := by
  intro chain
  induction chain with
  | nil =>
    intro t M s _
    exact ⟨[], by simp [wm_bs3_chain], by simp [wm_bs3_chain], by simp, List.Pairwise.nil⟩
  | cons idx p ih =>
    intro t M s hpw
    obtain ⟨hhead, htail⟩ := List.pairwise_cons.1 hpw
    rw [wm_bs3_chain_cons]
    have hnil : ∃ new : List (Nat × Nat),
        s.calls = s.calls ++ new ∧ t ≤ t ∧
        (∀ r ∈ new, r.1 ∈ idx :: p ∧ t - (wm.p_size - 1) ≤ r.2 ∧
          r.2 ≤ t - (wm.p_size - 1)) ∧
        new.Pairwise (fun a b => a.2 ≤ b.2 ∧ b.1 < a.1) :=
      ⟨[], by simp, le_refl _, by simp, List.Pairwise.nil⟩
    have hskip : t ≤ (if wm.one_match_per_line then skip_line (T.drop t) t else t) := by
      split
      · exact skip_line_ge _ _
      · exact le_refl _
    split
    · exact hnil
    · split
      · split
        · refine ⟨[(idx, t - (wm.p_size - 1))], report_calls wm hcb _ _ _, hskip, ?_,
            List.pairwise_singleton _ _⟩
          intro r hr
          rw [List.mem_singleton] at hr
          subst hr
          exact ⟨List.mem_cons_self _ _, le_refl _, Nat.sub_le_sub_right hskip _⟩
        · obtain ⟨new, h1, h3, h4, h5⟩ := ih
            (if wm.one_match_per_line then skip_line (T.drop t) t else t) true
            (report wm s idx (t - (wm.p_size - 1))) htail
          refine ⟨(idx, t - (wm.p_size - 1)) :: new, ?_, le_trans hskip h3, ?_, ?_⟩
          · rw [h1, report_calls wm hcb]; simp
          · intro r hr
            rcases List.mem_cons.1 hr with rfl | hr
            · exact ⟨List.mem_cons_self _ _, le_refl _,
                Nat.sub_le_sub_right (le_trans hskip h3) _⟩
            · obtain ⟨g1, g2, g3⟩ := h4 r hr
              exact ⟨List.mem_cons_of_mem _ g1,
                le_trans (Nat.sub_le_sub_right hskip _) g2, g3⟩
          · refine List.Pairwise.cons ?_ h5
            intro r hr
            obtain ⟨g1, g2, _⟩ := h4 r hr
            exact ⟨le_trans (Nat.sub_le_sub_right hskip _) g2, hhead _ g1⟩
      · split
        · exact hnil
        · obtain ⟨new, h1, h3, h4, h5⟩ := ih t M s htail
          refine ⟨new, h1, h3, ?_, h5⟩
          intro r hr
          obtain ⟨g1, g2⟩ := h4 r hr
          exact ⟨List.mem_cons_of_mem _ g1, g2⟩

theorem wm_bs3_loop_desc (wm : WuManber) (T : List Byte) (e : Nat) (hcb : wm.cb = true)
    (hch : ∀ h, (wm.pat_hash.getD h []).Pairwise (fun a b => b < a)) :
    ∀ (fuel t : Nat) (s : Scan), wm.p_size - 1 ≤ t →
      ∃ new : List (Nat × Nat),
        (wm_bs3_loop wm T e fuel t s).calls = s.calls ++ new ∧
        (∀ r ∈ new, t ≤ r.2 + (wm.p_size - 1)) ∧
        new.Pairwise (fun a b => a.2 < b.2 ∨ (a.2 = b.2 ∧ b.1 < a.1)) := by
  intro fuel
  induction fuel with
  | zero =>
    intro t s _
    exact ⟨[], by simp [wm_bs3_loop], by simp, List.Pairwise.nil⟩
  | succ fuel ih =>
    intro t s ht
    rw [wm_bs3_loop_succ]
    obtain ⟨new1, c1, c3, c4, c5⟩ := wm_bs3_chain_desc wm T e hcb
      (wm.pat_hash.getD (text_pat_hash wm T t) []) t false s (hch _)
    have c5' : new1.Pairwise (fun a b => a.2 < b.2 ∨ (a.2 = b.2 ∧ b.1 < a.1)) := by
      refine c5.imp ?_
      intro a b hab
      rcases Nat.lt_or_eq_of_le hab.1 with h | h
      · exact Or.inl h
      · exact Or.inr ⟨h, hab.2⟩
    split
    · split
      · split
        · refine ⟨new1, c1, ?_, c5'⟩
          intro r hr
          have := (c4 r hr).2.1
          omega
        · obtain ⟨new2, d1, d3, d4⟩ := ih
            ((wm_bs3_chain wm T e (wm.pat_hash.getD (text_pat_hash wm T t) []) t false s).text + 1)
            (wm_bs3_chain wm T e (wm.pat_hash.getD (text_pat_hash wm T t) []) t false s).scan
            (by omega)
          refine ⟨new1 ++ new2, ?_, ?_, ?_⟩
          · rw [d1, c1, List.append_assoc]
          · intro r hr
            rcases List.mem_append.1 hr with hr | hr
            · have := (c4 r hr).2.1
              omega
            · have := d3 r hr
              omega
          · rw [List.pairwise_append]
            refine ⟨c5', d4, ?_⟩
            intro a ha b hb
            have := (c4 a ha).2.2
            have := d3 b hb
            left
            omega
      · obtain ⟨new2, d1, d3, d4⟩ := ih
          (t + wm.shift_min.getD (text_block_hash wm T t) 0) s (by omega)
        refine ⟨new2, d1, ?_, d4⟩
        intro r hr
        have := d3 r hr
        omega
    · exact ⟨[], by simp, by simp, List.Pairwise.nil⟩

theorem wm_bs1_chain_desc (wm : WuManber) (T : List Byte) (e : Nat) (hcb : wm.cb = true) :
    ∀ (chain : List Nat) (t : Nat) (M : Bool) (s : Scan), chain.Pairwise (fun a b => b < a) →
      ∃ new : List (Nat × Nat),
        (wm_bs1_chain wm T e chain t M s).scan.calls = s.calls ++ new ∧
        t ≤ (wm_bs1_chain wm T e chain t M s).text ∧
        (∀ r ∈ new, r.1 ∈ chain ∧ t ≤ r.2 ∧ r.2 ≤ (wm_bs1_chain wm T e chain t M s).text) ∧
        new.Pairwise (fun a b => a.2 ≤ b.2 ∧ b.1 < a.1) := by
  intro chain
  induction chain with
  | nil =>
    intro t M s _
    exact ⟨[], by simp [wm_bs1_chain], by simp [wm_bs1_chain], by simp, List.Pairwise.nil⟩
  | cons idx p ih =>
    intro t M s hpw
    obtain ⟨hhead, htail⟩ := List.pairwise_cons.1 hpw
    rw [wm_bs1_chain_cons]
    have hnil : ∃ new : List (Nat × Nat),
        s.calls = s.calls ++ new ∧ t ≤ t ∧
        (∀ r ∈ new, r.1 ∈ idx :: p ∧ t ≤ r.2 ∧ r.2 ≤ t) ∧
        new.Pairwise (fun a b => a.2 ≤ b.2 ∧ b.1 < a.1) :=
      ⟨[], by simp, le_refl _, by simp, List.Pairwise.nil⟩
    have hskip : t ≤ (if wm.one_match_per_line then skip_line (T.drop t) t else t) := by
      split
      · exact skip_line_ge _ _
      · exact le_refl _
    split
    · split
      · exact hnil
      · split
        · refine ⟨[(idx, t)], report_calls wm hcb _ _ _, hskip, ?_,
            List.pairwise_singleton _ _⟩
          intro r hr
          rw [List.mem_singleton] at hr
          subst hr
          exact ⟨List.mem_cons_self _ _, le_refl _, hskip⟩
        · obtain ⟨new, h1, h3, h4, h5⟩ := ih
            (if wm.one_match_per_line then skip_line (T.drop t) t else t) M
            (report wm s idx t) htail
          refine ⟨(idx, t) :: new, ?_, le_trans hskip h3, ?_, ?_⟩
          · rw [h1, report_calls wm hcb]; simp
          · intro r hr
            rcases List.mem_cons.1 hr with rfl | hr
            · exact ⟨List.mem_cons_self _ _, le_refl _, le_trans hskip h3⟩
            · obtain ⟨g1, g2, g3⟩ := h4 r hr
              exact ⟨List.mem_cons_of_mem _ g1, le_trans hskip g2, g3⟩
          · refine List.Pairwise.cons ?_ h5
            intro r hr
            obtain ⟨g1, g2, _⟩ := h4 r hr
            exact ⟨le_trans hskip g2, hhead _ g1⟩
    · split
      · exact hnil
      · obtain ⟨new, h1, h3, h4, h5⟩ := ih t M s htail
        refine ⟨new, h1, h3, ?_, h5⟩
        intro r hr
        obtain ⟨g1, g2⟩ := h4 r hr
        exact ⟨List.mem_cons_of_mem _ g1, g2⟩

theorem wm_bs1_loop_desc (wm : WuManber) (T : List Byte) (e : Nat) (hcb : wm.cb = true)
    (hch : ∀ h, (wm.pat_hash.getD h []).Pairwise (fun a b => b < a)) :
    ∀ (fuel t : Nat) (s : Scan),
      ∃ new : List (Nat × Nat),
        (wm_bs1_loop wm T e fuel t s).calls = s.calls ++ new ∧
        (∀ r ∈ new, t ≤ r.2) ∧
        new.Pairwise (fun a b => a.2 < b.2 ∨ (a.2 = b.2 ∧ b.1 < a.1)) := by
  intro fuel
  induction fuel with
  | zero =>
    intro t s
    exact ⟨[], by simp [wm_bs1_loop], by simp, List.Pairwise.nil⟩
  | succ fuel ih =>
    intro t s
    rw [wm_bs1_loop_succ]
    obtain ⟨new1, c1, c3, c4, c5⟩ := wm_bs1_chain_desc wm T e hcb
      (wm.pat_hash.getD (T.getD t 0).val []) t false s (hch _)
    have c5' : new1.Pairwise (fun a b => a.2 < b.2 ∨ (a.2 = b.2 ∧ b.1 < a.1)) := by
      refine c5.imp ?_
      intro a b hab
      rcases Nat.lt_or_eq_of_le hab.1 with h | h
      · exact Or.inl h
      · exact Or.inr ⟨h, hab.2⟩
    split
    · split
      · exact ⟨new1, c1, fun r hr => (c4 r hr).2.1, c5'⟩
      · obtain ⟨new2, d1, d3, d4⟩ := ih
          ((wm_bs1_chain wm T e (wm.pat_hash.getD (T.getD t 0).val []) t false s).text + 1)
          (wm_bs1_chain wm T e (wm.pat_hash.getD (T.getD t 0).val []) t false s).scan
        refine ⟨new1 ++ new2, ?_, ?_, ?_⟩
        · rw [d1, c1, List.append_assoc]
        · intro r hr
          rcases List.mem_append.1 hr with hr | hr
          · exact (c4 r hr).2.1
          · have := d3 r hr
            omega
        · rw [List.pairwise_append]
          refine ⟨c5', d4, ?_⟩
          intro a ha b hb
          have := (c4 a ha).2.2
          have := d3 b hb
          left
          omega
    · exact ⟨[], by simp, by simp, List.Pairwise.nil⟩

theorem chain_desc {pats : List (List Byte)} {nocase : Bool} {wm : WuManber}
    (hp : Prepared pats nocase wm) (h : Nat) :
    (wm.pat_hash.getD h []).Pairwise (fun a b => b < a) := by
  rw [hp.chain, List.pairwise_reverse]
  exact (List.pairwise_lt_range' 1 pats.length).filter _

theorem search_text_desc {pats : List (List Byte)} {nocase : Bool} {wm : WuManber}
    (hp : Prepared pats nocase wm) (T : List Byte) (e : Nat) :
    (wm_search_text wm (some T) e true).calls.Pairwise
      (fun a b => a.2 < b.2 ∨ (a.2 = b.2 ∧ b.1 < a.1)) := by
  have hpa : Prepared pats nocase (armed wm) :=
    prepared_congr hp rfl rfl rfl rfl rfl rfl rfl rfl rfl rfl rfl
  rw [search_text_calls]
  by_cases hb : wm.use_bs1 = true
  · rw [if_pos hb]
    obtain ⟨new, h1, _, h3⟩ := wm_bs1_loop_desc (armed wm) T e rfl (chain_desc hpa) (e + 1) 0
      { n_matches := 0, calls := [] }
    have hc : (wm_bs1 (armed wm) T e { n_matches := 0, calls := [] }).calls = new := by
      unfold wm_bs1; rw [h1]; rfl
    rw [hc]; exact h3
  · rw [if_neg hb]
    obtain ⟨new, h1, _, h3⟩ := wm_bs3_loop_desc (armed wm) T e rfl (chain_desc hpa) (e + 1)
      ((armed wm).p_size - 1) { n_matches := 0, calls := [] } (le_refl _)
    have hc : (wm_bs3 (armed wm) T e { n_matches := 0, calls := [] }).calls = new := by
      unfold wm_bs3; rw [h1]; rfl
    rw [hc]; exact h3

theorem sublist_pair_of_mem {α : Type} (l : List α) (a b : α) (hne : a ≠ b) :
    a ∈ l → b ∈ l → List.Sublist [a, b] l ∨ List.Sublist [b, a] l := by
  induction l with
  | nil => intro h; simp at h
  | cons x l ih =>
    intro ha hb
    rcases List.mem_cons.1 ha with rfl | ha'
    · rcases List.mem_cons.1 hb with h | hb'
      · exact absurd h.symm hne
      · left
        exact List.Sublist.cons₂ _ (List.singleton_sublist.2 hb')
    · rcases List.mem_cons.1 hb with rfl | hb'
      · right
        exact List.Sublist.cons₂ _ (List.singleton_sublist.2 ha')
      · rcases ih ha' hb' with h | h
        · left; exact List.Sublist.cons _ h
        · right; exact List.Sublist.cons _ h

/-- C18: the order of reports within one offset.  For every pattern list, either case mode,
every text and every setting of the flags (in particular with both flags off): reports with
the same offset carry strictly decreasing pattern indices, so that of two reports `(i, o)`
and `(j, o)` with `i < j` the report `(j, o)` precedes the report `(i, o)`.  For the patterns
`["abc", "abcd", "bcd"]` and the text `"xabcdx"` (NUL-terminated with `end = 6`, or taken with
`end = 5`) the report sequence is `(2, 1), (1, 1), (3, 2)`. -/
theorem reports_at_one_offset_descend :
    (∀ (pats : List (List Byte)) (nocase one_match_per_line one_match_per_offset : Bool)
        (T : List Byte) (e : Nat),
      ∃ wm, wm_search_init pats nocase = Except.ok wm ∧
        (wm_search_text (set_flags wm one_match_per_line one_match_per_offset)
          (some T) e true).calls.Pairwise (fun r1 r2 => r1.2 = r2.2 → r2.1 < r1.1) ∧
        ∀ i j o, i < j →
          (i, o) ∈ (wm_search_text (set_flags wm one_match_per_line one_match_per_offset)
            (some T) e true).calls →
          (j, o) ∈ (wm_search_text (set_flags wm one_match_per_line one_match_per_offset)
            (some T) e true).calls →
          List.Sublist [(j, o), (i, o)]
            (wm_search_text (set_flags wm one_match_per_line one_match_per_offset)
              (some T) e true).calls) ∧
    scan_calls [[97, 98, 99], [97, 98, 99, 100], [98, 99, 100]] false
      [120, 97, 98, 99, 100, 120, 0] 6 = some [(2, 1), (1, 1), (3, 2)] ∧
    scan_calls [[97, 98, 99], [97, 98, 99, 100], [98, 99, 100]] false
      [120, 97, 98, 99, 100, 120] 5 = some [(2, 1), (1, 1), (3, 2)] := by
  refine ⟨?_, by decide, by decide⟩
  intro pats nocase a b T e
  obtain ⟨wm, h1, hp, _, _⟩ := init_ok pats nocase
  have hpw : (wm_search_text (set_flags wm a b) (some T) e true).calls.Pairwise
      (fun r1 r2 => r1.2 = r2.2 → r2.1 < r1.1) := by
    refine (search_text_desc (prepared_set_flags hp a b) T e).imp ?_
    intro r1 r2 h heq
    rcases h with h | h
    · omega
    · exact h.2
  refine ⟨wm, h1, hpw, ?_⟩
  intro i j o hij hi hj
  rcases sublist_pair_of_mem _ (j, o) (i, o) (by intro h; have := (Prod.mk.inj h).1; omega)
    hj hi with h | h
  · exact h
  · have := hpw.sublist h
    rw [List.pairwise_cons] at this
    have := this.1 (j, o) (List.mem_singleton_self _) rfl
    simp at this
    omega

/-! ## One match per line -/

theorem getD_drop (T : List Byte) (t k : Nat) : (T.drop t).getD k 0 = T.getD (t + k) 0 := by
  rw [List.getD_eq_getElem?_getD, List.getD_eq_getElem?_getD, List.getElem?_drop]

theorem skip_line_newline (l : List Byte) :
    ∀ t k, l.getD k 0 = 10 → l.getD (skip_line l t - t) 0 = 10 ∧ skip_line l t ≤ t + k := by
  induction l with
  | nil =>
    intro t k h
    have h0 : (0 : Byte) = 10 := h
    exact absurd h0 (by decide)
  | cons c rest ih =>
    intro t k h
    simp only [skip_line]
    split
    · rename_i hc
      cases k with
      | zero => exact absurd h hc
      | succ k' =>
        obtain ⟨g1, g2⟩ := ih (t + 1) k' h
        have hge := skip_line_ge rest (t + 1)
        have e1 : skip_line rest (t + 1) - t = (skip_line rest (t + 1) - (t + 1)) + 1 := by
          omega
        rw [e1]
        exact ⟨g1, by omega⟩
    · rename_i hc
      have hc' : c = 10 := by
        by_contra hne
        exact hc hne
      rw [Nat.sub_self]
      exact ⟨hc', Nat.le_add_right _ _⟩

theorem skip_text_newline (T : List Byte) (t n : Nat) (h1 : t ≤ n) (h2 : T.getD n 0 = 10) :
    T.getD (skip_line (T.drop t) t) 0 = 10 ∧ t ≤ skip_line (T.drop t) t ∧
      skip_line (T.drop t) t ≤ n := by
  have hk : (T.drop t).getD (n - t) 0 = 10 := by
    rw [getD_drop]
    have : t + (n - t) = n := by omega
    rw [this]; exact h2
  obtain ⟨g1, g2⟩ := skip_line_newline (T.drop t) t (n - t) hk
  have hge := skip_line_ge (T.drop t) t
  rw [getD_drop] at g1
  have e : t + (skip_line (T.drop t) t - t) = skip_line (T.drop t) t := by omega
  rw [e] at g1
  exact ⟨g1, hge, by omega⟩

theorem tr_eq_newline (nocase : Bool) (a : Byte)
    (h : (prep_tr nocase).getD a.val 0 = (prep_tr nocase).getD (10 : Byte).val 0) :
    a = 10 := by
  rw [prep_tr_getD, prep_tr_getD] at h
  have h10 : ((10 : Byte) : Nat) = 10 := rfl
  rw [h10] at h
  apply Fin.ext
  rw [h10]
  split at h <;> split at h <;> omega

theorem mode_eq_newline {nocase : Bool} {wm : WuManber} (htr : wm.tr = prep_tr nocase)
    {a b : Byte} (h : mode_eq wm.nocase wm.tr a b) (hb : b = 10) : a = 10 := by
  subst hb
  unfold mode_eq at h
  split at h
  · rw [htr] at h
    exact tr_eq_newline nocase a h
  · exact h

theorem getD_mem_of_lt (P : List Byte) (k : Nat) (h : k < P.length) : P.getD k 0 ∈ P := by
  rw [List.getD_eq_getElem _ _ h]
  exact List.getElem_mem _

theorem verify_no_newline {nocase : Bool} {wm : WuManber} (htr : wm.tr = prep_tr nocase)
    (T : List Byte) (idx qx l : Nat) (hv : bs3_verify wm T idx qx l = true)
    (hlen : l = (wm.patt.getD idx []).length) (hnl : (10 : Byte) ∉ wm.patt.getD idx []) :
    ∀ k, k < l → T.getD (qx + k) 0 ≠ 10 := by
  intro k hk hT
  have := (bs3_verify_iff wm T idx qx l).1 hv k hk
  have h10 := mode_eq_newline htr this hT
  exact hnl (by rw [← h10]; exact getD_mem_of_lt _ _ (by omega))

theorem wm_bs3_chain_on_newline {nocase : Bool} (wm : WuManber) (T : List Byte) (e : Nat)
    (htr : wm.tr = prep_tr nocase) (hps : 1 ≤ wm.p_size) (t : Nat)
    (ht : wm.p_size - 1 ≤ t) (hnl : T.getD t 0 = 10) :
    ∀ (chain : List Nat) (M : Bool) (s : Scan),
      (∀ idx ∈ chain, wm.p_size ≤ (wm.patt.getD idx []).length ∧
        wm.pat_len.getD idx 0 = (wm.patt.getD idx []).length ∧
        (10 : Byte) ∉ wm.patt.getD idx []) →
      (wm_bs3_chain wm T e chain t M s).scan = s ∧
      (wm_bs3_chain wm T e chain t M s).text = t := by
  intro chain
  induction chain with
  | nil => intro M s _; exact ⟨rfl, rfl⟩
  | cons idx p ih =>
    intro M s hgood
    obtain ⟨g1, g2, g3⟩ := hgood idx (List.mem_cons_self _ _)
    have hrest : ∀ i ∈ p, wm.p_size ≤ (wm.patt.getD i []).length ∧
        wm.pat_len.getD i 0 = (wm.patt.getD i []).length ∧
        (10 : Byte) ∉ wm.patt.getD i [] :=
      fun i hi => hgood i (List.mem_cons_of_mem _ hi)
    rw [wm_bs3_chain_cons]
    split
    · exact ⟨rfl, rfl⟩
    · split
      · rename_i hhit
        exfalso
        have := verify_no_newline htr T idx _ _ hhit.2 g2 g3 (wm.p_size - 1) (by omega)
        have e1 : t - (wm.p_size - 1) + (wm.p_size - 1) = t := by omega
        rw [e1] at this
        exact this hnl
      · split
        · exact ⟨rfl, rfl⟩
        · exact ih M s hrest

theorem wm_bs3_chain_line {nocase : Bool} (wm : WuManber) (T : List Byte) (e : Nat)
    (hcb : wm.cb = true) (hl : wm.one_match_per_line = true)
    (htr : wm.tr = prep_tr nocase) (hps : 1 ≤ wm.p_size)
    (hT : ∀ p, p < e → ∃ n, n < e ∧ p ≤ n ∧ T.getD n 0 = 10) (t : Nat)
    (ht : wm.p_size - 1 ≤ t) :
    ∀ (chain : List Nat) (M : Bool) (s : Scan),
      (∀ idx ∈ chain, wm.p_size ≤ (wm.patt.getD idx []).length ∧
        wm.pat_len.getD idx 0 = (wm.patt.getD idx []).length ∧
        (10 : Byte) ∉ wm.patt.getD idx []) →
      ∃ new : List (Nat × Nat),
        (wm_bs3_chain wm T e chain t M s).scan.calls = s.calls ++ new ∧
        t ≤ (wm_bs3_chain wm T e chain t M s).text ∧
        (new = [] ∨ ∃ idx, new = [(idx, t - (wm.p_size - 1))] ∧
          T.getD (wm_bs3_chain wm T e chain t M s).text 0 = 10 ∧
          ∀ k, k ≤ wm.p_size - 1 → T.getD (t - (wm.p_size - 1) + k) 0 ≠ 10) := by
  intro chain
  induction chain with
  | nil =>
    intro M s _
    exact ⟨[], by simp [wm_bs3_chain], by simp [wm_bs3_chain], Or.inl rfl⟩
  | cons idx p ih =>
    intro M s hgood
    obtain ⟨g1, g2, g3⟩ := hgood idx (List.mem_cons_self _ _)
    have hrest : ∀ i ∈ p, wm.p_size ≤ (wm.patt.getD i []).length ∧
        wm.pat_len.getD i 0 = (wm.patt.getD i []).length ∧
        (10 : Byte) ∉ wm.patt.getD i [] :=
      fun i hi => hgood i (List.mem_cons_of_mem _ hi)
    rw [wm_bs3_chain_cons]
    split
    · exact ⟨[], by simp, le_refl _, Or.inl rfl⟩
    · split
      · rename_i hhit
        have hte : t < e := by
          have := hhit.1
          omega
        obtain ⟨n, _, hn1, hn2⟩ := hT t hte
        obtain ⟨k1, k2, _⟩ := skip_text_newline T t n hn1 hn2
        have hwin : ∀ k, k ≤ wm.p_size - 1 → T.getD (t - (wm.p_size - 1) + k) 0 ≠ 10 :=
          fun k hk => verify_no_newline htr T idx _ _ hhit.2 g2 g3 k (by omega)
        split
        · exact ⟨[(idx, t - (wm.p_size - 1))], report_calls wm hcb _ _ _, k2,
            Or.inr ⟨idx, rfl, k1, hwin⟩⟩
        · obtain ⟨b1, b2⟩ := wm_bs3_chain_on_newline wm T e htr hps
            (skip_line (T.drop t) t) (by omega) k1 p true
            (report wm s idx (t - (wm.p_size - 1))) hrest
          rw [b1, b2]
          exact ⟨[(idx, t - (wm.p_size - 1))], report_calls wm hcb _ _ _, k2,
            Or.inr ⟨idx, rfl, k1, hwin⟩⟩
      · split
        · exact ⟨[], by simp, le_refl _, Or.inl rfl⟩
        · exact ih M s hrest

theorem wm_bs3_loop_line {nocase : Bool} (wm : WuManber) (T : List Byte) (e : Nat)
    (hcb : wm.cb = true) (hl : wm.one_match_per_line = true)
    (htr : wm.tr = prep_tr nocase) (hps : 1 ≤ wm.p_size)
    (hT : ∀ p, p < e → ∃ n, n < e ∧ p ≤ n ∧ T.getD n 0 = 10)
    (hgood : ∀ h, ∀ idx ∈ wm.pat_hash.getD h [],
      wm.p_size ≤ (wm.patt.getD idx []).length ∧
      wm.pat_len.getD idx 0 = (wm.patt.getD idx []).length ∧
      (10 : Byte) ∉ wm.patt.getD idx []) :
    ∀ (fuel t : Nat) (s : Scan), wm.p_size - 1 ≤ t →
      ∃ new : List (Nat × Nat),
        (wm_bs3_loop wm T e fuel t s).calls = s.calls ++ new ∧
        (∀ r ∈ new, t ≤ r.2 + (wm.p_size - 1) ∧
          ∀ k, k ≤ wm.p_size - 1 → T.getD (r.2 + k) 0 ≠ 10) ∧
        new.Pairwise (fun a b => ∃ n, a.2 ≤ n ∧ n < b.2 ∧ T.getD n 0 = 10) := by
  intro fuel
  induction fuel with
  | zero =>
    intro t s _
    exact ⟨[], by simp [wm_bs3_loop], by simp, List.Pairwise.nil⟩
  | succ fuel ih =>
    intro t s ht
    rw [wm_bs3_loop_succ]
    obtain ⟨new1, c1, c2, c3⟩ := wm_bs3_chain_line wm T e hcb hl htr hps hT t ht
      (wm.pat_hash.getD (text_pat_hash wm T t) []) false s (hgood _)
    split
    · split
      · split
        · refine ⟨new1, c1, ?_, ?_⟩
          · intro r hr
            rcases c3 with h | ⟨idx, h, _, hw⟩
            · rw [h] at hr; simp at hr
            · rw [h, List.mem_singleton] at hr
              subst hr
              exact ⟨by simp only; omega, hw⟩
          · rcases c3 with h | ⟨idx, h, _, _⟩
            · rw [h]; exact List.Pairwise.nil
            · rw [h]; exact List.pairwise_singleton _ _
        · obtain ⟨new2, d1, d2, d3⟩ := ih
            ((wm_bs3_chain wm T e (wm.pat_hash.getD (text_pat_hash wm T t) []) t false s).text + 1)
            (wm_bs3_chain wm T e (wm.pat_hash.getD (text_pat_hash wm T t) []) t false s).scan
            (by omega)
          refine ⟨new1 ++ new2, ?_, ?_, ?_⟩
          · rw [d1, c1, List.append_assoc]
          · intro r hr
            rcases List.mem_append.1 hr with hr | hr
            · rcases c3 with h | ⟨idx, h, _, hw⟩
              · rw [h] at hr; simp at hr
              · rw [h, List.mem_singleton] at hr
                subst hr
                exact ⟨by simp only; omega, hw⟩
            · obtain ⟨g1, g2⟩ := d2 r hr
              exact ⟨by omega, g2⟩
          · rw [List.pairwise_append]
            refine ⟨?_, d3, ?_⟩
            · rcases c3 with h | ⟨idx, h, _, _⟩
              · rw [h]; exact List.Pairwise.nil
              · rw [h]; exact List.pairwise_singleton _ _
            · intro a ha b hb
              rcases c3 with h | ⟨idx, h, hn, _⟩
              · rw [h] at ha; simp at ha
              · rw [h, List.mem_singleton] at ha
                subst ha
                obtain ⟨g1, g2⟩ := d2 b hb
                refine ⟨_, ?_, ?_, hn⟩
                · simp only; omega
                · by_contra hlt
                  have hk := g2 ((wm_bs3_chain wm T e
                    (wm.pat_hash.getD (text_pat_hash wm T t) []) t false s).text - b.2)
                    (by omega)
                  have e1 : b.2 + ((wm_bs3_chain wm T e
                      (wm.pat_hash.getD (text_pat_hash wm T t) []) t false s).text - b.2)
                      = (wm_bs3_chain wm T e
                      (wm.pat_hash.getD (text_pat_hash wm T t) []) t false s).text := by omega
                  rw [e1] at hk
                  exact hk hn
      · obtain ⟨new2, d1, d2, d3⟩ := ih
          (t + wm.shift_min.getD (text_block_hash wm T t) 0) s (by omega)
        refine ⟨new2, d1, ?_, d3⟩
        intro r hr
        obtain ⟨g1, g2⟩ := d2 r hr
        exact ⟨by omega, g2⟩
    · exact ⟨[], by simp, by simp, List.Pairwise.nil⟩

theorem compare_no_newline {nocase : Bool} {wm : WuManber} (htr : wm.tr = prep_tr nocase)
    (T : List Byte) (idx t : Nat) (hnl : (10 : Byte) ∉ wm.patt.getD idx [])
    (hlen : 1 ≤ (wm.patt.getD idx []).length)
    (hhit : 1 ≤ bs1_compare wm T idx t ((wm.patt.getD idx []).length + 1) 0) :
    T.getD t 0 ≠ 10 := by
  intro hT
  have h := (bs1_compare_spec wm T idx t ((wm.patt.getD idx []).length + 1) 0).2.2.1 0
    (Nat.le_refl 0) (by omega)
  rw [Nat.add_zero, hT, htr] at h
  have h10 := tr_eq_newline nocase _ h
  exact hnl (by rw [← h10]; exact getD_mem_of_lt _ _ (by omega))

theorem wm_bs1_chain_on_newline {nocase : Bool} (wm : WuManber) (T : List Byte) (e : Nat)
    (htr : wm.tr = prep_tr nocase) (t : Nat) (hnl : T.getD t 0 = 10) :
    ∀ (chain : List Nat) (M : Bool) (s : Scan),
      (∀ idx ∈ chain, 1 ≤ (wm.patt.getD idx []).length ∧
        wm.pat_len.getD idx 0 = (wm.patt.getD idx []).length ∧
        (10 : Byte) ∉ wm.patt.getD idx []) →
      (wm_bs1_chain wm T e chain t M s).scan = s ∧
      (wm_bs1_chain wm T e chain t M s).text = t := by
  intro chain
  induction chain with
  | nil => intro M s _; exact ⟨rfl, rfl⟩
  | cons idx p ih =>
    intro M s hgood
    obtain ⟨g1, g2, g3⟩ := hgood idx (List.mem_cons_self _ _)
    have hrest : ∀ i ∈ p, 1 ≤ (wm.patt.getD i []).length ∧
        wm.pat_len.getD i 0 = (wm.patt.getD i []).length ∧
        (10 : Byte) ∉ wm.patt.getD i [] :=
      fun i hi => hgood i (List.mem_cons_of_mem _ hi)
    rw [wm_bs1_chain_cons]
    split
    · rename_i hhit
      exfalso
      exact compare_no_newline htr T idx t g3 g1 (by omega) hnl
    · split
      · exact ⟨rfl, rfl⟩
      · exact ih M s hrest

theorem wm_bs1_chain_line {nocase : Bool} (wm : WuManber) (T : List Byte) (e : Nat)
    (hcb : wm.cb = true) (hl : wm.one_match_per_line = true)
    (htr : wm.tr = prep_tr nocase)
    (hT : ∀ p, p < e → ∃ n, n < e ∧ p ≤ n ∧ T.getD n 0 = 10) (t : Nat) :
    ∀ (chain : List Nat) (M : Bool) (s : Scan),
      (∀ idx ∈ chain, 1 ≤ (wm.patt.getD idx []).length ∧
        wm.pat_len.getD idx 0 = (wm.patt.getD idx []).length ∧
        (10 : Byte) ∉ wm.patt.getD idx []) →
      ∃ new : List (Nat × Nat),
        (wm_bs1_chain wm T e chain t M s).scan.calls = s.calls ++ new ∧
        t ≤ (wm_bs1_chain wm T e chain t M s).text ∧
        (new = [] ∨ ∃ idx, new = [(idx, t)] ∧
          T.getD (wm_bs1_chain wm T e chain t M s).text 0 = 10) := by
  intro chain
  induction chain with
  | nil =>
    intro M s _
    exact ⟨[], by simp [wm_bs1_chain], by simp [wm_bs1_chain], Or.inl rfl⟩
  | cons idx p ih =>
    intro M s hgood
    obtain ⟨g1, g2, g3⟩ := hgood idx (List.mem_cons_self _ _)
    have hrest : ∀ i ∈ p, 1 ≤ (wm.patt.getD i []).length ∧
        wm.pat_len.getD i 0 = (wm.patt.getD i []).length ∧
        (10 : Byte) ∉ wm.patt.getD i [] :=
      fun i hi => hgood i (List.mem_cons_of_mem _ hi)
    rw [wm_bs1_chain_cons]
    split
    · split
      · exact ⟨[], by simp, le_refl _, Or.inl rfl⟩
      · rename_i hte
        obtain ⟨n, _, hn1, hn2⟩ := hT t (by omega)
        obtain ⟨k1, k2, _⟩ := skip_text_newline T t n hn1 hn2
        split
        · exact ⟨[(idx, t)], report_calls wm hcb _ _ _, k2, Or.inr ⟨idx, rfl, k1⟩⟩
        · obtain ⟨b1, b2⟩ := wm_bs1_chain_on_newline wm T e htr
            (skip_line (T.drop t) t) k1 p M (report wm s idx t) hrest
          rw [b1, b2]
          exact ⟨[(idx, t)], report_calls wm hcb _ _ _, k2, Or.inr ⟨idx, rfl, k1⟩⟩
    · split
      · exact ⟨[], by simp, le_refl _, Or.inl rfl⟩
      · exact ih M s hrest

theorem wm_bs1_loop_line {nocase : Bool} (wm : WuManber) (T : List Byte) (e : Nat)
    (hcb : wm.cb = true) (hl : wm.one_match_per_line = true)
    (htr : wm.tr = prep_tr nocase)
    (hT : ∀ p, p < e → ∃ n, n < e ∧ p ≤ n ∧ T.getD n 0 = 10)
    (hgood : ∀ h, ∀ idx ∈ wm.pat_hash.getD h [],
      1 ≤ (wm.patt.getD idx []).length ∧
      wm.pat_len.getD idx 0 = (wm.patt.getD idx []).length ∧
      (10 : Byte) ∉ wm.patt.getD idx []) :
    ∀ (fuel t : Nat) (s : Scan),
      ∃ new : List (Nat × Nat),
        (wm_bs1_loop wm T e fuel t s).calls = s.calls ++ new ∧
        (∀ r ∈ new, t ≤ r.2) ∧
        new.Pairwise (fun a b => ∃ n, a.2 ≤ n ∧ n < b.2 ∧ T.getD n 0 = 10) := by
  intro fuel
  induction fuel with
  | zero =>
    intro t s
    exact ⟨[], by simp [wm_bs1_loop], by simp, List.Pairwise.nil⟩
  | succ fuel ih =>
    intro t s
    rw [wm_bs1_loop_succ]
    obtain ⟨new1, c1, c2, c3⟩ := wm_bs1_chain_line wm T e hcb hl htr hT t
      (wm.pat_hash.getD (T.getD t 0).val []) false s (hgood _)
    have hnew1 : ∀ r ∈ new1, r.2 = t := by
      intro r hr
      rcases c3 with h | ⟨idx, h, _⟩
      · rw [h] at hr; simp at hr
      · rw [h, List.mem_singleton] at hr
        rw [hr]
    have hpw1 : new1.Pairwise (fun a b => ∃ n, a.2 ≤ n ∧ n < b.2 ∧ T.getD n 0 = 10) := by
      rcases c3 with h | ⟨idx, h, _⟩
      · rw [h]; exact List.Pairwise.nil
      · rw [h]; exact List.pairwise_singleton _ _
    split
    · split
      · exact ⟨new1, c1, fun r hr => by rw [hnew1 r hr], hpw1⟩
      · obtain ⟨new2, d1, d2, d3⟩ := ih
          ((wm_bs1_chain wm T e (wm.pat_hash.getD (T.getD t 0).val []) t false s).text + 1)
          (wm_bs1_chain wm T e (wm.pat_hash.getD (T.getD t 0).val []) t false s).scan
        refine ⟨new1 ++ new2, ?_, ?_, ?_⟩
        · rw [d1, c1, List.append_assoc]
        · intro r hr
          rcases List.mem_append.1 hr with hr | hr
          · rw [hnew1 r hr]
          · have := d2 r hr
            omega
        · rw [List.pairwise_append]
          refine ⟨hpw1, d3, ?_⟩
          intro a ha b hb
          rcases c3 with h | ⟨idx, h, hn⟩
          · rw [h] at ha; simp at ha
          · have := hnew1 a ha
            have := d2 b hb
            exact ⟨_, by omega, by omega, hn⟩
    · exact ⟨[], by simp, by simp, List.Pairwise.nil⟩

theorem search_text_line {pats : List (List Byte)} {nocase : Bool} {wm : WuManber}
    (hp : Prepared pats nocase wm) (hl : wm.one_match_per_line = true)
    (hne : ∀ P ∈ pats, P ≠ []) (hnl : ∀ P ∈ pats, (10 : Byte) ∉ P)
    (T : List Byte) (e : Nat) (hT : ∀ p, p < e → ∃ n, n < e ∧ p ≤ n ∧ T.getD n 0 = 10) :
    (wm_search_text wm (some T) e true).calls.Pairwise
      (fun r1 r2 => ∃ n, r1.2 ≤ n ∧ n < r2.2 ∧ T.getD n 0 = 10) := by
  have hpa : Prepared pats nocase (armed wm) :=
    prepared_congr hp rfl rfl rfl rfl rfl rfl rfl rfl rfl rfl rfl
  have hgood : ∀ h, ∀ idx ∈ (armed wm).pat_hash.getD h [],
      (armed wm).p_size ≤ ((armed wm).patt.getD idx []).length ∧
      1 ≤ ((armed wm).patt.getD idx []).length ∧
      (armed wm).pat_len.getD idx 0 = ((armed wm).patt.getD idx []).length ∧
      (10 : Byte) ∉ (armed wm).patt.getD idx [] := by
    intro h idx hidx
    obtain ⟨i1, i2⟩ := chain_mem_range hpa ⟨h, hidx⟩
    have hmem := prepared_mem idx i1 i2
    have hle := hpa.p_size_le_len _ hmem (hne _ hmem)
    have hpos := hpa.p_size_pos
    rw [prepared_patt hpa idx i1]
    refine ⟨hle, by omega, ?_, hnl _ hmem⟩
    rw [hpa.pat_len_eq idx i1 i2, prepared_patt hpa idx i1]
  rw [search_text_calls]
  by_cases hb : wm.use_bs1 = true
  · rw [if_pos hb]
    obtain ⟨new, h1, _, h3⟩ := wm_bs1_loop_line (armed wm) T e rfl hl hpa.tr_eq hT
      (fun h idx hidx => (hgood h idx hidx).2) (e + 1) 0 { n_matches := 0, calls := [] }
    have hc : (wm_bs1 (armed wm) T e { n_matches := 0, calls := [] }).calls = new := by
      unfold wm_bs1; rw [h1]; rfl
    rw [hc]; exact h3
  · rw [if_neg hb]
    obtain ⟨new, h1, _, h3⟩ := wm_bs3_loop_line (armed wm) T e rfl hl hpa.tr_eq
      hpa.p_size_pos hT
      (fun h idx hidx => ⟨(hgood h idx hidx).1, (hgood h idx hidx).2.2⟩) (e + 1)
      ((armed wm).p_size - 1) { n_matches := 0, calls := [] } (le_refl _)
    have hc : (wm_bs3 (armed wm) T e { n_matches := 0, calls := [] }).calls = new := by
      unfold wm_bs3; rw [h1]; rfl
    rw [hc]; exact h3

/-- C20: `one_match_per_line` yields at most one report per line.  With the flag set
(`one_match_per_offset` either way), for every list of non-empty patterns none of which
contains the byte `'\n'`, either scanner variant, and every text in which every index below
`end` is followed by a `'\n'` before index `end`: for any two reports `(i1, o1)` and
`(i2, o2)` made in that order there is a `'\n'` at some index `n` with `o1 <= n < o2`. -/
theorem one_match_per_line_separates (pats : List (List Byte)) (nocase : Bool)
    (one_match_per_offset : Bool) (T : List Byte) (e : Nat)
    (hne : ∀ P ∈ pats, P ≠ []) (hnl : ∀ P ∈ pats, (10 : Byte) ∉ P)
    (hT : ∀ p, p < e → ∃ n, n < e ∧ p ≤ n ∧ T.getD n 0 = 10) :
    ∃ wm, wm_search_init pats nocase = Except.ok wm ∧
      (wm_search_text (set_flags wm true one_match_per_offset) (some T) e true).calls.Pairwise
        (fun r1 r2 => ∃ n, r1.2 ≤ n ∧ n < r2.2 ∧ T.getD n 0 = 10) := by
  obtain ⟨wm, h1, hp, _, _⟩ := init_ok pats nocase
  exact ⟨wm, h1, search_text_line (prepared_set_flags hp true one_match_per_offset) rfl
    hne hnl T e hT⟩

/-- C20 at the pattern list `["ab"]` and the text of the two lines `"ab"`, NUL-terminated
with `end = 6`. -/
theorem one_match_per_line_separates_witness :
    (∀ P ∈ ([[97, 98]] : List (List Byte)), P ≠ []) ∧
    (∀ P ∈ ([[97, 98]] : List (List Byte)), (10 : Byte) ∉ P) ∧
    (∀ p, p < 6 → ∃ n, n < 6 ∧ p ≤ n ∧
      ([97, 98, 10, 97, 98, 10, 0] : List Byte).getD n 0 = 10) ∧
    ∃ wm, wm_search_init [[97, 98]] false = Except.ok wm ∧
      (wm_search_text (set_flags wm true false) (some [97, 98, 10, 97, 98, 10, 0]) 6
          true).calls.Pairwise
        (fun r1 r2 => ∃ n, r1.2 ≤ n ∧ n < r2.2 ∧
          ([97, 98, 10, 97, 98, 10, 0] : List Byte).getD n 0 = 10) :=
  ⟨by decide, by decide, by decide,
    one_match_per_line_separates [[97, 98]] false false [97, 98, 10, 97, 98, 10, 0] 6
      (by decide) (by decide) (by decide)⟩

/-! ## The reads of the multi-byte scanner -/

/-- The checks bite: with `one_match_per_line` set, the pattern `"ab"` and the NUL-terminated
text `"ab"` without a newline (`end = 2`), the newline loop that follows the report runs past
index `end`, and the checked scanner fails. -/
theorem newline_loop_leaves_the_buffer :
    (match wm_search_init [[97, 98]] false with
      | Except.ok wm =>
        some ((wm_bs3_checked (armed (set_flags wm true false)) [97, 98, 0] 2
          { n_matches := 0, calls := [] }).map (fun s => s.calls))
      | Except.error _ => none) = some none := by
  decide

end Wumanber
